import Mathlib

/-!
ConradIrwin/udt: edit tree, skip list and columnar codec.

A shallow embedding of `udt.go` and `encoding.go`.

Conventions of the embedding:

* a Go `[]byte` and a Go `string` are a `List Nat` whose elements are below 256
  (`IsBytes`); a nil slice and an empty slice are both `[]`;
* `uint8`, `uint32`, `uint64` values are `Nat`, reduced with `%` wherever the Go
  arithmetic can wrap; a `rune` (`int32`) is an `Int`;
* a panic or a returned `error` is an `Except.error` carrying a `Failure`;
* a `*EditTreeNode` is an allocation number (`addr`); the tree itself owns its
  nodes, while `Edits` and the skip list hold allocation numbers.
-/

namespace UDT

/-! ## Failures -/

/-- Ways in which an operation of the package stops without a result: the `error`
values it returns and the panics it raises. -/
inductive Failure where
  /-- `Load`: `fmt.Errorf("udt: missing length field")`. -/
  | missingLength
  /-- `Load`: `fmt.Errorf("udt: contains invalid utf8")`. -/
  | invalidUTF8
  /-- `PrepareToEdit`: `fmt.Errorf("couldn't read ...")` for the frame of that number. -/
  | couldntRead (frame : Nat)
  /-- `Insert`, `Remove`: `panic("d.PrepareToEdit() must be called before ...")`. -/
  | precondition
  /-- `predForIndex`: `panic(fmt.Errorf("index %d out of bounds", index))`. -/
  | outOfBounds
  /-- `ApplyAt`: `panic("udt: duplicate Edit applied")`. -/
  | duplicate
  /-- Run-time panic: nil pointer dereference. -/
  | nilDeref
  /-- Run-time panic: assignment to entry in nil map. -/
  | nilMap
  /-- Run-time panic: slice bounds out of range. -/
  | sliceBounds
deriving DecidableEq, Repr

/-- The failures that are panics (abnormal termination) rather than returned errors. -/
def Failure.isPanic : Failure → Bool
  | .missingLength => false
  | .invalidUTF8 => false
  | .couldntRead _ => false
  | _ => true

instance {ε α : Type} [DecidableEq ε] [DecidableEq α] : DecidableEq (Except ε α)
  | .ok a, .ok b => if h : a = b then isTrue (by rw [h]) else isFalse (by simp [h])
  | .error a, .error b => if h : a = b then isTrue (by rw [h]) else isFalse (by simp [h])
  | .ok _, .error _ => isFalse (by simp)
  | .error _, .ok _ => isFalse (by simp)

/-- A byte sequence: every element is a `uint8`. -/
def IsBytes (b : List Nat) : Prop := ∀ x ∈ b, x < 256

instance (b : List Nat) : Decidable (IsBytes b) := by
  unfold IsBytes; infer_instance

/-! ## ULEB128 (`udt.go`, `uleb` and `readULEB`) -/

/-- The loop `for n != 0x00 { ... }` of `uleb`; `fuel` bounds the number of
iterations (five are enough for a `uint32`, see `ulebLoop_fuel`). -/
def ulebLoop : Nat → Nat → List Nat
  | 0, _ => []
  | fuel + 1, n =>
    if n = 0 then []
    else
      let b := n &&& 0x7F
      let n := n >>> 7
      let b := if n ≠ 0 then b ||| 0x80 else b
      b :: ulebLoop fuel n

/-- `uleb(n uint32) []byte`. -/
def uleb (n : Nat) : List Nat :=
  if n = 0 then [0] else ulebLoop 5 n

/-- The loop of `readULEB`: `b` is the unread input, `n` the `uint64` accumulator
and `i` the number of bytes consumed so far. `none` is `ok = false`. -/
def readULEBLoop : List Nat → Nat → Nat → Option (Nat × List Nat)
  | [], _, _ => none
  | c :: b, n, i =>
    let n := n ||| ((c &&& 0x7f) <<< (i * 7)) % 18446744073709551616
    let i := i + 1
    if c &&& 0x80 = 0 then
      if (c = 0 ∧ i > 1) ∨ i ≥ 10 ∨ n > 4294967295 then none
      else some (n % 4294967296, b)
    else readULEBLoop b n i

/-- `readULEB(b []byte) (uint32, []byte, bool)`. -/
def readULEB (b : List Nat) : Option (Nat × List Nat) :=
  readULEBLoop b 0 0

/-- The value accumulated by `readULEB` over the bytes `b`: seven bits per byte,
least significant group first. -/
def ulebValue : List Nat → Nat
  | [] => 0
  | c :: b => c % 128 + 128 * ulebValue b

/-- `readLengthPrefixed(b []byte) ([]byte, []byte, bool)`: `ok none` is `ok = false`;
the slice expressions `b[0:len]`, `b[len:]` panic when `len` exceeds `len(b)`. -/
def readLengthPrefixed (b : List Nat) : Except Failure (Option (List Nat × List Nat)) :=
  match readULEB b with
  | none => .ok none
  | some (len, b) =>
    if len > b.length then .error .sliceBounds
    else .ok (some (b.take len, b.drop len))

/-- `appendLengthPrefixd(b, c)`. -/
def appendLengthPrefixd (b c : List Nat) : List Nat :=
  (b ++ uleb (c.length % 4294967296)) ++ c

/-! ## UTF-8 (Go's `unicode/utf8` and the `string(rune)` conversion) -/

/-- The rune `delete = rune(math.MaxInt32)`. -/
def delete : Int := 2147483647

/-- Whether a rune is a Unicode scalar value. -/
def validRune (r : Int) : Bool :=
  (0 ≤ r && r < 0xD800) || (0xDFFF < r && r ≤ 0x10FFFF)

/-- `utf8.RuneLen(r)`: the number of bytes of the encoding, `-1` for a rune that
is not a scalar value. -/
def runeLen (r : Int) : Int :=
  if r < 0 then -1
  else if r ≤ 0x7F then 1
  else if r ≤ 0x7FF then 2
  else if 0xD800 ≤ r ∧ r ≤ 0xDFFF then -1
  else if r ≤ 0xFFFF then 3
  else if r ≤ 0x10FFFF then 4
  else -1

/-- The UTF-8 encoding of a scalar value given as a natural number. -/
def encodeNat (r : Nat) : List Nat :=
  if r ≤ 0x7F then [r]
  else if r ≤ 0x7FF then [0xC0 ||| (r >>> 6), 0x80 ||| (r &&& 0x3F)]
  else if r ≤ 0xFFFF then
    [0xE0 ||| (r >>> 12), 0x80 ||| ((r >>> 6) &&& 0x3F), 0x80 ||| (r &&& 0x3F)]
  else
    [0xF0 ||| (r >>> 18), 0x80 ||| ((r >>> 12) &&& 0x3F),
      0x80 ||| ((r >>> 6) &&& 0x3F), 0x80 ||| (r &&& 0x3F)]

/-- `string(r)` and `utf8.EncodeRune`: the encoding of `r`, or of U+FFFD when `r`
is not a scalar value. -/
def encodeRune (r : Int) : List Nat :=
  if validRune r then encodeNat r.toNat else [0xEF, 0xBF, 0xBD]

/-- A continuation byte `0x80..0xBF`. -/
def isCont (b : Nat) : Bool := 0x80 ≤ b && b ≤ 0xBF

/-- `utf8.Valid(p)` with `fuel` at least the length of `p`. -/
def utf8ValidLoop : Nat → List Nat → Bool
  | 0, p => p.isEmpty
  | fuel + 1, p =>
    match p with
    | [] => true
    | b0 :: p =>
      if b0 < 0x80 then utf8ValidLoop fuel p
      else if 0xC2 ≤ b0 ∧ b0 ≤ 0xDF then
        match p with
        | b1 :: p => isCont b1 && utf8ValidLoop fuel p
        | _ => false
      else if 0xE0 ≤ b0 ∧ b0 ≤ 0xEF then
        match p with
        | b1 :: b2 :: p =>
          (if b0 = 0xE0 then 0xA0 ≤ b1 && b1 ≤ 0xBF
            else if b0 = 0xED then 0x80 ≤ b1 && b1 ≤ 0x9F
            else isCont b1) && isCont b2 && utf8ValidLoop fuel p
        | _ => false
      else if 0xF0 ≤ b0 ∧ b0 ≤ 0xF4 then
        match p with
        | b1 :: b2 :: b3 :: p =>
          (if b0 = 0xF0 then 0x90 ≤ b1 && b1 ≤ 0xBF
            else if b0 = 0xF4 then 0x80 ≤ b1 && b1 ≤ 0x8F
            else isCont b1) && isCont b2 && isCont b3 && utf8ValidLoop fuel p
        | _ => false
      else false

/-- `utf8.Valid(p)`. -/
def utf8Valid (p : List Nat) : Bool := utf8ValidLoop p.length p

/-! ## Run-length codec (`encoding.go`) -/

/-- The `uint32` subtraction `a - b`. -/
def subU32 (a b : Nat) : Nat := (a + 4294967296 - b % 4294967296) % 4294967296

/-- The struct `RLEEncoder`; `last == nil` is `last = []`. -/
structure RLEEncoder where
  runs : List (List Nat)
  last : List Nat
  repeatCount : Nat
  litCount : Nat
  litRun : List Nat
  isPair : Bool
deriving DecidableEq, Repr

/-- `NewRLEEncoder()`. -/
def NewRLEEncoder : RLEEncoder :=
  { runs := [], last := [], repeatCount := 0, litCount := 0, litRun := [], isPair := false }

/-- `(e *RLEEncoder) Append(b []byte)`. -/
def RLEEncoder.Append (e : RLEEncoder) (b : List Nat) : RLEEncoder :=
  let isSame := decide (e.last = b)
  -- we were repeating, either continue, or switch to literal
  if e.repeatCount > 0 then
    if isSame then
      { e with repeatCount := (e.repeatCount + 1) % 4294967296 }
    else
      let buf := uleb (subU32 (e.repeatCount * 2 % 4294967296) 5) ++ e.last
      { e with runs := e.runs ++ [buf], repeatCount := 0, last := b }
  -- we had a pending pair, if we get a third match switch to repeating
  else if e.isPair then
    if isSame then
      if e.litCount > 0 then
        { e with
          isPair := false
          runs := e.runs ++ [uleb (subU32 (e.litCount * 2 % 4294967296) 2)] ++ [e.litRun]
          litCount := 0
          litRun := []
          repeatCount := 3
          last := b }
      else
        { e with isPair := false, repeatCount := 3, last := b }
    else
      { e with
        isPair := false
        litCount := (e.litCount + 2) % 4294967296
        litRun := (e.litRun ++ e.last) ++ e.last
        last := b }
  -- if matches the previous character switch to pending-pair mode
  else if isSame then
    { e with isPair := true }
  -- otherwise flush last into the run and continue
  else if e.last.length > 0 then
    { e with
      litCount := (e.litCount + 1) % 4294967296
      litRun := e.litRun ++ e.last
      last := b }
  else
    { e with last := b }

/-- The first half of `(e *RLEEncoder) WriteTo`: the tail is flushed into `runs`. -/
def RLEEncoder.flush (e : RLEEncoder) : RLEEncoder :=
  if e.repeatCount > 0 then
    let buf := uleb (subU32 (e.repeatCount * 2 % 4294967296) 5) ++ e.last
    { e with runs := e.runs ++ [buf] }
  else
    let e :=
      if e.isPair then
        { e with
          litCount := (e.litCount + 2) % 4294967296
          litRun := (e.litRun ++ e.last) ++ e.last }
      else if e.last.length > 0 then
        { e with
          litCount := (e.litCount + 1) % 4294967296
          litRun := e.litRun ++ e.last }
      else e
    if e.litCount > 0 then
      { e with runs := e.runs ++ [uleb (subU32 (e.litCount * 2 % 4294967296) 2)] ++ [e.litRun] }
    else e

/-- `(e *RLEEncoder) WriteTo(w)` on a writer that never fails: the bytes written,
and the encoder afterwards (`*e = *NewRLEEncoder()`). -/
def RLEEncoder.WriteTo (e : RLEEncoder) : List Nat × RLEEncoder :=
  let e := e.flush
  let total := (e.runs.map List.length).sum
  (uleb (total % 4294967296) ++ e.runs.flatten, NewRLEEncoder)

/-- The struct `RLEDecoder`. -/
structure RLEDecoder where
  buffer : List Nat
  litCount : Nat
  repCount : Nat
  last : List Nat
deriving DecidableEq, Repr

/-- `(d *RLEDecoder) Next(next func([]byte) []byte) []byte`: the token returned
(`[]` for nil) and the decoder afterwards. `d.buffer[len(prefix):]` panics when
the tokenizer returns more bytes than the buffer holds. -/
def RLEDecoder.Next (d : RLEDecoder) (next : List Nat → List Nat) :
    Except Failure (List Nat × RLEDecoder) :=
  let step (d : RLEDecoder) : Except Failure (List Nat × RLEDecoder) :=
    let pre := next d.buffer
    if d.repCount > 0 then
      .ok (pre, { d with repCount := d.repCount - 1 })
    else if pre.length > d.buffer.length then .error .sliceBounds
    else
      .ok (pre, { d with
        buffer := d.buffer.drop pre.length
        litCount := subU32 d.litCount 1 })
  if d.litCount = 0 ∧ d.repCount = 0 then
    match readULEB d.buffer with
    | none => .ok ([], d)
    | some (count, rest) =>
      let d := { d with buffer := rest }
      if count % 2 = 0 then
        step { d with litCount := (count + 2) % 4294967296 / 2 }
      else
        step { d with repCount := (count + 5) % 4294967296 / 2 }
  else step d

/-! ## Delta codec -/

/-- The struct `DeltaEncoder`. -/
structure DeltaEncoder where
  current : Nat
deriving DecidableEq, Repr

/-- `(d *DeltaEncoder) Append(v uint32) uint32`: the value returned and the
encoder afterwards. -/
def DeltaEncoder.Append (d : DeltaEncoder) (v : Nat) : Nat × DeltaEncoder :=
  let ret : Int := (v : Int) - (d.current : Int)
  if ret < 0 then
    (((0 - ret).toNat % 4294967296 * 2 + 1) % 4294967296, { current := v })
  else
    (ret.toNat % 4294967296 * 2 % 4294967296, { current := v })

/-! ## Data model (`udt.go`) -/

/-- The struct `ID`; `actorID` is a Go string, kept as its bytes. -/
structure ID where
  actorID : List Nat
  version : Nat
deriving DecidableEq, Repr

/-- The struct `EditTreeNode`. `addr` is the allocation number of the node: two
pointers `*EditTreeNode` are equal when their allocation numbers are. -/
inductive EditTreeNode where
  | mk (addr : Nat) (char : Int) (id : ID) (next : List EditTreeNode)
deriving Repr

/-- The allocation number of a node. -/
def EditTreeNode.addr : EditTreeNode → Nat
  | .mk a _ _ _ => a

/-- The field `char`. -/
def EditTreeNode.char : EditTreeNode → Int
  | .mk _ c _ _ => c

/-- The field `id`. -/
def EditTreeNode.id : EditTreeNode → ID
  | .mk _ _ i _ => i

/-- The field `next`. -/
def EditTreeNode.next : EditTreeNode → List EditTreeNode
  | .mk _ _ _ n => n

/-- The struct `SkipListNode`; `node` is a pointer, kept as an allocation number. -/
structure SkipListNode where
  countBefore : Nat
  node : Nat
deriving DecidableEq, Repr

/-- The struct `Edit`. -/
structure Edit where
  char : Int
  id : ID
  prev : ID
deriving DecidableEq, Repr

/-- The struct `Document`. A nil slice, map or pointer is `none`. `actorIDs` holds
the keys of the Go map (every value stored is `true`), `Edits` holds the entries
of the Go map, most recent first, and `nextAddr` is the allocation number that the
next `&EditTreeNode{...}` receives. -/
structure Document where
  value : List Nat
  meta : List Nat
  skipList : Option (List SkipListNode)
  maxVersion : Nat
  actorIDs : Option (List (List Nat))
  Edits : Option (List (ID × Nat))
  head : Option EditTreeNode
  nextAddr : Nat
deriving Repr

/-- Reading the map `Edits` at a key; `none` is the nil pointer. -/
def lookupEdits : List (ID × Nat) → ID → Option Nat
  | [], _ => none
  | (k, v) :: m, id => if k = id then some v else lookupEdits m id

mutual
/-- Dereferencing a pointer: the node of that allocation number below `et`. -/
def findNode (a : Nat) : EditTreeNode → Option EditTreeNode
  | .mk addr c id next =>
    if addr = a then some (.mk addr c id next) else findNodeList a next
/-- Dereferencing a pointer among a list of subtrees. -/
def findNodeList (a : Nat) : List EditTreeNode → Option EditTreeNode
  | [] => none
  | c :: cs =>
    match findNode a c with
    | some r => some r
    | none => findNodeList a cs
end

mutual
/-- Assigning `g(p.next)` to `p.next`, for `p` the node of allocation number `a`. -/
def setNext (a : Nat) (g : List EditTreeNode → List EditTreeNode) :
    EditTreeNode → EditTreeNode
  | .mk addr c id next =>
    if addr = a then .mk addr c id (g next) else .mk addr c id (setNextList a g next)
/-- The same assignment among a list of subtrees. -/
def setNextList (a : Nat) (g : List EditTreeNode → List EditTreeNode) :
    List EditTreeNode → List EditTreeNode
  | [] => []
  | c :: cs => setNext a g c :: setNextList a g cs
end

/-- The number of leading children whose `char` is `delete`: the loop
`for i < len(et.next) && et.next[i].char == delete { i += 1 }`. -/
def deleteCount : List EditTreeNode → Nat
  | [] => 0
  | c :: cs => if c.char = delete then deleteCount cs + 1 else 0

mutual
/-- `(et *EditTreeNode) charsInOrder(f)`. The callback `f` may read and write
variables of its caller: these are the state `σ`. The `Bool` of the result is
the one `charsInOrder` returns. -/
def EditTreeNode.charsInOrder {σ : Type} (f : σ → EditTreeNode → σ × Bool) :
    EditTreeNode → σ → σ × Bool
  | .mk addr c id next, s =>
    let i := deleteCount next
    let isDelete := decide (0 < i)
    if !isDelete && id.version != 0 then
      let r := f s (.mk addr c id next)
      if !r.2 then (r.1, false) else charsInOrderFrom f i next r.1
    else charsInOrderFrom f i next s
/-- The loop `for i < len(et.next) { ... i += 1 }` of `charsInOrder`, entered
with `i` children still to be skipped. -/
def charsInOrderFrom {σ : Type} (f : σ → EditTreeNode → σ × Bool) :
    Nat → List EditTreeNode → σ → σ × Bool
  | _, [], s => (s, true)
  | i + 1, _ :: cs, s => charsInOrderFrom f i cs s
  | 0, c :: cs, s =>
    let r := EditTreeNode.charsInOrder f c s
    if !r.2 then (r.1, false) else charsInOrderFrom f 0 cs r.1
end

mutual
/-- `(et *EditTreeNode) EditsInOrder(f)`, with the state of the callback passed
along as for `charsInOrder`. -/
def EditTreeNode.EditsInOrder {σ : Type}
    (f : σ → EditTreeNode → EditTreeNode → σ × Bool) : EditTreeNode → σ → σ × Bool
  | .mk addr c id next, s => EditsInOrderLoop f (.mk addr c id next) next s
/-- The loop `for _, next := range et.next` of `EditsInOrder`; `et` is the node
whose children are ranged over. -/
def EditsInOrderLoop {σ : Type} (f : σ → EditTreeNode → EditTreeNode → σ × Bool)
    (et : EditTreeNode) : List EditTreeNode → σ → σ × Bool
  | [], s => (s, true)
  | n :: ns, s =>
    let r := f s n et
    if !r.2 then (r.1, false)
    else
      let r := EditTreeNode.EditsInOrder f n r.1
      if !r.2 then (r.1, false) else EditsInOrderLoop f et ns r.1
end

/-! ## Document operations (`udt.go`) -/

/-- The conversion `uint8(x)` of an `int`. -/
def toU8 (x : Int) : Nat := (x % 256).toNat

/-- The conversion `uint32(x)` of an `int`. -/
def toU32 (x : Int) : Nat := (x % 4294967296).toNat

/-- Comparison `a < b` of two Go strings: bytewise, a proper prefix being smaller. -/
def strLt : List Nat → List Nat → Bool
  | [], [] => false
  | [], _ :: _ => true
  | _ :: _, [] => false
  | a :: as, b :: bs => decide (a < b) || (decide (a = b) && strLt as bs)

/-- `New()`: the root is the first node allocated. -/
def New : Document :=
  { value := []
    meta := []
    skipList := none
    maxVersion := 0
    actorIDs := some []
    Edits := some [(⟨[], 0⟩, 0)]
    head := some (.mk 0 0 ⟨[], 0⟩ [])
    nextAddr := 1 }

/-- `Load(bytes)`. -/
def Load (bytes : List Nat) : Except Failure Document :=
  match readLengthPrefixed bytes with
  | .error p => .error p
  | .ok none => .error .missingLength
  | .ok (some (value, rest)) =>
    if !utf8Valid value then .error .invalidUTF8
    else
      .ok
        { value := value
          meta := rest
          skipList := none
          maxVersion := 0
          actorIDs := none
          Edits := none
          head := none
          nextAddr := 0 }

/-- The callback that `String` hands to `charsInOrder`; its state is `ret`. -/
def stringVisit (ret : List Nat) (et : EditTreeNode) : List Nat × Bool :=
  (ret ++ encodeRune et.char, true)

/-- `(d *Document) String()`. Calling `charsInOrder` on a nil `head` panics. -/
def Document.String (d : Document) : Except Failure (List Nat) :=
  match d.Edits with
  | none => .ok d.value
  | some _ =>
    match d.head with
    | none => .error .nilDeref
    | some head => .ok (head.charsInOrder stringVisit []).1

/-- `(d *Document) PrepareToEdit()`; the `fmt.Println` calls are left out. -/
def Document.PrepareToEdit (d : Document) : Except Failure Document :=
  match readLengthPrefixed d.meta with
  | .error p => .error p
  | .ok none => .error (.couldntRead 1)
  | .ok (some (_actorIDs, rest)) =>
  match readLengthPrefixed rest with
  | .error p => .error p
  | .ok none => .error (.couldntRead 2)
  | .ok (some (_backing, rest)) =>
  match readLengthPrefixed rest with
  | .error p => .error p
  | .ok none => .error (.couldntRead 3)
  | .ok (some (_predActors, rest)) =>
  match readLengthPrefixed rest with
  | .error p => .error p
  | .ok none => .error (.couldntRead 4)
  | .ok (some (_predVersion, rest)) =>
  match readLengthPrefixed rest with
  | .error p => .error p
  | .ok none => .error (.couldntRead 5)
  | .ok (some (_idActors, rest)) =>
  match readLengthPrefixed rest with
  | .error p => .error p
  | .ok none => .error (.couldntRead 6)
  | .ok (some (_idVersion, _rest)) =>
    if d.Edits.isSome then .ok d else .ok d

/-- The callback that `ensureSkipList` hands to `charsInOrder`; its state is the
list under construction and the variables `delta` and `last`. -/
def ensureSkipListStep (s : List SkipListNode × Nat × Option EditTreeNode)
    (et : EditTreeNode) : (List SkipListNode × Nat × Option EditTreeNode) × Bool :=
  -- only pick on live characters
  if et.char = delete ∨ (et.next.length > 0 ∧ (et.next.head?.map (·.char)) = some delete) then
    (s, true)
  else
    let len := toU8 (runeLen et.char)
    let delta := (s.2.1 + len) % 256
    if delta > 100 then
      ((s.1 ++ [{ countBefore := (delta + 256 - len) % 256, node := et.addr }], 0, none), true)
    else
      ((s.1, delta, some et), true)

/-- `(d *Document) ensureSkipList()`: the list returned and the document afterwards. -/
def Document.ensureSkipList (d : Document) : Except Failure (List SkipListNode × Document) :=
  match d.skipList with
  | some skipList => .ok (skipList, d)
  | none =>
    match d.head with
    | none => .error .nilDeref
    | some head =>
      let r := (head.charsInOrder ensureSkipListStep
        ([{ countBefore := 0, node := head.addr }], 0, none)).1
      let skipList :=
        match r.2.2 with
        | some last =>
          r.1 ++ [{ countBefore := (r.2.1 + 256 - toU8 (runeLen last.char)) % 256,
                    node := last.addr }]
        | none => r.1
      .ok (skipList, { d with skipList := some skipList })

/-- The body of the loop of `updateSkipList`. The state is `pos` and whether
`d.skipList = nil` has been executed. The loop variable `node` is a copy of the
list element, so the assignments to `node.countBefore` change no element. -/
def updateSkipListStep (delta : Int) (s : Nat × Bool) (node : SkipListNode) : Nat × Bool :=
  if node.countBefore < s.1 then
    (s.1 - node.countBefore, s.2)
  else if delta < 0 then
    if node.countBefore > toU8 (0 - delta) then
      let _node := { node with countBefore := (node.countBefore + 256 - toU8 delta) % 256 }
      s
    else (s.1, true)
  else if delta > 0 then
    if (node.countBefore + toU8 delta) % 256 < 200 then
      let _node := { node with countBefore := (node.countBefore + toU8 delta) % 256 }
      s
    else (s.1, true)
  else s

/-- `(d *Document) updateSkipList(pos, delta)`. -/
def Document.updateSkipList (d : Document) (pos : Nat) (delta : Int) :
    Except Failure Document :=
  match d.ensureSkipList with
  | .error p => .error p
  | .ok (skipList, d) =>
    let r := skipList.foldl (updateSkipListStep delta) (pos, false)
    let d := if r.2 then { d with skipList := none } else d
    if r.1 > 200 then .ok { d with skipList := none } else .ok d

/-- The body of the first loop of `predForIndex`; the state is `start` and `pos`. -/
def predForIndexStep (index : Nat) (s : Nat × Nat) (node : SkipListNode) : Nat × Nat :=
  if (s.2 + node.countBefore) % 4294967296 ≤ index then
    (node.node, (s.2 + node.countBefore) % 4294967296)
  else s

/-- The callback that `predForIndex` hands to `charsInOrder`; the state is `pos`
and `found`. -/
def predForIndexVisit (index : Nat) (s : Nat × Option EditTreeNode) (et : EditTreeNode) :
    (Nat × Option EditTreeNode) × Bool :=
  let pos := (s.1 + toU32 (runeLen et.char)) % 4294967296
  if pos ≥ index then ((pos, some et), false) else ((pos, s.2), true)

/-- `(d *Document) predForIndex(index)`: the node returned and the document
afterwards. With a nil `head` the caller's `.id` panics, as does `charsInOrder`. -/
def Document.predForIndex (d : Document) (index : Nat) :
    Except Failure (EditTreeNode × Document) :=
  if index = 0 then
    match d.head with
    | none => .error .nilDeref
    | some head => .ok (head, d)
  else
    match d.ensureSkipList with
    | .error p => .error p
    | .ok (skipList, d) =>
      match d.head with
      | none => .error .nilDeref
      | some head =>
        let r := skipList.foldl (predForIndexStep index) (head.addr, 0)
        match findNode r.1 head with
        | none => .error .nilDeref
        | some start =>
          match (start.charsInOrder (predForIndexVisit index) (r.2, none)).1.2 with
          | none => .error .outOfBounds
          | some found => .ok (found, d)

/-- The loop `for i, conflict := range prev.next` of `ApplyAt`, entered at index
`i`: the value of `idx` after the loop, or the panic. -/
def applyAtLoop (prev : EditTreeNode) (e : Edit) : List EditTreeNode → Nat → Except Failure Nat
  | [], i => .ok i
  | conflict :: rest, i =>
    -- deletes go first
    if conflict.char = delete ∧ e.char ≠ delete then applyAtLoop prev e rest (i + 1)
    else if e.char = delete ∧ conflict.char ≠ delete then .ok i
    -- otherwise, sort by version (newer first)
    else if conflict.id.version > e.id.version then applyAtLoop prev e rest (i + 1)
    else if conflict.id.version < e.id.version then .ok i
    -- actions by the same actor as the previous character go first
    else if conflict.id.actorID = prev.id.actorID ∧ e.id.actorID ≠ prev.id.actorID then
      applyAtLoop prev e rest (i + 1)
    else if conflict.id.actorID ≠ prev.id.actorID ∧ e.id.actorID = prev.id.actorID then .ok i
    -- otherwise, tie-break by actor id
    else if strLt e.id.actorID conflict.id.actorID then applyAtLoop prev e rest (i + 1)
    else if strLt conflict.id.actorID e.id.actorID then .ok i
    else .error .duplicate

/-- `slices.Insert(s, idx, v)` for `idx ≤ len(s)`. -/
def slicesInsert (s : List EditTreeNode) (idx : Nat) (v : EditTreeNode) : List EditTreeNode :=
  s.take idx ++ v :: s.drop idx

/-- Adding a key to the map `actorIDs`. -/
def addActor (m : List (List Nat)) (a : List Nat) : List (List Nat) :=
  if a ∈ m then m else a :: m

/-- `(d *Document) ApplyAt(Edit, index)`. -/
def Document.ApplyAt (d : Document) (e : Edit) (index : Nat) : Except Failure Document :=
  let d := if e.id.version > d.maxVersion then { d with maxVersion := e.id.version } else d
  match (if e.id.version > 0 then
      match d.actorIDs with
      | none => Except.error Failure.nilMap
      | some m => Except.ok { d with actorIDs := some (addActor m e.id.actorID) }
    else Except.ok d) with
  | .error p => .error p
  | .ok d =>
    match (d.Edits.bind (lookupEdits · e.prev)), d.head with
    | none, _ => .error .nilDeref
    | some _, none => .error .nilDeref
    | some prevAddr, some head =>
      match findNode prevAddr head with
      | none => .error .nilDeref
      | some prev =>
        match applyAtLoop prev e prev.next 0 with
        | .error p => .error p
        | .ok idx =>
          let newNode := EditTreeNode.mk d.nextAddr e.char e.id []
          let delta : Int :=
            if e.char = delete then
              if idx = 0 then 0 - runeLen prev.char else 0
            else runeLen e.char
          match d.updateSkipList index delta with
          | .error p => .error p
          | .ok d =>
            .ok { d with
              Edits := d.Edits.map ((e.id, d.nextAddr) :: ·)
              head := some (setNext prevAddr (slicesInsert · idx newNode) head)
              nextAddr := d.nextAddr + 1 }

/-- `(d *Document) Insert(actorID, index, char)`: the `Edit` returned and the
document afterwards. -/
def Document.Insert (d : Document) (actorID : List Nat) (index : Nat) (char : Int) :
    Except Failure (Edit × Document) :=
  if d.Edits.isNone then .error .precondition
  else
    let id : ID := { actorID := actorID, version := (d.maxVersion + 1) % 4294967296 }
    match d.predForIndex index with
    | .error p => .error p
    | .ok (pred, d) =>
      let edit : Edit := { char := char, id := id, prev := pred.id }
      match d.ApplyAt edit index with
      | .error p => .error p
      | .ok d => .ok (edit, d)

/-- `(d *Document) Remove(actorID, index)`. -/
def Document.Remove (d : Document) (actorID : List Nat) (index : Nat) :
    Except Failure (Edit × Document) :=
  if d.Edits.isNone then .error .precondition
  else d.Insert actorID ((index + 1) % 4294967296) delete

/-! ## Backing and ID encoders (`encoding.go`) -/

/-- The struct `BackingEncoder`. -/
structure BackingEncoder where
  rle : RLEEncoder
  scratch : List Nat
deriving DecidableEq, Repr

/-- `NewBackingEncoder()`. -/
def NewBackingEncoder : BackingEncoder :=
  { rle := NewRLEEncoder, scratch := [0, 0, 0, 0] }

/-- The constant `insertOp`. -/
def insertOp : Nat := 0xFF

/-- The constant `deleteOp`. -/
def deleteOp : Nat := 0xFE

/-- The loop `for i := 0; i < deleteCount; i++ { e.rle.Append(tok) }`. -/
def appendTimes (rle : RLEEncoder) (tok : List Nat) : Nat → RLEEncoder
  | 0 => rle
  | k + 1 => appendTimes (rle.Append tok) tok k

/-- `(e *BackingEncoder) Append(et)`. -/
def BackingEncoder.Append (e : BackingEncoder) (et : EditTreeNode) : BackingEncoder :=
  let deleteCount := deleteCount et.next
  if deleteCount > 0 then
    let enc := encodeRune et.char
    let scratch := enc ++ e.scratch.drop enc.length
    { rle := appendTimes e.rle (scratch.take enc.length) deleteCount, scratch := scratch }
  else if et.char ≠ delete then
    { e with rle := e.rle.Append [insertOp] }
  else e

/-- `(e *BackingEncoder) WriteTo(w)`. -/
def BackingEncoder.WriteTo (e : BackingEncoder) : List Nat × BackingEncoder :=
  let r := e.rle.WriteTo
  (r.1, { e with rle := r.2 })

/-- Reading the map `table` of an `IDEncoder`: zero for a missing key. -/
def lookupTable : List (List Nat × Nat) → List Nat → Nat
  | [], _ => 0
  | (k, v) :: m, a => if k = a then v else lookupTable m a

/-- The struct `IDEncoder`. -/
structure IDEncoder where
  actorOffset : RLEEncoder
  liveDelta : DeltaEncoder
  deleteDelta : DeltaEncoder
  version : RLEEncoder
  table : List (List Nat × Nat)
deriving DecidableEq, Repr

/-- `NewIDEncoder(table)`. -/
def NewIDEncoder (table : List (List Nat × Nat)) : IDEncoder :=
  { actorOffset := NewRLEEncoder
    liveDelta := { current := 0 }
    deleteDelta := { current := 0 }
    version := NewRLEEncoder
    table := table }

/-- `(e *IDEncoder) Append(id, char)`. -/
def IDEncoder.Append (e : IDEncoder) (id : ID) (char : Int) : IDEncoder :=
  let actorOffset := e.actorOffset.Append (uleb (lookupTable e.table id.actorID))
  if char = delete then
    let r := e.deleteDelta.Append id.version
    { e with actorOffset := actorOffset, deleteDelta := r.2, version := e.version.Append (uleb r.1) }
  else
    let r := e.liveDelta.Append id.version
    { e with actorOffset := actorOffset, liveDelta := r.2, version := e.version.Append (uleb r.1) }

/-- `(e *IDEncoder) WriteTo(w)`. -/
def IDEncoder.WriteTo (e : IDEncoder) : List Nat × IDEncoder :=
  let i := e.actorOffset.WriteTo
  let j := e.version.WriteTo
  (i.1 ++ j.1, { e with actorOffset := i.2, version := j.2 })

/-! ## Serialization (`udt.go`, `WriteTo`) -/

/-- Inserting a string into a sorted list of strings. -/
def insertSorted (a : List Nat) : List (List Nat) → List (List Nat)
  | [] => [a]
  | b :: bs => if strLt b a then b :: insertSorted a bs else a :: b :: bs

/-- `slices.Sort(actorIDs)`. -/
def sortActors : List (List Nat) → List (List Nat)
  | [] => []
  | a :: as => insertSorted a (sortActors as)

/-- The map `lookup` built by `WriteTo`: `lookup[actorID] = uint32(i + 1)`, the
sorted keys being numbered from `i`. -/
def buildLookup : List (List Nat) → Nat → List (List Nat × Nat)
  | [], _ => []
  | a :: as, i => (a, (i + 1) % 4294967296) :: buildLookup as (i + 1)

/-- The closure `writeLenPrefixed` of `WriteTo`: the bytes it writes. -/
def writeLenPrefixed (b : List Nat) : List Nat :=
  uleb (b.length % 4294967296) ++ b

/-- The rune `'◊'` that `WriteTo` passes as the char of every predecessor row. -/
def lozenge : Int := 0x25CA

/-- The callback that `WriteTo` hands to `EditsInOrder`; its state is the three
encoders `backing`, `pred` and `id`. -/
def writeToVisit (s : BackingEncoder × IDEncoder × IDEncoder) (et p : EditTreeNode) :
    (BackingEncoder × IDEncoder × IDEncoder) × Bool :=
  ((s.1.Append et, s.2.1.Append p.id lozenge, s.2.2.Append et.id et.char), true)

/-- `(d *Document) WriteTo(w)` on a writer that never fails: the bytes written. -/
def Document.WriteTo (d : Document) : Except Failure (List Nat) :=
  match d.String with
  | .error p => .error p
  | .ok str =>
    match d.head with
    | none => .ok (writeLenPrefixed str ++ d.meta)
    | some head =>
      let actorIDs := sortActors (d.actorIDs.getD [])
      let scratch := actorIDs.flatten
      let lookup := buildLookup actorIDs 0
      let s := (head.EditsInOrder writeToVisit
        (NewBackingEncoder, NewIDEncoder lookup, NewIDEncoder lookup)).1
      .ok (writeLenPrefixed str ++ writeLenPrefixed scratch
        ++ s.1.WriteTo.1 ++ s.2.1.WriteTo.1 ++ s.2.2.WriteTo.1)

/-- The seven byte regions that `WriteTo` writes behind a length prefix for a
document with a tree: the text, the actor IDs and the payloads of the five
run-length columns. -/
def Document.regions (d : Document) : List (List Nat) :=
  match d.String, d.head with
  | .ok str, some head =>
    let actorIDs := sortActors (d.actorIDs.getD [])
    let lookup := buildLookup actorIDs 0
    let s := (head.EditsInOrder writeToVisit
      (NewBackingEncoder, NewIDEncoder lookup, NewIDEncoder lookup)).1
    [str, actorIDs.flatten, s.1.rle.flush.runs.flatten,
      s.2.1.actorOffset.flush.runs.flatten, s.2.1.version.flush.runs.flatten,
      s.2.2.actorOffset.flush.runs.flatten, s.2.2.version.flush.runs.flatten]
  | _, _ => []

/-! ## Sequences of calls -/

/-- A call of `Insert` or of `Remove`. -/
inductive Op where
  | ins (actorID : List Nat) (index : Nat) (char : Int)
  | rem (actorID : List Nat) (index : Nat)
deriving DecidableEq, Repr

/-- One call on a document: the document afterwards, or the failure. -/
def Document.call (d : Document) : Op → Except Failure Document
  | .ins a i c =>
    match d.Insert a i c with
    | .error p => .error p
    | .ok r => .ok r.2
  | .rem a i =>
    match d.Remove a i with
    | .error p => .error p
    | .ok r => .ok r.2

/-- A sequence of calls, each on the document left by the one before; it stops at
the first failure. -/
def Document.calls (d : Document) : List Op → Except Failure Document
  | [] => .ok d
  | o :: os =>
    match d.call o with
    | .error p => .error p
    | .ok d => Document.calls d os

/-- The text of the document that a sequence of calls leaves, starting from
`New()`; `none` when a call fails. -/
def textAfter (ops : List Op) : Option (List Nat) :=
  match New.calls ops with
  | .error _ => none
  | .ok d => d.String.toOption

/-- The failure of the first failing call of a sequence started from `New()`. -/
def failureAfter (ops : List Op) : Option Failure :=
  match New.calls ops with
  | .error p => some p
  | .ok _ => none

/-- The `k`-th of a run of distinct four-byte characters, U+10000 onwards. -/
def wideChar (k : Nat) : Int := 0x10000 + k

/-- Typing `n` four-byte characters one after the other: the `k`-th call inserts
`wideChar k` at the end of the text, byte offset `4 * k`. -/
def typeWide : Nat → List Op
  | 0 => []
  | n + 1 => typeWide n ++ [.ins [97] (4 * n) (wideChar n)]

/-- The text `wideChar lo, ..., wideChar (lo + n - 1)`. -/
def wideText (lo : Nat) : Nat → List Nat
  | 0 => []
  | n + 1 => encodeRune (wideChar lo) ++ wideText (lo + 1) n

/-- The tokenizer "the first byte of the buffer, or nothing if the buffer is empty". -/
def firstByte (b : List Nat) : List Nat := b.take 1

/-- The results of `k` successive calls of `Next`. -/
def RLEDecoder.nexts (d : RLEDecoder) (next : List Nat → List Nat) :
    Nat → Except Failure (List (List Nat))
  | 0 => .ok []
  | k + 1 =>
    match d.Next next with
    | .error p => .error p
    | .ok (tok, d) =>
      match RLEDecoder.nexts d next k with
      | .error p => .error p
      | .ok toks => .ok (tok :: toks)

/-- Appending a sequence of tokens to a fresh encoder and calling `WriteTo`. -/
def rleEncode (seq : List (List Nat)) : List Nat :=
  (seq.foldl RLEEncoder.Append NewRLEEncoder).WriteTo.1

/-- Stripping the length prefix of `rleEncode seq` and asking a decoder for `k` tokens. -/
def rleDecode (bytes : List Nat) (k : Nat) : Option (List (List Nat)) :=
  match readULEB bytes with
  | none => none
  | some (_, payload) =>
    match RLEDecoder.nexts { buffer := payload, litCount := 0, repCount := 0, last := [] }
      firstByte k with
    | .error _ => none
    | .ok toks => some toks

/-- Writing a document out, loading the bytes and preparing the loaded document
for editing, as the test `TestUDT` does. -/
def Document.reload (d : Document) : Except Failure Document :=
  match d.WriteTo with
  | .error p => .error p
  | .ok b =>
    match Load b with
    | .error p => .error p
    | .ok d => d.PrepareToEdit

/-- The calls of the test `TestUDT`. -/
def testOps : List Op :=
  [.ins (List.replicate 16 97) 0 97, .ins (List.replicate 16 97) 0 98,
    .ins (List.replicate 16 97) 2 99, .rem (List.replicate 16 97) 0,
    .rem (List.replicate 16 97) 1, .rem (List.replicate 16 97) 0]

/-- The document that the calls of `TestUDT` leave. -/
def testDoc : Document :=
  match New.calls testOps with
  | .ok d => d
  | .error _ => New

/-- The children of the root after `k` calls `Insert("a", 0, U+10000)`: the
newest first, none with children. -/
def frontNodes : Nat → List EditTreeNode
  | 0 => []
  | k + 1 => .mk (k + 1) 65536 ⟨[97], k + 1⟩ [] :: frontNodes k

/-- The entries of `Edits` after these `k` calls. -/
def frontEdits : Nat → List (ID × Nat)
  | 0 => [(⟨[], 0⟩, 0)]
  | k + 1 => (⟨[97], k + 1⟩, k + 1) :: frontEdits k

/-- The document after `k ≥ 1` calls `Insert("a", 0, U+10000)` on `New()`. -/
def frontDoc (k : Nat) : Document :=
  { value := []
    meta := []
    skipList := some [{ countBefore := 0, node := 0 }]
    maxVersion := k
    actorIDs := some [[97]]
    Edits := some (frontEdits k)
    head := some (.mk 0 0 ⟨[], 0⟩ (frontNodes k))
    nextAddr := k + 1 }

/-! ## Replaying edits, and edit trees up to allocation numbers -/

/-- Applying edits one after the other with `ApplyAt`, each with the index given
with it; it stops at the first failure. -/
def Document.applyAll (d : Document) : List (Edit × Nat) → Except Failure Document
  | [] => .ok d
  | ei :: l =>
    match d.ApplyAt ei.1 ei.2 with
    | .error p => .error p
    | .ok d => Document.applyAll d l

mutual
/-- The edit tree with every allocation number replaced by zero: what is left is
the `char` and `id` of every node and the sequence of children of every node. -/
def EditTreeNode.erase : EditTreeNode → EditTreeNode
  | .mk _ c id next => .mk 0 c id (eraseList next)
/-- The same for a list of subtrees. -/
def eraseList : List EditTreeNode → List EditTreeNode
  | [] => []
  | c :: cs => c.erase :: eraseList cs
end

mutual
/-- The nodes of a tree, the root first. -/
def subnodes : EditTreeNode → List EditTreeNode
  | .mk a c id next => .mk a c id next :: subnodesList next
/-- The nodes of a list of trees. -/
def subnodesList : List EditTreeNode → List EditTreeNode
  | [] => []
  | c :: cs => subnodes c ++ subnodesList cs
end

/-- The ids of the nodes of a tree. -/
def idsOf (t : EditTreeNode) : List ID := (subnodes t).map (·.id)

/-- The allocation numbers of the nodes of a tree. -/
def addrsOf (t : EditTreeNode) : List Nat := (subnodes t).map (·.addr)

mutual
/-- Assigning `g p.id p.next` to `p.next` for the nodes `p` selected by `sel`
(nodes below a selected node are left alone). -/
def setNextBy (sel : Nat → ID → Bool) (g : ID → List EditTreeNode → List EditTreeNode) :
    EditTreeNode → EditTreeNode
  | .mk addr c id next =>
    if sel addr id then .mk addr c id (g id next)
    else .mk addr c id (setNextByList sel g next)
/-- The same among a list of subtrees. -/
def setNextByList (sel : Nat → ID → Bool) (g : ID → List EditTreeNode → List EditTreeNode) :
    List EditTreeNode → List EditTreeNode
  | [] => []
  | c :: cs => setNextBy sel g c :: setNextByList sel g cs
end

/-- The sibling order of `ApplyAt`: whether the loop steps over a conflict with
fields `cchar`, `cid` when the edit has fields `nchar`, `nid` and the parent's
actor is `pa`, so that the conflict stays before the new node. -/
def staysBefore (pa : List Nat) (cchar : Int) (cid : ID) (nchar : Int) (nid : ID) : Bool :=
  if cchar = delete ∧ nchar ≠ delete then true
  else if nchar = delete ∧ cchar ≠ delete then false
  else if cid.version > nid.version then true
  else if cid.version < nid.version then false
  else if cid.actorID = pa ∧ nid.actorID ≠ pa then true
  else if cid.actorID ≠ pa ∧ nid.actorID = pa then false
  else strLt nid.actorID cid.actorID

/-- The sibling order as a relation between nodes with parent actor `pa`. -/
def Before (pa : List Nat) (x y : EditTreeNode) : Prop :=
  staysBefore pa x.char x.id y.char y.id = true

/-- The number of leading children that stay before the edit. -/
def findIdx (pa : List Nat) (e : Edit) : List EditTreeNode → Nat
  | [] => 0
  | c :: cs => if staysBefore pa c.char c.id e.char e.id then findIdx pa e cs + 1 else 0

/-- Applying an edit to a tree without allocation numbers: the new node goes
below the node whose id is `e.prev`, at the place the sibling order gives it. -/
def insertPure (e : Edit) (t : EditTreeNode) : EditTreeNode :=
  setNextBy (fun _ id => decide (id = e.prev))
    (fun id next => slicesInsert next (findIdx id.actorID e next) (.mk 0 e.char e.id [])) t

mutual
/-- Every node of the tree has its children in the sibling order. -/
def SortedTree : EditTreeNode → Prop
  | .mk _ _ id next => List.Pairwise (Before id.actorID) next ∧ SortedForest next
/-- The same for a list of subtrees. -/
def SortedForest : List EditTreeNode → Prop
  | [] => True
  | c :: cs => SortedTree c ∧ SortedForest cs
end

/-- Every edit of the sequence finds its predecessor when its turn comes. -/
def Causal : EditTreeNode → List Edit → Prop
  | _, [] => True
  | t, e :: l => e.prev ∈ idsOf t ∧ Causal (insertPure e t) l

/-- Applying a sequence of edits to a tree without allocation numbers. -/
def insertAll (t : EditTreeNode) : List Edit → EditTreeNode
  | [] => t
  | e :: l => insertAll (insertPure e t) l

/-- The document that replaying a sequence of edits on `New()` leaves (`New()`
itself when an edit fails). -/
def replayed (l : List (Edit × Nat)) : Document :=
  match New.applyAll l with
  | .ok d => d
  | .error _ => New

/-- The failure of the first failing edit of a sequence replayed on `New()`. -/
def replayFailure (l : List (Edit × Nat)) : Option Failure :=
  match New.applyAll l with
  | .ok _ => none
  | .error p => some p

/-- A tombstone that carries the id of the root, below the root. -/
def rootTombstone : Edit := { char := delete, id := ⟨[], 0⟩, prev := ⟨[], 0⟩ }

/-- The character 'y' by actor "a", version 1, below the node of id `("", 0)`. -/
def afterRoot : Edit := { char := 121, id := ⟨[97], 1⟩, prev := ⟨[], 0⟩ }

/-- The character 'a' by actor "x", version 1, below the root. -/
def editA : Edit := { char := 97, id := ⟨[120], 1⟩, prev := ⟨[], 0⟩ }

/-- The character 'b' by actor "y", version 1, below the root. -/
def editB : Edit := { char := 98, id := ⟨[121], 1⟩, prev := ⟨[], 0⟩ }

/-- The character 'c' by actor "x", version 2, below `editA`. -/
def editC : Edit := { char := 99, id := ⟨[120], 2⟩, prev := ⟨[120], 1⟩ }

/-- The three edits in the order A, B, C, each with an index for `ApplyAt`. -/
def orderABC : List (Edit × Nat) := [(editA, 0), (editB, 0), (editC, 1)]

/-- The three edits in the order B, A, C, with other indices. -/
def orderBAC : List (Edit × Nat) := [(editB, 5), (editA, 0), (editC, 2)]

/-- The id of the root. -/
def rootID : ID := ⟨[], 0⟩

/-- The tree and the map `Edits` fit together: allocation numbers and ids are
pairwise distinct, every allocation number is below `nextAddr`, `Edits` maps
exactly the id of every node to its allocation number, and siblings are sorted. -/
def WFTree (head : EditTreeNode) (m : List (ID × Nat)) (nextAddr : Nat) : Prop :=
  (addrsOf head).Nodup ∧ (idsOf head).Nodup ∧ (∀ a ∈ addrsOf head, a < nextAddr) ∧
    (∀ id a, lookupEdits m id = some a ↔
      (a, id) ∈ (subnodes head).map (fun n => (n.addr, n.id))) ∧
    SortedTree head

/-- A document with a tree in which tree and `Edits` fit together. -/
def Document.WF (d : Document) : Prop :=
  ∃ m head, d.Edits = some m ∧ d.head = some head ∧ WFTree head m d.nextAddr

/-- Tombstones first: 0 for a tombstone, 1 for a character. -/
def kindOf (c : Int) : Nat := if c = delete then 0 else 1

/-- The actor of the parent first: 0 for the parent's actor, 1 for another. -/
def contOf (pa a : List Nat) : Nat := if a = pa then 0 else 1

/-- A concatenation of `string(rune)` conversions. -/
def IsText (w : List Nat) : Prop := ∃ rs : List Int, w = rs.flatMap encodeRune

end UDT

namespace UDT

/-! ## Duplicates and the sibling order -/

/-- A tombstone that carries the id of `editA`, below the root. -/
def editATomb : Edit := { char := delete, id := ⟨[120], 1⟩, prev := ⟨[], 0⟩ }

/-- The sibling order in words: `x` comes before `y` under a parent of actor
`pa` when `x` is a tombstone and `y` is not, or both are of the same kind and
`x` has the higher version, or the versions are equal and `x` alone has the
parent's actor, or neither or both have it and `x` has the greater actor. -/
def SiblingRule (pa : List Nat) (x y : EditTreeNode) : Prop :=
  (x.char = delete ∧ y.char ≠ delete) ∨
    ((x.char = delete ↔ y.char = delete) ∧
      (y.id.version < x.id.version ∨
        (x.id.version = y.id.version ∧
          ((x.id.actorID = pa ∧ y.id.actorID ≠ pa) ∨
            ((x.id.actorID = pa ↔ y.id.actorID = pa) ∧
              strLt y.id.actorID x.id.actorID = true)))))

/-- The ids of the children of the root. -/
def rootChildIds (d : Document) : Option (List ID) :=
  d.head.map fun h => h.next.map (·.id)

/-- The node `d.Edits[id]`: the allocation number stored under `id`, looked up
in the tree. -/
def Document.nodeOf (d : Document) (id : ID) : Option EditTreeNode :=
  d.Edits.bind fun m => (lookupEdits m id).bind fun a => d.head.bind (findNode a)

/-- The ids of the children of `d.Edits[id]`, with whether each is a tombstone. -/
def Document.childrenOf (d : Document) (id : ID) : Option (List (ID × Bool)) :=
  (d.nodeOf id).map fun n => n.next.map fun c => (c.id, decide (c.char = delete))

/-- Every node of the tree of the document has its children in the order that
`SiblingRule` describes. -/
def Document.SiblingsSorted (d : Document) : Prop :=
  ∃ head, d.head = some head ∧
    ∀ p ∈ subnodes head, p.next.Pairwise (SiblingRule p.id.actorID)

/-! ## The map `Edits` and the skip list -/

/-- The document that a sequence of calls on `New()` leaves (`New()` itself when
a call fails). -/
def docAfter (ops : List Op) : Document :=
  match New.calls ops with
  | .ok d => d
  | .error _ => New

/-- The allocation number and the character of the node that `predForIndex(i)`
returns. -/
def Document.predAt (d : Document) (i : Nat) : Option (Nat × Int) :=
  match d.predForIndex i with
  | .ok r => some (r.1.addr, r.1.char)
  | .error _ => none

/-- The document with its skip list discarded (`d.skipList = nil`), so that the
next `ensureSkipList` builds the list from the tree. -/
def Document.discardSkipList (d : Document) : Document := { d with skipList := none }

/-- The skip list of the document as pairs of `countBefore` and the allocation
number of `node`. -/
def Document.anchors (d : Document) : Option (List (Nat × Nat)) :=
  d.skipList.map fun l => l.map fun n => (n.countBefore, n.node)

/-- The skip list that `ensureSkipList` returns. -/
def Document.ensuredAnchors (d : Document) : Option (List (Nat × Nat)) :=
  match d.ensureSkipList with
  | .ok r => some (r.1.map fun n => (n.countBefore, n.node))
  | .error _ => none

/-! ## Local edits -/

/-- A call of `Insert` with a character other than the tombstone rune, or of
`Remove` with an index whose successor is a `uint32`. -/
def Op.plain : Op → Prop
  | .ins _ _ c => c ≠ delete
  | .rem _ i => i + 1 < 4294967296

/-- Every anchor of the skip list is an allocation number handed out already, and
no tombstone has it. -/
def AnchorsLive (head : EditTreeNode) (nextAddr : Nat) (sl : Option (List SkipListNode)) :
    Prop :=
  ∀ l, sl = some l → ∀ a ∈ l, a.node < nextAddr ∧
    ∀ x ∈ subnodes head, x.addr = a.node → x.char ≠ delete

/-- What `n` local edits on `New()` keep true of the document. -/
def Document.Local (d : Document) (n : Nat) : Prop :=
  d.actorIDs.isSome = true ∧ d.maxVersion = n ∧
    ∃ m head, d.Edits = some m ∧ d.head = some head ∧ WFTree head m d.nextAddr ∧
      (∀ x ∈ subnodes head, x.id.version ≤ n) ∧
      ((subnodes head).map (fun x => x.id.version)).Nodup ∧
      (head.id.version = 0 ∧ head.char ≠ delete ∧ ∀ c ∈ head.next, c.char ≠ delete) ∧
      (∀ x ∈ subnodes head, x.char = delete → x.next = []) ∧
      (∀ x ∈ subnodes head, (x.next.filter (fun c => decide (c.char = delete))).length ≤ 1) ∧
      AnchorsLive head d.nextAddr d.skipList

/-- The invariant of C20: `maxVersion` bounds every version, the nodes other than
the root have pairwise distinct versions, tombstones are leaves, and no node has
two tombstone children. -/
def Document.FreshIds (d : Document) : Prop :=
  ∃ head, d.head = some head ∧
    (∀ x ∈ subnodes head, x.id.version ≤ d.maxVersion) ∧
    ((subnodes head).tail.map (fun x => x.id.version)).Nodup ∧
    (∀ x ∈ subnodes head, x.char = delete → x.next = []) ∧
    (∀ x ∈ subnodes head, (x.next.filter (fun c => decide (c.char = delete))).length ≤ 1)

/-- What C20 says of one call on the document `d` that leaves `d2`: the new node
is a leaf with version `d.maxVersion + 1`, above every version in the tree, and
it is the first child of its predecessor, a node that is no tombstone and had no
tombstone child. -/
def Document.PlacedFirst (d d2 : Document) : Prop :=
  ∃ head pred new, d.head = some head ∧ pred ∈ subnodes head ∧ pred.char ≠ delete ∧
    (∀ c ∈ pred.next, c.char ≠ delete) ∧
    new.id.version = d.maxVersion + 1 ∧ (∀ x ∈ subnodes head, x.id.version < new.id.version) ∧
    new.next = [] ∧
    d2.nodeOf pred.id = some (.mk pred.addr pred.char pred.id (new :: pred.next))

/-- The actor of a call. -/
def Op.actor : Op → List Nat
  | .ins a _ _ => a
  | .rem a _ => a

/-- What every call of `Insert` and `Remove` keeps true of a document, as long as
no call makes an edit with the id of the root: allocation numbers are distinct,
siblings are sorted, `Edits` leads from the id of the root and from every id
with a version other than zero to the node that carries it, tombstones are
leaves, no node but the root has two tombstone children, and the anchors of the
skip list are no tombstones. -/
def Document.Grown (d : Document) : Prop :=
  d.maxVersion < 4294967296 ∧
    ∃ m head, d.Edits = some m ∧ d.head = some head ∧
      (addrsOf head).Nodup ∧ (∀ a ∈ addrsOf head, a < d.nextAddr) ∧ SortedTree head ∧
      (head.id = rootID ∧ head.char ≠ delete) ∧
      (∀ x ∈ subnodes head, x.id.version ≤ d.maxVersion) ∧
      (∀ x ∈ subnodes head, x.id.version ≠ 0 ∨ x.addr = head.addr →
        lookupEdits m x.id = some x.addr) ∧
      (∀ x ∈ subnodes head, x.char = delete → x.next = []) ∧
      (∀ x ∈ subnodes head, x.addr ≠ head.addr →
        (x.next.filter (fun c => decide (c.char = delete))).length ≤ 1) ∧
      AnchorsLive head d.nextAddr d.skipList

/-! ## Token sequences of the encoders -/

/-- No three consecutive tokens of the sequence are equal. -/
def NoTriple : List (List Nat) → Prop
  | a :: b :: c :: l => ¬ (a = b ∧ b = c) ∧ NoTriple (b :: c :: l)
  | _ => True

/-- The tokens that `BackingEncoder.Append(et)` hands to its RLE encoder: with
`k ≥ 1` leading tombstone children `k` times the bytes that `utf8.EncodeRune`
gives for `et.char`; with none, `0xFF` for a character and nothing for a
tombstone. -/
def backingTokens (et : EditTreeNode) : List (List Nat) :=
  if 0 < deleteCount et.next then List.replicate (deleteCount et.next) (encodeRune et.char)
  else if et.char = delete then []
  else [[insertOp]]

/-- The six nodes that `TestBackingEncoding` feeds to the encoder, in pairs: a
character with one tombstone child, and a tombstone. -/
def testPairs : List (EditTreeNode × EditTreeNode) :=
  [(.mk 1 97 ⟨[], 0⟩ [.mk 0 delete ⟨[], 0⟩ []], .mk 0 delete ⟨[], 0⟩ []),
    (.mk 3 98 ⟨[], 0⟩ [.mk 0 delete ⟨[], 0⟩ []], .mk 0 delete ⟨[], 0⟩ []),
    (.mk 5 99 ⟨[], 0⟩ [.mk 0 delete ⟨[], 0⟩ []], .mk 0 delete ⟨[], 0⟩ [])]

/-- The rows of `EditsInOrder`: the pairs of node and parent in the order in
which the callback receives them. -/
def editRows (head : EditTreeNode) : List (EditTreeNode × EditTreeNode) :=
  (head.EditsInOrder (fun (s : List (EditTreeNode × EditTreeNode)) et p =>
    (s ++ [(et, p)], true)) []).1

mutual
/-- The rows of `EditsInOrder`, by recursion over the tree. -/
def rowsOf : EditTreeNode → List (EditTreeNode × EditTreeNode)
  | .mk addr c id next => rowsLoop (.mk addr c id next) next
/-- The rows that the loop of `EditsInOrder` over the children of `et` gives. -/
def rowsLoop (et : EditTreeNode) : List EditTreeNode → List (EditTreeNode × EditTreeNode)
  | [] => []
  | n :: ns => (n, et) :: (rowsOf n ++ rowsLoop et ns)
end

/-- The tokens that an `IDEncoder` with delta encoders `live` and `del` appends to
its column `version` for a sequence of calls `Append(id, char)`. -/
def versionTokens : DeltaEncoder → DeltaEncoder → List (ID × Int) → List (List Nat)
  | _, _, [] => []
  | live, del, (id, c) :: rows =>
    if c = delete then
      uleb (del.Append id.version).1 :: versionTokens live (del.Append id.version).2 rows
    else
      uleb (live.Append id.version).1 :: versionTokens (live.Append id.version).2 del rows

/-- The tokens that an `IDEncoder` with map `table` appends to its column
`actorOffset` for a sequence of calls `Append(id, char)`. -/
def actorTokens (table : List (List Nat × Nat)) (rows : List (ID × Int)) : List (List Nat) :=
  rows.map fun r => uleb (lookupTable table r.1.actorID)

/-- The three encoders of `WriteTo` when `EditsInOrder` has returned. -/
def Document.columns (d : Document) : Option (BackingEncoder × IDEncoder × IDEncoder) :=
  d.head.map fun head =>
    let lookup := buildLookup (sortActors (d.actorIDs.getD [])) 0
    (head.EditsInOrder writeToVisit
      (NewBackingEncoder, NewIDEncoder lookup, NewIDEncoder lookup)).1

/-- The map `lookup` of `WriteTo`. -/
def Document.lookup (d : Document) : List (List Nat × Nat) :=
  buildLookup (sortActors (d.actorIDs.getD [])) 0

/-- The encoder after a sequence of tokens has been appended to a fresh one. -/
def rleAfter (tokens : List (List Nat)) : RLEEncoder :=
  tokens.foldl RLEEncoder.Append NewRLEEncoder

end UDT

/-! # Theorems -/

namespace UDT

/-! ## Bit arithmetic -/

theorem and_0x7F (n : Nat) : n &&& 0x7F = n % 128 :=
  Nat.and_pow_two_sub_one_eq_mod n 7

theorem and_0x3F (n : Nat) : n &&& 0x3F = n % 64 :=
  Nat.and_pow_two_sub_one_eq_mod n 6

theorem shr (n k : Nat) : n >>> k = n / 2 ^ k :=
  Nat.shiftRight_eq_div_pow n k

theorem or_0x80 (b : Nat) (h : b < 128) : b ||| 0x80 = b + 128 := by
  have := Nat.mul_add_lt_is_or (i := 7) (b := b) (by simpa using h) 1
  rw [Nat.lor_comm]
  simp at this
  omega

theorem and_0x80_eq_zero (c : Nat) (h : c < 256) : c &&& 0x80 = 0 ↔ c < 128 := by
  have h1 : c &&& 0x80 = 128 * ((c / 128) % 2) := by
    have : c < 256 := h
    interval_cases c <;> rfl
  omega

theorem lor_shift (acc x i : Nat) (h : acc < 128 ^ i) (hx : x < 128) (hi : i ≤ 8) :
    acc ||| (x <<< (i * 7)) % 18446744073709551616 = acc + 128 ^ i * x := by
  have h128 : (128 : Nat) ^ i = 2 ^ (i * 7) := by
    rw [Nat.mul_comm, Nat.pow_mul]
  have hle : (128 : Nat) ^ i ≤ 128 ^ 8 := Nat.pow_le_pow_right (by decide) hi
  have hmul : 128 ^ i * x ≤ 128 ^ i * 127 := Nat.mul_le_mul_left _ (by omega)
  have hsmall : x <<< (i * 7) < 18446744073709551616 := by
    rw [Nat.shiftLeft_eq, Nat.mul_comm x, ← h128]
    norm_num at hle
    omega
  rw [Nat.mod_eq_of_lt hsmall, Nat.shiftLeft_eq, Nat.lor_comm, Nat.mul_comm x, ← h128]
  rw [h128] at h ⊢
  rw [← Nat.mul_add_lt_is_or h x]
  omega

/-! ## ULEB128 -/

theorem ulebLoop_zero (f : Nat) : ulebLoop f 0 = [] := by
  cases f <;> simp [ulebLoop]

theorem ulebLoop_succ (f n : Nat) (h : n ≠ 0) :
    ulebLoop (f + 1) n
      = (if n / 128 ≠ 0 then n % 128 + 128 else n % 128) :: ulebLoop f (n / 128) := by
  have hb : n % 128 < 128 := Nat.mod_lt _ (by decide)
  simp only [ulebLoop, if_neg h, and_0x7F, shr]
  split <;> simp_all [or_0x80]

/-- More fuel than the number of base-128 digits changes nothing. -/
theorem ulebLoop_fuel (k : Nat) : ∀ (f n : Nat), n < 128 ^ k → k ≤ f →
    ulebLoop f n = ulebLoop k n := by
  induction k with
  | zero =>
    intro f n hn _
    have : n = 0 := by simpa using hn
    subst this
    simp [ulebLoop_zero]
  | succ k ih =>
    intro f n hn hf
    obtain ⟨f, rfl⟩ : ∃ g, f = g + 1 := ⟨f - 1, by omega⟩
    by_cases h0 : n = 0
    · subst h0; simp [ulebLoop_zero]
    · rw [ulebLoop_succ f n h0, ulebLoop_succ k n h0]
      have : n / 128 < 128 ^ k := by
        rw [Nat.div_lt_iff_lt_mul (by decide)]
        rw [Nat.pow_succ] at hn
        exact hn
      rw [ih f (n / 128) this (by omega)]

theorem ulebLoop_length_le (f n : Nat) : (ulebLoop f n).length ≤ f := by
  induction f generalizing n with
  | zero => simp [ulebLoop]
  | succ f ih =>
    by_cases h0 : n = 0
    · subst h0; simp [ulebLoop_zero]
    · rw [ulebLoop_succ f n h0]
      simpa using ih (n / 128)

theorem ulebLoop_isBytes (f n : Nat) : IsBytes (ulebLoop f n) := by
  induction f generalizing n with
  | zero => simp [ulebLoop, IsBytes]
  | succ f ih =>
    by_cases h0 : n = 0
    · subst h0; simp [ulebLoop_zero, IsBytes]
    · rw [ulebLoop_succ f n h0]
      intro x hx
      rcases List.mem_cons.1 hx with hx | hx
      · subst hx
        split <;> omega
      · exact ih _ x hx

theorem uleb_isBytes (n : Nat) : IsBytes (uleb n) := by
  unfold uleb
  split
  · simp [IsBytes]
  · exact ulebLoop_isBytes _ _

/-- A `readULEB` loop that has already consumed nine bytes rejects. -/
theorem readULEBLoop_late (b : List Nat) : ∀ (acc i : Nat), 9 ≤ i →
    readULEBLoop b acc i = none := by
  induction b with
  | nil => intro acc i _; rfl
  | cons c b ih =>
    intro acc i hi
    simp only [readULEBLoop]
    split
    · rw [if_pos (by omega)]
    · exact ih _ _ (by omega)

/-- Reading back the digits written by the `uleb` loop, from the middle of a number. -/
theorem readULEBLoop_ulebLoop (f : Nat) : ∀ (m acc i : Nat) (rest : List Nat),
    0 < m → m < 128 ^ f → 1 ≤ i → acc < 128 ^ i → acc + 128 ^ i * m < 4294967296 →
    readULEBLoop (ulebLoop f m ++ rest) acc i = some (acc + 128 ^ i * m, rest) := by
  induction f with
  | zero => intro m acc i rest hm hlt; simp at hlt; omega
  | succ f ih =>
    intro m acc i rest hm hlt hi hacc hv
    have hi4 : i ≤ 4 := by
      by_contra hcon
      have h5 : (128 : Nat) ^ 5 ≤ 128 ^ i := Nat.pow_le_pow_right (by decide) (by omega)
      have h6 : 128 ^ i * 1 ≤ 128 ^ i * m := Nat.mul_le_mul_left _ hm
      norm_num at h5
      omega
    rw [ulebLoop_succ f m (by omega)]
    have hmod : m % 128 < 128 := Nat.mod_lt _ (by decide)
    have hpow : (128 : Nat) ^ (i + 1) = 128 ^ i * 128 := pow_succ 128 i
    have hsplit : 128 ^ i * m = 128 ^ i * (m % 128) + 128 ^ (i + 1) * (m / 128) := by
      rw [hpow, Nat.mul_assoc, ← Nat.mul_add]
      congr 1
      omega
    have hacc' : acc + 128 ^ i * (m % 128) < 128 ^ (i + 1) := by
      rw [hpow]
      have : 128 ^ i * (m % 128) ≤ 128 ^ i * 127 := Nat.mul_le_mul_left _ (by omega)
      omega
    have h64 : acc + 128 ^ i * (m % 128) < 18446744073709551616 := by omega
    by_cases hq : m / 128 = 0
    · have hm128 : m % 128 = m := by omega
      simp only [hq, ne_eq, not_true_eq_false, if_false, List.cons_append, readULEBLoop, List.append_eq]
      have hc : (m % 128) &&& 0x80 = 0 := (and_0x80_eq_zero _ (by omega)).2 hmod
      have hc7 : (m % 128) &&& 0x7f = m % 128 := by rw [and_0x7F]; omega
      rw [if_pos hc, hc7, lor_shift _ _ _ hacc hmod (by omega)]
      rw [hm128] at *
      rw [if_neg (by omega), Nat.mod_eq_of_lt hv]
      simp [ulebLoop_zero]
    · simp only [ne_eq, hq, not_false_eq_true, if_true, List.cons_append, readULEBLoop, List.append_eq]
      have hc : ¬ ((m % 128 + 128) &&& 0x80 = 0) := by
        rw [and_0x80_eq_zero _ (by omega)]; omega
      have hc7 : (m % 128 + 128) &&& 0x7f = m % 128 := by rw [and_0x7F]; omega
      rw [if_neg hc, hc7, lor_shift _ _ _ hacc hmod (by omega)]
      have hlt' : m / 128 < 128 ^ f := by
        rw [Nat.div_lt_iff_lt_mul (by decide)]
        rw [Nat.pow_succ] at hlt
        exact hlt
      rw [ih (m / 128) _ (i + 1) rest (by omega) hlt' (by omega) hacc' (by omega)]
      congr 2
      omega

theorem readULEB_uleb (n : Nat) (rest : List Nat) (hn : n < 4294967296) :
    readULEB (uleb n ++ rest) = some (n, rest) := by
  unfold uleb readULEB
  by_cases h0 : n = 0
  · subst h0
    simp [readULEBLoop]
  · rw [if_neg h0, ulebLoop_succ 4 n h0]
    have hmod : n % 128 < 128 := Nat.mod_lt _ (by decide)
    by_cases hq : n / 128 = 0
    · have hm128 : n % 128 = n := by omega
      simp only [hq, ne_eq, not_true_eq_false, if_false, List.cons_append, readULEBLoop, List.append_eq]
      have hc : (n % 128) &&& 0x80 = 0 := (and_0x80_eq_zero _ (by omega)).2 hmod
      have hc7 : (n % 128) &&& 0x7f = n % 128 := by rw [and_0x7F]; omega
      rw [if_pos hc, hc7]
      simp only [Nat.zero_mul, Nat.shiftLeft_zero, Nat.zero_or, zero_add]
      rw [hm128, Nat.mod_eq_of_lt (by omega), if_neg (by omega), Nat.mod_eq_of_lt hn]
      simp [ulebLoop_zero]
    · simp only [ne_eq, hq, not_false_eq_true, if_true, List.cons_append, readULEBLoop, List.append_eq]
      have hc : ¬ ((n % 128 + 128) &&& 0x80 = 0) := by
        rw [and_0x80_eq_zero _ (by omega)]; omega
      have hc7 : (n % 128 + 128) &&& 0x7f = n % 128 := by rw [and_0x7F]; omega
      rw [if_neg hc, hc7]
      simp only [Nat.zero_mul, Nat.shiftLeft_zero, Nat.zero_or, zero_add]
      rw [Nat.mod_eq_of_lt (by omega)]
      have hlt' : n / 128 < 128 ^ 4 := by
        rw [Nat.div_lt_iff_lt_mul (by decide)]
        norm_num
        omega
      rw [readULEBLoop_ulebLoop 4 (n / 128) (n % 128) 1 rest (by omega) hlt' (by omega)
        (by omega) (by omega)]
      congr 2
      omega

/-- Input made of continuation bytes only is rejected. -/
theorem readULEBLoop_all_high (b : List Nat) : ∀ (acc i : Nat), IsBytes b →
    (∀ x ∈ b, 128 ≤ x) → readULEBLoop b acc i = none := by
  induction b with
  | nil => intro acc i _ _; rfl
  | cons c b ih =>
    intro acc i hb hh
    have hc : ¬ (c &&& 0x80 = 0) := by
      rw [and_0x80_eq_zero c (hb c (by simp))]
      have := hh c (by simp)
      omega
    simp only [readULEBLoop, if_neg hc]
    exact ih _ _ (fun x hx => hb x (by simp [hx])) (fun x hx => hh x (by simp [hx]))

/-- An encoding of ten bytes or more is rejected whatever it holds. -/
theorem readULEBLoop_long (pre : List Nat) (c : Nat) (rest : List Nat) :
    ∀ (acc i : Nat), (∀ x ∈ pre, 128 ≤ x ∧ x < 256) → 9 ≤ i + pre.length →
    readULEBLoop (pre ++ c :: rest) acc i = none := by
  induction pre with
  | nil => intro acc i _ hi; exact readULEBLoop_late _ _ _ (by simpa using hi)
  | cons x pre ih =>
    intro acc i hh hi
    have hx := hh x (by simp)
    have hc : ¬ (x &&& 0x80 = 0) := by
      rw [and_0x80_eq_zero x hx.2]; omega
    simp only [List.cons_append, readULEBLoop, if_neg hc, List.append_eq]
    exact ih _ _ (fun y hy => hh y (by simp [hy])) (by simp at hi; omega)

/-- What `readULEB` computes on an encoding of at most nine bytes. -/
theorem readULEBLoop_decode (pre : List Nat) (c : Nat) (rest : List Nat) (hc : c < 128) :
    ∀ (acc i : Nat), (∀ x ∈ pre, 128 ≤ x ∧ x < 256) → acc < 128 ^ i →
    i + pre.length ≤ 8 →
    readULEBLoop (pre ++ c :: rest) acc i
      = if (c = 0 ∧ 0 < i + pre.length) ∨
            4294967295 < acc + 128 ^ i * ulebValue (pre ++ [c]) then none
        else some (acc + 128 ^ i * ulebValue (pre ++ [c]), rest) := by
  induction pre with
  | nil =>
    intro acc i _ hacc hi
    have hc0 : c &&& 0x80 = 0 := (and_0x80_eq_zero c (by omega)).2 hc
    have hc7 : c &&& 0x7f = c := by rw [and_0x7F]; omega
    have hv : ulebValue [c] = c := by simp [ulebValue]; omega
    simp only [List.nil_append, readULEBLoop, if_pos hc0, hc7, List.length_nil, Nat.add_zero,
      hv, lor_shift acc c i hacc hc (by simpa using hi)]
    by_cases h1 : c = 0 ∧ 0 < i
    · rw [if_pos (Or.inl ⟨h1.1, by omega⟩), if_pos (Or.inl h1)]
    · by_cases h2 : 4294967295 < acc + 128 ^ i * c
      · rw [if_pos (Or.inr (Or.inr h2)), if_pos (Or.inr h2)]
      · rw [if_neg (by simp at hi; omega), if_neg (by omega), Nat.mod_eq_of_lt (by omega)]
  | cons x pre ih =>
    intro acc i hh hacc hi
    have hx := hh x (by simp)
    have hxc : ¬ (x &&& 0x80 = 0) := by
      rw [and_0x80_eq_zero x hx.2]; omega
    have hx7 : x &&& 0x7f = x % 128 := and_0x7F x
    have hmod : x % 128 < 128 := Nat.mod_lt _ (by decide)
    have hpow : (128 : Nat) ^ (i + 1) = 128 ^ i * 128 := pow_succ 128 i
    have hacc' : acc + 128 ^ i * (x % 128) < 128 ^ (i + 1) := by
      rw [hpow]
      have : 128 ^ i * (x % 128) ≤ 128 ^ i * 127 := Nat.mul_le_mul_left _ (by omega)
      omega
    simp only [List.length_cons] at hi
    simp only [List.cons_append, readULEBLoop, if_neg hxc, hx7, List.append_eq,
      lor_shift acc (x % 128) i hacc hmod (by omega)]
    rw [ih _ _ (fun y hy => hh y (by simp [hy])) hacc' (by omega)]
    have hval : acc + 128 ^ i * (x % 128) + 128 ^ (i + 1) * ulebValue (pre ++ [c])
        = acc + 128 ^ i * ulebValue (x :: (pre ++ [c])) := by
      simp only [ulebValue, List.append_eq]
      rw [hpow, Nat.mul_add, Nat.mul_assoc, Nat.add_assoc]
    rw [hval]
    have hlen : (0 < i + 1 + pre.length) ↔ (0 < i + (x :: pre).length) := by
      simp only [List.length_cons]; omega
    simp only [hlen]

/-- A byte sequence either has the high bit on every byte or starts with an encoding. -/
theorem split_encoding (b : List Nat) :
    (∀ x ∈ b, 128 ≤ x) ∨
      ∃ pre c rest, b = pre ++ c :: rest ∧ (∀ x ∈ pre, 128 ≤ x) ∧ c < 128 := by
  induction b with
  | nil => left; simp
  | cons x b ih =>
    by_cases hx : 128 ≤ x
    · rcases ih with h | ⟨pre, c, rest, rfl, hp, hc⟩
      · left
        intro y hy
        rcases List.mem_cons.1 hy with rfl | hy
        · exact hx
        · exact h y hy
      · right
        refine ⟨x :: pre, c, rest, rfl, ?_, hc⟩
        intro y hy
        rcases List.mem_cons.1 hy with rfl | hy
        · exact hx
        · exact hp y hy
    · right
      exact ⟨[], x, b, rfl, by simp, by omega⟩

theorem ulebValue_ge (pre : List Nat) (c : Nat) (hc : c < 128) :
    128 ^ pre.length * c ≤ ulebValue (pre ++ [c]) := by
  induction pre with
  | nil => simp [ulebValue]; omega
  | cons x pre ih =>
    simp only [List.cons_append, ulebValue, List.length_cons, List.append_eq]
    rw [pow_succ, Nat.mul_comm (128 ^ pre.length) 128, Nat.mul_assoc]
    omega

/-- The `uleb` loop writes back a minimal encoding from its value. -/
theorem ulebLoop_ulebValue (pre : List Nat) (c : Nat) (hc : c < 128) (hc0 : c ≠ 0) :
    ∀ f, (∀ x ∈ pre, 128 ≤ x ∧ x < 256) → pre.length + 1 ≤ f →
    ulebLoop f (ulebValue (pre ++ [c])) = pre ++ [c] := by
  induction pre with
  | nil =>
    intro f _ hf
    obtain ⟨f, rfl⟩ : ∃ g, f = g + 1 := ⟨f - 1, by simp at hf; omega⟩
    have hv : ulebValue [c] = c := by simp [ulebValue]; omega
    simp only [List.nil_append, hv]
    rw [ulebLoop_succ f c hc0]
    have : c / 128 = 0 := by omega
    simp [this, ulebLoop_zero]
    omega
  | cons x pre ih =>
    intro f hh hf
    obtain ⟨f, rfl⟩ : ∃ g, f = g + 1 := ⟨f - 1, by simp at hf; omega⟩
    have hx := hh x (by simp)
    have hge := ulebValue_ge pre c hc
    have hpos : 0 < 128 ^ pre.length * c :=
      Nat.mul_pos (pow_pos (by decide) _) (by omega)
    simp only [List.cons_append, ulebValue, List.append_eq]
    rw [ulebLoop_succ f _ (by omega)]
    have h1 : (x % 128 + 128 * ulebValue (pre ++ [c])) / 128 = ulebValue (pre ++ [c]) := by
      omega
    have h2 : (x % 128 + 128 * ulebValue (pre ++ [c])) % 128 = x % 128 := by omega
    rw [h1, h2, if_pos (by omega), ih f (fun y hy => hh y (by simp [hy]))
      (by simp at hf; omega)]
    congr 1
    omega

/-- Every accepted input starts with the encoding that `uleb` writes for the value read. -/
theorem readULEB_strict (b : List Nat) (n : Nat) (rest : List Nat) (hb : IsBytes b)
    (h : readULEB b = some (n, rest)) : b = uleb n ++ rest := by
  rcases split_encoding b with hall | ⟨pre, c, rest', rfl, hp, hc⟩
  · rw [readULEB, readULEBLoop_all_high b 0 0 hb hall] at h
    cases h
  · have hp' : ∀ x ∈ pre, 128 ≤ x ∧ x < 256 :=
      fun x hx => ⟨hp x hx, hb x (by simp [hx])⟩
    by_cases hlen : 9 ≤ pre.length
    · rw [readULEB, readULEBLoop_long pre c rest' 0 0 hp' (by omega)] at h
      cases h
    · rw [readULEB, readULEBLoop_decode pre c rest' hc 0 0 hp' (by norm_num) (by omega)] at h
      simp only [Nat.zero_add, pow_zero, Nat.one_mul] at h
      split at h
      · cases h
      · rename_i hcond
        simp only [Option.some.injEq, Prod.mk.injEq] at h
        obtain ⟨rfl, rfl⟩ := h
        have hcond' : ¬ (c = 0 ∧ 0 < pre.length) ∧
            ulebValue (pre ++ [c]) ≤ 4294967295 := by
          constructor
          · exact fun hh => hcond (Or.inl hh)
          · exact Nat.le_of_not_lt (fun hh => hcond (Or.inr hh))
        by_cases hc0 : c = 0
        · have hpre : pre = [] := by
            cases pre with
            | nil => rfl
            | cons _ _ => exact absurd ⟨hc0, by simp⟩ hcond'.1
          subst hpre; subst hc0
          simp [ulebValue, uleb]
        · have hge := ulebValue_ge pre c hc
          have hpos : 0 < 128 ^ pre.length * c :=
            Nat.mul_pos (pow_pos (by decide) _) (by omega)
          have hlen4 : pre.length ≤ 4 := by
            by_contra hcon
            have h5 : (128 : Nat) ^ 5 ≤ 128 ^ pre.length :=
              Nat.pow_le_pow_right (by decide) (by omega)
            have h6 : 128 ^ pre.length * 1 ≤ 128 ^ pre.length * c :=
              Nat.mul_le_mul_left _ (by omega)
            norm_num at h5
            omega
          unfold uleb
          rw [if_neg (by omega), ulebLoop_ulebValue pre c hc hc0 5 hp' (by omega)]
          simp


/-- C7: for every unsigned 32-bit `n` and every byte sequence `rest`,
`readULEB(uleb(n) ++ rest)` succeeds and returns exactly `(n, rest)`; `uleb(n)`
has between one and five bytes, and `uleb(0)` is the single byte `0x00`. -/
theorem C7_uleb_roundtrip (n : Nat) (rest : List Nat) (hn : n < 4294967296) :
    readULEB (uleb n ++ rest) = some (n, rest) ∧
      1 ≤ (uleb n).length ∧ (uleb n).length ≤ 5 ∧ uleb 0 = [0x00] := by
  refine ⟨readULEB_uleb n rest hn, ?_, ?_, rfl⟩
  · unfold uleb
    split
    · simp
    · rename_i h0
      rw [ulebLoop_succ 4 n h0]
      simp
  · unfold uleb
    split
    · simp
    · exact ulebLoop_length_le 5 n

/-- The round trip of C7 at `n = 300` in front of the bytes `07 08`. -/
theorem C7_uleb_roundtrip_witness :
    300 < 4294967296 ∧
      (readULEB (uleb 300 ++ [7, 8]) = some (300, [7, 8]) ∧
        1 ≤ (uleb 300).length ∧ (uleb 300).length ≤ 5 ∧ uleb 0 = [0x00]) :=
  ⟨by decide, C7_uleb_roundtrip 300 [7, 8] (by decide)⟩

/-- C8: whenever `readULEB(b)` succeeds with value `n` and remainder `rest`, the
input is `uleb(n) ++ rest`; consequently an encoding (bytes `pre` with the high
bit, then a byte `c` without it) is rejected when it is longer than five bytes,
when its accumulated value exceeds `2^32 - 1`, or when it has several bytes and
ends in `0x00`; and input that ends before a byte without the high bit is
rejected. -/
theorem C8_readULEB_strict :
    (∀ (b : List Nat) (n : Nat) (rest : List Nat), IsBytes b →
        readULEB b = some (n, rest) → b = uleb n ++ rest) ∧
    (∀ (pre : List Nat) (c : Nat) (rest : List Nat), IsBytes (pre ++ c :: rest) →
        (∀ x ∈ pre, 128 ≤ x) → c < 128 →
        (5 ≤ pre.length ∨ 4294967295 < ulebValue (pre ++ [c]) ∨ (pre ≠ [] ∧ c = 0)) →
        readULEB (pre ++ c :: rest) = none) ∧
    (∀ b : List Nat, IsBytes b → (∀ x ∈ b, 128 ≤ x) → readULEB b = none) := by
  refine ⟨readULEB_strict, ?_, fun b hb hh => readULEBLoop_all_high b 0 0 hb hh⟩
  intro pre c rest hb hp hc hbad
  have hp' : ∀ x ∈ pre, 128 ≤ x ∧ x < 256 :=
    fun x hx => ⟨hp x hx, hb x (by simp [hx])⟩
  by_cases hlen : 9 ≤ pre.length
  · exact readULEBLoop_long pre c rest 0 0 hp' (by omega)
  · rw [readULEB, readULEBLoop_decode pre c rest hc 0 0 hp' (by norm_num) (by omega)]
    simp only [Nat.zero_add, pow_zero, Nat.one_mul]
    apply if_pos
    by_cases hc0 : c = 0
    · rcases hbad with h | h | h
      · exact Or.inl ⟨hc0, by omega⟩
      · exact Or.inr h
      · exact Or.inl ⟨hc0, List.length_pos.2 h.1⟩
    · rcases hbad with h | h | h
      · right
        have hge := ulebValue_ge pre c hc
        have h5 : (128 : Nat) ^ 5 ≤ 128 ^ pre.length :=
          Nat.pow_le_pow_right (by decide) h
        have h6 : 128 ^ pre.length * 1 ≤ 128 ^ pre.length * c :=
          Nat.mul_le_mul_left _ (by omega)
        norm_num at h5
        omega
      · exact Or.inr h
      · exact absurd h.2 hc0

/-- The strictness of C8 at five inputs: one accepted encoding and one rejected
input of each kind. -/
theorem C8_readULEB_strict_witness :
    [0x80, 0x01, 0x09] = uleb 128 ++ [0x09] ∧
      readULEB ([0x80, 0x80, 0x80, 0x80, 0x80] ++ 0x01 :: []) = none ∧
      readULEB ([0xFF, 0xFF, 0xFF, 0xFF] ++ 0x10 :: []) = none ∧
      readULEB ([0x81] ++ 0x00 :: []) = none ∧
      readULEB [0x80, 0x80] = none :=
  ⟨C8_readULEB_strict.1 [0x80, 0x01, 0x09] 128 [0x09] (by decide) (by decide),
    C8_readULEB_strict.2.1 [0x80, 0x80, 0x80, 0x80, 0x80] 0x01 [] (by decide) (by decide)
      (by decide) (Or.inl (by decide)),
    C8_readULEB_strict.2.1 [0xFF, 0xFF, 0xFF, 0xFF] 0x10 [] (by decide) (by decide)
      (by decide) (Or.inr (Or.inl (by decide))),
    C8_readULEB_strict.2.1 [0x81] 0x00 [] (by decide) (by decide)
      (by decide) (Or.inr (Or.inr (by decide))),
    C8_readULEB_strict.2.2 [0x80, 0x80] (by decide) (by decide)⟩

/-- C9: on the input `[0x05, 0x61]`, whose length prefix 5 is well formed and
larger than the one byte that follows, `readLengthPrefixed` does not report
`ok = false` and `Load` returns no error: both panic on the slice expression. -/
theorem C9_overrun_panics :
    readULEB [0x05, 0x61] = some (5, [0x61]) ∧
      readLengthPrefixed [0x05, 0x61] = .error .sliceBounds ∧
      Load [0x05, 0x61] = .error .sliceBounds ∧
      Failure.isPanic .sliceBounds = true :=
  ⟨by decide, rfl, rfl, rfl⟩

end UDT

namespace UDT

/-! ## The tests of the repository -/

/-- The assertions of `TestUDT` on the text. -/
theorem test_UDT :
    textAfter [.ins (List.replicate 16 97) 0 97] = some [97] ∧
    textAfter [.ins (List.replicate 16 97) 0 97, .ins (List.replicate 16 97) 0 98]
      = some [98, 97] ∧
    textAfter [.ins (List.replicate 16 97) 0 97, .ins (List.replicate 16 97) 0 98,
      .ins (List.replicate 16 97) 2 99] = some [98, 97, 99] ∧
    textAfter [.ins (List.replicate 16 97) 0 97, .ins (List.replicate 16 97) 0 98,
      .ins (List.replicate 16 97) 2 99, .rem (List.replicate 16 97) 0] = some [97, 99] ∧
    textAfter [.ins (List.replicate 16 97) 0 97, .ins (List.replicate 16 97) 0 98,
      .ins (List.replicate 16 97) 2 99, .rem (List.replicate 16 97) 0,
      .rem (List.replicate 16 97) 1] = some [97] ∧
    textAfter [.ins (List.replicate 16 97) 0 97, .ins (List.replicate 16 97) 0 98,
      .ins (List.replicate 16 97) 2 99, .rem (List.replicate 16 97) 0,
      .rem (List.replicate 16 97) 1, .rem (List.replicate 16 97) 0] = some [] := by
  decide!

/-- The assertions of `TestRLEEncoding`. -/
theorem test_RLEEncoding :
    rleEncode [] = [0x00] ∧
    rleEncode [[97]] = [0x02, 0x00, 97] ∧
    rleEncode [[97], [97]] = [0x03, 0x02, 97, 97] ∧
    rleEncode [[97], [97], [97]] = [0x02, 0x01, 97] ∧
    rleEncode [[97], [97], [97], [97]] = [0x02, 0x03, 97] ∧
    rleEncode [[97], [98]] = [0x03, 0x02, 97, 98] ∧
    rleEncode [[97], [97], [98]] = [0x04, 0x04, 97, 97, 98] ∧
    rleEncode [[97], [97], [97], [98]] = [0x04, 0x01, 97, 0x00, 98] ∧
    rleEncode [[97], [97], [97], [97], [98]] = [0x04, 0x03, 97, 0x00, 98] ∧
    rleEncode [[98], [97], [99]] = [0x04, 0x04, 98, 97, 99] := by
  decide!

/-- The assertion of `TestBackingEncoding`. -/
theorem test_BackingEncoding :
    NewBackingEncoder.WriteTo.1 = [0x00] ∧
    (([EditTreeNode.mk 1 97 ⟨[], 0⟩ [.mk 0 delete ⟨[], 0⟩ []],
        .mk 2 delete ⟨[], 0⟩ [],
        .mk 3 98 ⟨[], 0⟩ [.mk 0 delete ⟨[], 0⟩ []],
        .mk 4 delete ⟨[], 0⟩ [],
        .mk 5 99 ⟨[], 0⟩ [.mk 0 delete ⟨[], 0⟩ []],
        .mk 6 delete ⟨[], 0⟩ []].foldl BackingEncoder.Append NewBackingEncoder).WriteTo.1
      = [0x04, 0x04, 97, 98, 99]) := by
  decide!

/-! ## Behaviour at concrete inputs -/

set_option maxRecDepth 100000 in
/-- C1: after 52 four-byte characters have been typed (208 bytes), byte offset
100 is a character boundary, and `Insert(a, 100, 'A')` succeeds but leaves 'A'
at byte offset 104: the text is not the previous text with 'A' inserted at 100. -/
theorem C1_insert_misplaced :
    textAfter (typeWide 52) = some (wideText 0 52) ∧
    (wideText 0 52).take 100 = wideText 0 25 ∧
    (wideText 0 52).drop 100 = wideText 25 27 ∧
    textAfter (typeWide 52 ++ [.ins [97] 100 65])
      = some ((wideText 0 52).take 104 ++ encodeRune 65 ++ (wideText 0 52).drop 104) ∧
    textAfter (typeWide 52 ++ [.ins [97] 100 65])
      ≠ some ((wideText 0 52).take 100 ++ encodeRune 65 ++ (wideText 0 52).drop 100) := by
  decide!

set_option maxRecDepth 100000 in
/-- C2: after 52 four-byte characters have been typed (208 bytes), a character
starts at byte 200 and one at byte 204; `Remove(a, 200)` removes the character
that starts at byte 204, and `Remove(a, 204)` fails. -/
theorem C2_remove_misplaced :
    textAfter (typeWide 52) = some (wideText 0 50 ++ wideText 50 1 ++ wideText 51 1) ∧
    (wideText 0 50).length = 200 ∧
    textAfter (typeWide 52 ++ [.rem [97] 200]) = some (wideText 0 50 ++ wideText 50 1) ∧
    textAfter (typeWide 52 ++ [.rem [97] 200]) ≠ some (wideText 0 50 ++ wideText 51 1) ∧
    failureAfter (typeWide 52 ++ [.rem [97] 204]) = some .outOfBounds := by
  decide!

/-- C5: the document that `Load` returns for the bytes written by `New()`, and
likewise for a document with one character, still has no `Edits` and no tree
after `PrepareToEdit` has succeeded, and `Insert(a, 0, 'b')` on it panics with
"d.PrepareToEdit() must be called before d.Insert()". -/
theorem C5_prepare_does_not_rebuild :
    New.WriteTo = .ok [0, 0, 0, 0, 0, 0, 0] ∧
    (New.reload.map fun d => (d.Edits.isSome, d.head.isSome)) = .ok (false, false) ∧
    (New.reload.bind fun d => (d.Insert [97] 0 98).map fun r => r.1)
      = .error .precondition ∧
    (((New.calls [.ins [97] 0 97]).bind Document.reload).map
        fun d => (d.Edits.isSome, d.head.isSome)) = .ok (false, false) ∧
    (((New.calls [.ins [97] 0 97]).bind Document.reload).bind
        fun d => (d.Insert [97] 0 98).map fun r => r.1) = .error .precondition := by
  decide!

/-- C6: the tokens `a, a, a, b` are encoded as `04 01 'a' 00 'b'`; the decoder
given the payload returns `a, a, a` and then `0x00, 0x00` instead of `b` and an
empty result. -/
theorem C6_decoder_loses_sync :
    rleEncode [[97], [97], [97], [98]] = [0x04, 0x01, 97, 0x00, 98] ∧
    rleDecode (rleEncode [[97], [97], [97], [98]]) 5
      = some [[97], [97], [97], [0x00], [0x00]] ∧
    rleDecode (rleEncode [[97], [97], [97], [98]]) 5
      ≠ some [[97], [97], [97], [98], []] := by
  decide!

set_option maxRecDepth 100000 in
/-- C10: after 52 four-byte characters have been typed and the first two
removed, the text has 200 bytes; `Insert(a, 201, 'A')` does not fail but appends
'A', and `Remove(a, 200)` does not fail but removes the last character. -/
theorem C10_out_of_bounds_accepted :
    textAfter (typeWide 52 ++ [.rem [97] 0, .rem [97] 0]) = some (wideText 2 50) ∧
    (wideText 2 50).length = 200 ∧
    textAfter (typeWide 52 ++ [.rem [97] 0, .rem [97] 0, .ins [97] 201 65])
      = some (wideText 2 50 ++ encodeRune 65) ∧
    failureAfter (typeWide 52 ++ [.rem [97] 0, .rem [97] 0, .ins [97] 201 65]) = none ∧
    textAfter (typeWide 52 ++ [.rem [97] 0, .rem [97] 0, .rem [97] 200])
      = some (wideText 2 49) ∧
    failureAfter (typeWide 52 ++ [.rem [97] 0, .rem [97] 0, .rem [97] 200]) = none := by
  decide!

end UDT

namespace UDT

/-! ## UTF-8: what `string(rune)` writes is accepted by `utf8.Valid` -/

theorem or_0xC0 (x : Nat) (h : x < 64) : 0xC0 ||| x = 192 + x := by
  have := Nat.mul_add_lt_is_or (i := 6) (b := x) (by simpa using h) 3
  simp at this
  omega

theorem or_0x80_left (x : Nat) (h : x < 128) : 0x80 ||| x = 128 + x := by
  have := Nat.mul_add_lt_is_or (i := 7) (b := x) (by simpa using h) 1
  simp at this
  omega

theorem or_0xE0 (x : Nat) (h : x < 32) : 0xE0 ||| x = 224 + x := by
  have := Nat.mul_add_lt_is_or (i := 5) (b := x) (by simpa using h) 7
  simp at this
  omega

theorem or_0xF0 (x : Nat) (h : x < 16) : 0xF0 ||| x = 240 + x := by
  have := Nat.mul_add_lt_is_or (i := 4) (b := x) (by simpa using h) 15
  simp at this
  omega

/-- The encoding of a scalar value, in arithmetic. -/
theorem encodeNat_eq (r : Nat) (hr : r ≤ 0x10FFFF) :
    encodeNat r =
      if r ≤ 127 then [r]
      else if r ≤ 2047 then [192 + r / 64, 128 + r % 64]
      else if r ≤ 65535 then [224 + r / 4096, 128 + r / 64 % 64, 128 + r % 64]
      else [240 + r / 262144, 128 + r / 4096 % 64, 128 + r / 64 % 64, 128 + r % 64] := by
  unfold encodeNat
  simp only [and_0x3F, shr]
  norm_num
  split
  · rfl
  · split
    · rw [or_0xC0 _ (by omega), or_0x80_left _ (by omega)]
    · split
      · rw [or_0xE0 _ (by omega), or_0x80_left _ (by omega), or_0x80_left _ (by omega)]
      · rw [or_0xF0 _ (by omega), or_0x80_left _ (by omega), or_0x80_left _ (by omega),
          or_0x80_left _ (by omega)]

theorem encodeRune_length (r : Int) : 1 ≤ (encodeRune r).length ∧ (encodeRune r).length ≤ 4 := by
  unfold encodeRune encodeNat
  split
  · split
    · simp
    · split
      · simp
      · split <;> simp
  · simp

/-- One iteration of `utf8.Valid` consumes exactly the bytes of one `string(rune)`. -/
theorem utf8ValidLoop_encodeRune (r : Int) (fuel : Nat) (p : List Nat) :
    utf8ValidLoop (fuel + 1) (encodeRune r ++ p) = utf8ValidLoop fuel p := by
  unfold encodeRune
  split
  · rename_i hv
    have hv' : (0 ≤ r ∧ r < 55296) ∨ (57343 < r ∧ r ≤ 1114111) := by
      simpa [validRune] using hv
    obtain ⟨n, rfl⟩ : ∃ n : Nat, r = (n : Int) := ⟨r.toNat, by omega⟩
    have hn : (n < 55296) ∨ (57343 < n ∧ n ≤ 1114111) := by omega
    simp only [Int.toNat_ofNat]
    rw [encodeNat_eq n (by omega)]
    by_cases h1 : n ≤ 127
    · simp only [if_pos h1, List.cons_append, List.nil_append, utf8ValidLoop]
      rw [if_pos (by omega)]
    · by_cases h2 : n ≤ 2047
      · simp only [if_neg h1, if_pos h2, List.cons_append, List.nil_append, utf8ValidLoop]
        rw [if_neg (by omega), if_pos (by omega)]
        simp [isCont]
        omega
      · by_cases h3 : n ≤ 65535
        · simp only [if_neg h1, if_neg h2, if_pos h3, List.cons_append, List.nil_append,
            utf8ValidLoop]
          rw [if_neg (by omega), if_neg (by omega), if_pos (by omega)]
          have hc1 : isCont (128 + n % 64) = true := by simp [isCont]; omega
          by_cases hE0 : 224 + n / 4096 = 224
          · rw [if_pos hE0, hc1]
            have : (decide (160 ≤ 128 + n / 64 % 64) && decide (128 + n / 64 % 64 ≤ 191))
                = true := by
              simp; omega
            simp only [this, Bool.true_and]
          · rw [if_neg hE0]
            by_cases hED : 224 + n / 4096 = 237
            · rw [if_pos hED, hc1]
              have : (decide (128 ≤ 128 + n / 64 % 64) && decide (128 + n / 64 % 64 ≤ 159))
                  = true := by
                simp; omega
              simp only [this, Bool.true_and]
            · rw [if_neg hED, hc1]
              have : isCont (128 + n / 64 % 64) = true := by simp [isCont]; omega
              simp only [this, Bool.true_and]
        · simp only [if_neg h1, if_neg h2, if_neg h3, List.cons_append, List.nil_append,
            utf8ValidLoop]
          rw [if_neg (by omega), if_neg (by omega), if_neg (by omega), if_pos (by omega)]
          have hc1 : isCont (128 + n % 64) = true := by simp [isCont]; omega
          have hc2 : isCont (128 + n / 64 % 64) = true := by simp [isCont]; omega
          by_cases hF0 : 240 + n / 262144 = 240
          · rw [if_pos hF0, hc1, hc2]
            have : (decide (144 ≤ 128 + n / 4096 % 64) && decide (128 + n / 4096 % 64 ≤ 191))
                = true := by
              simp; omega
            simp only [this, Bool.true_and]
          · rw [if_neg hF0]
            by_cases hF4 : 240 + n / 262144 = 244
            · rw [if_pos hF4, hc1, hc2]
              have : (decide (128 ≤ 128 + n / 4096 % 64) && decide (128 + n / 4096 % 64 ≤ 143))
                  = true := by
                simp; omega
              simp only [this, Bool.true_and]
            · rw [if_neg hF4, hc1, hc2]
              have : isCont (128 + n / 4096 % 64) = true := by simp [isCont]; omega
              simp only [this, Bool.true_and]
  · simp [utf8ValidLoop, isCont]

theorem utf8ValidLoop_nil (fuel : Nat) : utf8ValidLoop fuel [] = true := by
  cases fuel <;> simp [utf8ValidLoop]

theorem IsText.nil : IsText [] := ⟨[], rfl⟩

theorem IsText.append_rune {w : List Nat} (h : IsText w) (r : Int) :
    IsText (w ++ encodeRune r) := by
  obtain ⟨rs, rfl⟩ := h
  exact ⟨rs ++ [r], by simp⟩

theorem utf8ValidLoop_text (rs : List Int) : ∀ (fuel : Nat) (p : List Nat),
    utf8ValidLoop (rs.length + fuel) (rs.flatMap encodeRune ++ p) = utf8ValidLoop fuel p := by
  induction rs with
  | nil => intro fuel p; simp
  | cons r rs ih =>
    intro fuel p
    have : (r :: rs).length + fuel = (rs.length + fuel) + 1 := by simp; omega
    rw [this, List.flatMap_cons, List.append_assoc, utf8ValidLoop_encodeRune, ih]

theorem length_le_flatMap_encodeRune (rs : List Int) :
    rs.length ≤ (rs.flatMap encodeRune).length := by
  induction rs with
  | nil => simp
  | cons r rs ih =>
    have := (encodeRune_length r).1
    simp only [List.flatMap_cons, List.length_append, List.length_cons]
    omega

/-- A concatenation of `string(rune)` conversions is valid UTF-8. -/
theorem IsText.valid {w : List Nat} (h : IsText w) : utf8Valid w = true := by
  obtain ⟨rs, rfl⟩ := h
  unfold utf8Valid
  obtain ⟨k, hk⟩ : ∃ k, (rs.flatMap encodeRune).length = rs.length + k :=
    ⟨_, (Nat.add_sub_cancel' (length_le_flatMap_encodeRune rs)).symm⟩
  have := utf8ValidLoop_text rs k []
  rw [List.append_nil] at this
  rw [hk, this, utf8ValidLoop_nil]

end UDT

namespace UDT

/-! ## Length-prefixed regions -/

theorem readULEBLoop_lt (b : List Nat) : ∀ (acc i n : Nat) (rest : List Nat),
    readULEBLoop b acc i = some (n, rest) → n < 4294967296 := by
  induction b with
  | nil => intro acc i n rest h; simp [readULEBLoop] at h
  | cons c b ih =>
    intro acc i n rest h
    simp only [readULEBLoop] at h
    split at h
    · split at h
      · cases h
      · simp only [Option.some.injEq, Prod.mk.injEq] at h
        rw [← h.1]
        exact Nat.mod_lt _ (by decide)
    · exact ih _ _ _ _ h

theorem readULEB_lt (b : List Nat) (n : Nat) (rest : List Nat)
    (h : readULEB b = some (n, rest)) : n < 4294967296 :=
  readULEBLoop_lt b 0 0 n rest h

/-- A region written by `writeLenPrefixed` is read back by `readLengthPrefixed`. -/
theorem readLengthPrefixed_write (x rest : List Nat) (hx : x.length < 4294967296) :
    readLengthPrefixed (writeLenPrefixed x ++ rest) = .ok (some (x, rest)) := by
  unfold readLengthPrefixed writeLenPrefixed
  rw [Nat.mod_eq_of_lt hx, List.append_assoc, readULEB_uleb _ _ hx]
  simp

/-- What `readLengthPrefixed` accepts is a region with its length prefix. -/
theorem readLengthPrefixed_ok (b x rest : List Nat) (hb : IsBytes b)
    (h : readLengthPrefixed b = .ok (some (x, rest))) :
    b = writeLenPrefixed x ++ rest ∧ x.length < 4294967296 := by
  unfold readLengthPrefixed at h
  split at h
  · cases h
  · rename_i len b' hread
    split at h
    · cases h
    · rename_i hlen
      simp only [Except.ok.injEq, Option.some.injEq, Prod.mk.injEq] at h
      obtain ⟨rfl, rfl⟩ := h
      have hlt := readULEB_lt _ _ _ hread
      have hxl : (List.take len b').length = len := by
        rw [List.length_take]; omega
      refine ⟨?_, by omega⟩
      unfold writeLenPrefixed
      rw [hxl, Nat.mod_eq_of_lt hlt, List.append_assoc, List.take_append_drop]
      exact readULEB_strict b len b' hb hread

/-- `(e *RLEEncoder) WriteTo` writes the concatenated runs behind their length. -/
theorem RLEEncoder.WriteTo_eq (e : RLEEncoder) :
    e.WriteTo.1 = writeLenPrefixed e.flush.runs.flatten := by
  simp [RLEEncoder.WriteTo, writeLenPrefixed, List.length_flatten]

/-! ## What the operations leave unchanged -/

theorem ensureSkipList_ok {d d' : Document} {sl : List SkipListNode}
    (h : d.ensureSkipList = .ok (sl, d')) : d' = { d with skipList := some sl } := by
  unfold Document.ensureSkipList at h
  split at h
  · rename_i sl' hsl
    simp only [Except.ok.injEq, Prod.mk.injEq] at h
    obtain ⟨rfl, rfl⟩ := h
    cases d
    simp_all
  · split at h
    · cases h
    · simp only [Except.ok.injEq, Prod.mk.injEq] at h
      obtain ⟨rfl, rfl⟩ := h
      rfl

theorem updateSkipList_ok {d d' : Document} {pos : Nat} {delta : Int}
    (h : d.updateSkipList pos delta = .ok d') : ∃ sl, d' = { d with skipList := sl } := by
  unfold Document.updateSkipList at h
  split at h
  · cases h
  · rename_i sl d1 hens
    have h1 := ensureSkipList_ok hens
    subst h1
    dsimp only at h
    split at h
    · simp only [Except.ok.injEq] at h
      exact ⟨none, by rw [← h]; split <;> rfl⟩
    · simp only [Except.ok.injEq] at h
      split at h
      · exact ⟨none, by rw [← h]⟩
      · exact ⟨some sl, by rw [← h]⟩

/-- `updateSkipList` fails only on a document without a tree. -/
theorem updateSkipList_isOk {d : Document} (pos : Nat) (delta : Int) (h : d.head.isSome) :
    ∃ d', d.updateSkipList pos delta = .ok d' := by
  unfold Document.updateSkipList Document.ensureSkipList
  cases hs : d.skipList with
  | some sl => simp only; split <;> exact ⟨_, rfl⟩
  | none =>
    cases hh : d.head with
    | none => simp [hh] at h
    | some head => simp only; split <;> exact ⟨_, rfl⟩

/-- What a successful `ApplyAt` has done: the predecessor was found through
`Edits`, the loop chose `idx`, and the fresh node went into its children. -/
theorem ApplyAt_ok {d d' : Document} {e : Edit} {index : Nat}
    (h : d.ApplyAt e index = .ok d') :
    ∃ m head prevAddr prev idx,
      d.Edits = some m ∧ d.head = some head ∧ lookupEdits m e.prev = some prevAddr ∧
      findNode prevAddr head = some prev ∧ applyAtLoop prev e prev.next 0 = .ok idx ∧
      d'.head = some (setNext prevAddr
        (slicesInsert · idx (EditTreeNode.mk d.nextAddr e.char e.id [])) head) ∧
      d'.Edits = some ((e.id, d.nextAddr) :: m) ∧
      d'.nextAddr = d.nextAddr + 1 ∧
      d'.maxVersion = max d.maxVersion e.id.version ∧
      d'.value = d.value ∧ d'.meta = d.meta := by
  unfold Document.ApplyAt at h
  simp only at h
  split at h
  · cases h
  · rename_i d1 hd1
    have hd1' : d1.Edits = d.Edits ∧ d1.head = d.head ∧ d1.nextAddr = d.nextAddr ∧
        d1.maxVersion = max d.maxVersion e.id.version ∧ d1.value = d.value ∧
        d1.meta = d.meta := by
      split at hd1
      · split at hd1
        · cases hd1
        · simp only [Except.ok.injEq] at hd1
          subst hd1
          refine ⟨by split <;> rfl, by split <;> rfl, by split <;> rfl, ?_,
            by split <;> rfl, by split <;> rfl⟩
          split <;> (try dsimp only) <;> omega
      · simp only [Except.ok.injEq] at hd1
        subst hd1
        refine ⟨by split <;> rfl, by split <;> rfl, by split <;> rfl, ?_,
          by split <;> rfl, by split <;> rfl⟩
        split <;> (try dsimp only) <;> omega
    obtain ⟨hE, hH, hN, hM, hV, hMeta⟩ := hd1'
    split at h
    · cases h
    · cases h
    · rename_i prevAddr head hlook hhead
      split at h
      · cases h
      · rename_i prev hfind
        split at h
        · cases h
        · rename_i idx hloop
          split at h
          · cases h
          · rename_i d2 hupd
            obtain ⟨sl, rfl⟩ := updateSkipList_ok hupd
            simp only [Except.ok.injEq] at h
            subst h
            cases hm : d1.Edits with
            | none => simp [hm] at hlook
            | some m =>
              rw [hm] at hlook
              change lookupEdits m e.prev = some prevAddr at hlook
              refine ⟨m, head, prevAddr, prev, idx, by rw [← hE, hm], by rw [← hH, hhead],
                hlook, hfind, hloop, ?_, ?_, ?_, ?_, ?_, ?_⟩
              · simp [hN]
              · simp [hm, hN]
              · show d1.nextAddr + 1 = d.nextAddr + 1
                rw [hN]
              · simpa using hM
              · simpa using hV
              · simpa using hMeta

end UDT

namespace UDT

/-! ## Serialization round trip -/

theorem IsText.append {v w : List Nat} (hv : IsText v) (hw : IsText w) : IsText (v ++ w) := by
  obtain ⟨rs, rfl⟩ := hv
  obtain ⟨ts, rfl⟩ := hw
  exact ⟨rs ++ ts, by simp⟩

mutual
/-- The text collected by `String` below a node is appended to what was
collected before, and is a concatenation of `string(rune)` conversions. -/
theorem charsInOrder_text : ∀ (t : EditTreeNode) (s : List Nat),
    ∃ w, t.charsInOrder stringVisit s = (s ++ w, true) ∧ IsText w
  | .mk addr c id next, s => by
    simp only [EditTreeNode.charsInOrder]
    split
    · obtain ⟨w, hw, ht⟩ := charsInOrderFrom_text (deleteCount next) next (s ++ encodeRune c)
      refine ⟨encodeRune c ++ w, ?_, IsText.append (IsText.nil.append_rune c) ht⟩
      simp only [stringVisit, EditTreeNode.char, Bool.not_true, Bool.false_eq_true, if_false]
      rw [hw, List.append_assoc]
    · exact charsInOrderFrom_text (deleteCount next) next s
/-- The same for the loop over the children. -/
theorem charsInOrderFrom_text : ∀ (i : Nat) (l : List EditTreeNode) (s : List Nat),
    ∃ w, charsInOrderFrom stringVisit i l s = (s ++ w, true) ∧ IsText w
  | _, [], s => ⟨[], by simp [charsInOrderFrom], IsText.nil⟩
  | i + 1, _ :: cs, s => by
    simp only [charsInOrderFrom]
    exact charsInOrderFrom_text i cs s
  | 0, c :: cs, s => by
    obtain ⟨w1, h1, t1⟩ := charsInOrder_text c s
    obtain ⟨w2, h2, t2⟩ := charsInOrderFrom_text 0 cs (s ++ w1)
    refine ⟨w1 ++ w2, ?_, t1.append t2⟩
    simp only [charsInOrderFrom, h1, Bool.not_true, Bool.false_eq_true, if_false]
    rw [h2, List.append_assoc]
end

/-- The text of a document with a tree is valid UTF-8. -/
theorem String_text {d : Document} {m : List (ID × Nat)} {head : EditTreeNode}
    (hE : d.Edits = some m) (hH : d.head = some head) :
    ∃ str, d.String = .ok str ∧ IsText str := by
  obtain ⟨w, hw, ht⟩ := charsInOrder_text head []
  refine ⟨w, ?_, ht⟩
  simp [Document.String, hE, hH, hw]

/-- What a successful `Insert` has done. -/
theorem Insert_ok {d d' : Document} {a : List Nat} {i : Nat} {c : Int} {e : Edit}
    (h : d.Insert a i c = .ok (e, d')) :
    ∃ pred d1, d.Edits.isSome ∧ d.predForIndex i = .ok (pred, d1) ∧
      e = { char := c, id := { actorID := a, version := (d.maxVersion + 1) % 4294967296 },
            prev := pred.id } ∧
      d1.ApplyAt e i = .ok d' := by
  unfold Document.Insert at h
  split at h
  · cases h
  · rename_i hE
    split at h
    · cases h
    · rename_i pred d1 hpred
      dsimp only at h
      split at h
      · cases h
      · rename_i d2 happ
        simp only [Except.ok.injEq, Prod.mk.injEq] at h
        obtain ⟨rfl, rfl⟩ := h
        refine ⟨pred, d1, ?_, hpred, rfl, happ⟩
        cases hd : d.Edits <;> simp_all

theorem Insert_tree {d d' : Document} {a : List Nat} {i : Nat} {c : Int} {e : Edit}
    (h : d.Insert a i c = .ok (e, d')) : d'.Edits.isSome ∧ d'.head.isSome := by
  obtain ⟨pred, d1, _, _, _, happ⟩ := Insert_ok h
  obtain ⟨_, _, _, _, _, _, _, _, _, _, hh, hE, _⟩ := ApplyAt_ok happ
  rw [hh, hE]
  simp

theorem call_tree {d d' : Document} {op : Op} (h : d.call op = .ok d') :
    d'.Edits.isSome ∧ d'.head.isSome := by
  cases op with
  | ins a i c =>
    simp only [Document.call] at h
    split at h
    · cases h
    · rename_i r hr
      simp only [Except.ok.injEq] at h
      subst h
      exact Insert_tree (e := r.1) hr
  | rem a i =>
    simp only [Document.call, Document.Remove] at h
    split at h
    · cases h
    · rename_i r hr
      simp only [Except.ok.injEq] at h
      subst h
      split at hr
      · cases hr
      · exact Insert_tree (e := r.1) hr

/-- Every document reached from one with a tree has a tree. -/
theorem calls_tree (ops : List Op) : ∀ {d d' : Document}, d.calls ops = .ok d' →
    d.Edits.isSome ∧ d.head.isSome → d'.Edits.isSome ∧ d'.head.isSome := by
  induction ops with
  | nil =>
    intro d d' h hd
    simp only [Document.calls, Except.ok.injEq] at h
    subst h
    exact hd
  | cons op ops ih =>
    intro d d' h _
    simp only [Document.calls] at h
    split at h
    · cases h
    · rename_i d1 h1
      exact ih h (call_tree h1)

/-- `WriteTo` on a document with a tree writes its seven regions, each behind
its length. -/
theorem WriteTo_regions {d : Document} {head : EditTreeNode} {str : List Nat}
    (hS : d.String = .ok str) (hH : d.head = some head) :
    d.WriteTo = .ok (d.regions.map writeLenPrefixed).flatten := by
  simp only [Document.WriteTo, Document.regions, hS, hH, BackingEncoder.WriteTo,
    IDEncoder.WriteTo, RLEEncoder.WriteTo_eq, List.map_cons, List.map_nil,
    List.flatten_cons, List.flatten_nil, List.append_nil, List.append_assoc]

/-- C4, amended: for every document `d` reached from `New()` by non-failing
`Insert` (of Unicode scalar values) and `Remove` calls whose seven regions (the
text, the actor IDs and the five column payloads) are each shorter than `2^32`
bytes, with `b` the bytes written by `d.WriteTo`: `Load(b)` succeeds with the
same `String()`, `PrepareToEdit` on the loaded document succeeds, and `WriteTo`
of the loaded document writes exactly `b`. -/
theorem C4_roundtrip (ops : List Op) (d : Document)
    (_hscalar : ∀ a i c, Op.ins a i c ∈ ops → validRune c = true)
    (hd : New.calls ops = .ok d)
    (hsize : ∀ r ∈ d.regions, r.length < 4294967296) :
    ∃ b d', d.WriteTo = .ok b ∧ Load b = .ok d' ∧ d'.String = d.String ∧
      d'.PrepareToEdit = .ok d' ∧ d'.WriteTo = .ok b := by
  have htree := calls_tree ops hd (by simp [New])
  obtain ⟨m, hE⟩ := Option.isSome_iff_exists.1 htree.1
  obtain ⟨head, hH⟩ := Option.isSome_iff_exists.1 htree.2
  obtain ⟨str, hS, htext⟩ := String_text hE hH
  have hW := WriteTo_regions hS hH
  obtain ⟨r2, r3, r4, r5, r6, r7, hreg⟩ : ∃ r2 r3 r4 r5 r6 r7,
      d.regions = [str, r2, r3, r4, r5, r6, r7] := by
    simp only [Document.regions, hS, hH]
    exact ⟨_, _, _, _, _, _, rfl⟩
  rw [hreg] at hW hsize
  have h1 := hsize str (by simp)
  have h2 := hsize r2 (by simp)
  have h3 := hsize r3 (by simp)
  have h4 := hsize r4 (by simp)
  have h5 := hsize r5 (by simp)
  have h6 := hsize r6 (by simp)
  have h7 := hsize r7 (by simp)
  simp only [List.map_cons, List.map_nil, List.flatten_cons, List.flatten_nil] at hW
  refine ⟨_, ⟨str, writeLenPrefixed r2 ++ (writeLenPrefixed r3 ++ (writeLenPrefixed r4 ++
    (writeLenPrefixed r5 ++ (writeLenPrefixed r6 ++ (writeLenPrefixed r7 ++ []))))),
    none, 0, none, none, none, 0⟩, hW, ?_, ?_, ?_, ?_⟩
  · simp only [Load, readLengthPrefixed_write str _ h1, htext.valid]
    rfl
  · rw [hS]
    rfl
  · simp only [Document.PrepareToEdit, readLengthPrefixed_write r2 _ h2,
      readLengthPrefixed_write r3 _ h3, readLengthPrefixed_write r4 _ h4,
      readLengthPrefixed_write r5 _ h5, readLengthPrefixed_write r6 _ h6,
      readLengthPrefixed_write r7 _ h7]
    rfl
  · rfl

end UDT

namespace UDT

theorem testOps_scalar : ∀ a i c, Op.ins a i c ∈ testOps → validRune c = true := by
  intro a i c h
  simp only [testOps, List.mem_cons, Op.ins.injEq, List.mem_singleton, reduceCtorEq,
    or_false, List.not_mem_nil] at h
  rcases h with h | h | h <;> rw [h.2.2] <;> decide

theorem testOps_ok : failureAfter testOps = none := by decide!

theorem testDoc_eq : New.calls testOps = .ok testDoc := by
  have h := testOps_ok
  unfold failureAfter at h
  unfold testDoc
  cases hc : New.calls testOps with
  | error p => rw [hc] at h; cases h
  | ok d => rfl

theorem testDoc_regions : ∀ r ∈ testDoc.regions, r.length < 4294967296 := by decide!

/-- The round trip of C4 for the document that the calls of `TestUDT` leave. -/
theorem C4_roundtrip_witness :
    (∀ a i c, Op.ins a i c ∈ testOps → validRune c = true) ∧
    New.calls testOps = .ok testDoc ∧
    (∀ r ∈ testDoc.regions, r.length < 4294967296) ∧
    ∃ b d', testDoc.WriteTo = .ok b ∧ Load b = .ok d' ∧ d'.String = testDoc.String ∧
      d'.PrepareToEdit = .ok d' ∧ d'.WriteTo = .ok b :=
  ⟨testOps_scalar, testDoc_eq, testDoc_regions,
    C4_roundtrip testOps testDoc testOps_scalar testDoc_eq testDoc_regions⟩

/-! ## A text of `2^32` bytes -/

theorem lookupEdits_frontEdits (k : Nat) : lookupEdits (frontEdits k) ⟨[], 0⟩ = some 0 := by
  induction k with
  | zero => simp [frontEdits, lookupEdits]
  | succ k ih => simp [frontEdits, lookupEdits, ih]

theorem applyAtLoop_frontNodes (k : Nat) (p : EditTreeNode) :
    applyAtLoop p { char := 65536, id := ⟨[97], k + 1⟩, prev := ⟨[], 0⟩ } (frontNodes k) 0
      = .ok 0 := by
  cases k with
  | zero => rfl
  | succ k =>
    simp [frontNodes, applyAtLoop, EditTreeNode.char, EditTreeNode.id, delete]

theorem deleteCount_frontNodes (k : Nat) : deleteCount (frontNodes k) = 0 := by
  cases k <;> simp [frontNodes, deleteCount, EditTreeNode.char, delete]

/-- The first call `Insert("a", 0, U+10000)`. -/
theorem Insert_front_New :
    New.Insert [97] 0 65536
      = .ok ({ char := 65536, id := ⟨[97], 1⟩, prev := ⟨[], 0⟩ }, frontDoc 1) := by
  rfl

/-- Each further call `Insert("a", 0, U+10000)`. -/
theorem Insert_front (k : Nat) (hk : k + 1 < 4294967296) :
    (frontDoc k).Insert [97] 0 65536
      = .ok ({ char := 65536, id := ⟨[97], k + 1⟩, prev := ⟨[], 0⟩ }, frontDoc (k + 1)) := by
  have hmod : (k + 1) % 4294967296 = k + 1 := Nat.mod_eq_of_lt hk
  have hloop := applyAtLoop_frontNodes k (.mk 0 0 ⟨[], 0⟩ (frontNodes k))
  simp only [Document.Insert, frontDoc, Document.predForIndex, Option.isNone_some,
    Bool.false_eq_true, if_false, if_true, hmod, EditTreeNode.id, Document.ApplyAt,
    gt_iff_lt, Nat.lt_succ_self, Nat.succ_pos, addActor, List.mem_singleton,
    Option.bind_some, Option.some_bind, lookupEdits_frontEdits, findNode, EditTreeNode.next,
    hloop]
  simp [Document.updateSkipList, Document.ensureSkipList, updateSkipListStep, runeLen,
    delete, toU8, setNext, slicesInsert, frontNodes, frontEdits]

theorem calls_front (n : Nat) : ∀ k, k + n < 4294967296 →
    (frontDoc k).calls (List.replicate n (Op.ins [97] 0 65536)) = .ok (frontDoc (k + n)) := by
  induction n with
  | zero => intro k _; rfl
  | succ n ih =>
    intro k hk
    simp only [List.replicate_succ, Document.calls, Document.call, Insert_front k (by omega)]
    rw [ih (k + 1) (by omega)]
    congr 2
    omega

theorem calls_front_New (n : Nat) (hn : n + 1 < 4294967296) :
    New.calls (List.replicate (n + 1) (Op.ins [97] 0 65536)) = .ok (frontDoc (n + 1)) := by
  simp only [List.replicate_succ, Document.calls, Document.call, Insert_front_New]
  rw [calls_front n 1 (by omega)]
  congr 2
  omega

theorem charsInOrderFrom_frontNodes (k : Nat) : ∀ s : List Nat,
    (charsInOrderFrom stringVisit 0 (frontNodes k) s).1.length = s.length + 4 * k := by
  induction k with
  | zero => intro s; simp [frontNodes, charsInOrderFrom]
  | succ k ih =>
    intro s
    have henc : (encodeRune 65536).length = 4 := by decide
    simp only [frontNodes, charsInOrderFrom, EditTreeNode.charsInOrder, deleteCount,
      stringVisit, EditTreeNode.char]
    simp only [Nat.lt_irrefl, decide_False, Bool.not_false, Bool.true_and, bne_iff_ne, ne_eq,
      Nat.succ_ne_zero, not_false_eq_true, if_true, Bool.not_true, Bool.false_eq_true,
      if_false, decide_True]
    rw [ih, List.length_append, henc]
    omega

theorem String_frontDoc (k : Nat) :
    ∃ str, (frontDoc k).String = .ok str ∧ str.length = 4 * k := by
  refine ⟨_, rfl, ?_⟩
  simp only [EditTreeNode.charsInOrder, deleteCount_frontNodes]
  simpa using charsInOrderFrom_frontNodes k []

/-- The text of a loaded document is shorter than `2^32` bytes. -/
theorem Load_String_length {b : List Nat} {d : Document} (h : Load b = .ok d) :
    ∃ str, d.String = .ok str ∧ str.length < 4294967296 := by
  unfold Load readLengthPrefixed at h
  split at h
  · cases h
  · cases h
  · rename_i value rest hr
    split at hr
    · cases hr
    · rename_i len b' hread
      split at hr
      · cases hr
      · simp only [Except.ok.injEq, Option.some.injEq, Prod.mk.injEq] at hr
        split at h
        · cases h
        · simp only [Except.ok.injEq] at h
          subst h
          refine ⟨value, rfl, ?_⟩
          have := readULEB_lt _ _ _ hread
          rw [← hr.1, List.length_take]
          omega

/-- C4 as stated fails: `2^30` calls `Insert("a", 0, U+10000)` on `New()`, all of
a Unicode scalar value and none failing, leave a text of `2^32` bytes, and no
document that `Load` returns has that text. -/
theorem C4_text_of_4GiB :
    (∀ a i c, Op.ins a i c ∈ List.replicate 1073741824 (Op.ins [97] 0 65536) →
        validRune c = true) ∧
    New.calls (List.replicate 1073741824 (Op.ins [97] 0 65536)) = .ok (frontDoc 1073741824) ∧
    ¬ ∃ b d', (frontDoc 1073741824).WriteTo = .ok b ∧ Load b = .ok d' ∧
        d'.String = (frontDoc 1073741824).String := by
  refine ⟨?_, calls_front_New 1073741823 (by norm_num), ?_⟩
  · intro a i c h
    have := List.eq_of_mem_replicate h
    simp only [Op.ins.injEq] at this
    rw [this.2.2]
    decide
  · rintro ⟨b, d', _, hL, hS⟩
    obtain ⟨str, hstr, hlen⟩ := Load_String_length hL
    obtain ⟨str', hstr', hlen'⟩ := String_frontDoc 1073741824
    rw [hstr, hstr'] at hS
    simp only [Except.ok.injEq] at hS
    subst hS
    omega

end UDT

namespace UDT

/-! ## The failures of C5 and C9 at every input -/

/-- Whenever the length read exceeds the bytes that follow, `readLengthPrefixed`
and `Load` panic: no overrun is reported through `ok` or through an error. -/
theorem overrun_panics (b : List Nat) (n : Nat) (rest : List Nat)
    (h : readULEB b = some (n, rest)) (hlen : rest.length < n) :
    readLengthPrefixed b = .error .sliceBounds ∧ Load b = .error .sliceBounds := by
  have h1 : readLengthPrefixed b = .error .sliceBounds := by
    simp [readLengthPrefixed, h, hlen]
  exact ⟨h1, by simp [Load, h1]⟩

/-- `Load` returns a document without `Edits` and without a tree. -/
theorem Load_fields {b : List Nat} {d : Document} (h : Load b = .ok d) :
    d.Edits = none ∧ d.head = none := by
  unfold Load at h
  split at h
  · cases h
  · cases h
  · split at h
    · cases h
    · simp only [Except.ok.injEq] at h
      subst h
      exact ⟨rfl, rfl⟩

/-- `PrepareToEdit` returns the document it was called on. -/
theorem PrepareToEdit_ok {d d' : Document} (h : d.PrepareToEdit = .ok d') : d' = d := by
  unfold Document.PrepareToEdit at h
  repeat' split at h
  all_goals first
    | (simp only [Except.ok.injEq] at h; exact h.symm)
    | cases h

/-- After `Load` and `PrepareToEdit`, every `Insert` and every `Remove` panics
with "d.PrepareToEdit() must be called before ...". -/
theorem loaded_not_editable {b : List Nat} {d d' : Document} (hL : Load b = .ok d)
    (hP : d.PrepareToEdit = .ok d') (a : List Nat) (i : Nat) (c : Int) :
    d'.Insert a i c = .error .precondition ∧ d'.Remove a i = .error .precondition := by
  rw [PrepareToEdit_ok hP]
  have hE := (Load_fields hL).1
  simp [Document.Insert, Document.Remove, hE]

end UDT

namespace UDT

/-! ## Edit trees: induction and the traversals as list operations -/

mutual
/-- Induction on edit trees: a property holds of every tree when it holds of a
node as soon as it holds of the node's children. -/
theorem EditTreeNode.ind {P : EditTreeNode → Prop}
    (mk : ∀ a c id next, (∀ n ∈ next, P n) → P (.mk a c id next)) :
    ∀ t : EditTreeNode, P t
  | .mk a c id next => mk a c id next (EditTreeNode.ind_list mk next)
/-- The same for a list of trees. -/
theorem EditTreeNode.ind_list {P : EditTreeNode → Prop}
    (mk : ∀ a c id next, (∀ n ∈ next, P n) → P (.mk a c id next)) :
    ∀ (l : List EditTreeNode), ∀ n ∈ l, P n
  | [], _, h => by cases h
  | c :: cs, n, h => by
    rcases List.mem_cons.1 h with h | h
    · rw [h]; exact EditTreeNode.ind mk c
    · exact EditTreeNode.ind_list mk cs n h
end

theorem eraseList_eq (l : List EditTreeNode) : eraseList l = l.map EditTreeNode.erase := by
  induction l with
  | nil => rfl
  | cons c cs ih => simp [eraseList, ih]

theorem erase_mk (a : Nat) (c : Int) (id : ID) (next : List EditTreeNode) :
    (EditTreeNode.mk a c id next).erase = .mk 0 c id (next.map EditTreeNode.erase) := by
  simp [EditTreeNode.erase, eraseList_eq]

theorem subnodesList_eq (l : List EditTreeNode) : subnodesList l = l.flatMap subnodes := by
  induction l with
  | nil => rfl
  | cons c cs ih => simp [subnodesList, ih]

theorem subnodes_mk (a : Nat) (c : Int) (id : ID) (next : List EditTreeNode) :
    subnodes (.mk a c id next) = .mk a c id next :: next.flatMap subnodes := by
  simp [subnodes, subnodesList_eq]

theorem setNextByList_eq (sel : Nat → ID → Bool)
    (g : ID → List EditTreeNode → List EditTreeNode) (l : List EditTreeNode) :
    setNextByList sel g l = l.map (setNextBy sel g) := by
  induction l with
  | nil => rfl
  | cons c cs ih => simp [setNextByList, ih]

theorem setNextBy_mk (sel : Nat → ID → Bool)
    (g : ID → List EditTreeNode → List EditTreeNode) (a : Nat) (c : Int) (id : ID)
    (next : List EditTreeNode) :
    setNextBy sel g (.mk a c id next)
      = if sel a id then .mk a c id (g id next)
        else .mk a c id (next.map (setNextBy sel g)) := by
  simp [setNextBy, setNextByList_eq]

theorem setNextList_eq (a : Nat) (g : List EditTreeNode → List EditTreeNode)
    (l : List EditTreeNode) : setNextList a g l = l.map (setNext a g) := by
  induction l with
  | nil => rfl
  | cons c cs ih => simp [setNextList, ih]

/-- Assigning through a pointer selects the nodes by their allocation number. -/
theorem setNext_eq_setNextBy (a : Nat) (g : List EditTreeNode → List EditTreeNode)
    (t : EditTreeNode) :
    setNext a g t = setNextBy (fun addr _ => decide (addr = a)) (fun _ => g) t := by
  induction t using EditTreeNode.ind with
  | mk addr c id next ih =>
    simp only [setNext, setNextList_eq, setNextBy_mk, decide_eq_true_eq]
    split
    · rfl
    · congr 1
      exact List.map_congr_left ih

theorem sortedForest_iff (l : List EditTreeNode) : SortedForest l ↔ ∀ c ∈ l, SortedTree c := by
  induction l with
  | nil => simp [SortedForest]
  | cons c cs ih => simp [SortedForest, ih]

theorem sortedTree_mk (a : Nat) (c : Int) (id : ID) (next : List EditTreeNode) :
    SortedTree (.mk a c id next)
      ↔ List.Pairwise (Before id.actorID) next ∧ ∀ n ∈ next, SortedTree n := by
  simp [SortedTree, sortedForest_iff]

theorem self_mem_subnodes (t : EditTreeNode) : t ∈ subnodes t := by
  cases t
  simp [subnodes_mk]

theorem subnodes_of_child {a : Nat} {c : Int} {id : ID} {next : List EditTreeNode}
    {ch n : EditTreeNode} (hch : ch ∈ next) (hn : n ∈ subnodes ch) :
    n ∈ subnodes (.mk a c id next) := by
  rw [subnodes_mk]
  exact List.mem_cons_of_mem _ (List.mem_flatMap.2 ⟨ch, hch, hn⟩)

theorem setNextBy_addr (sel : Nat → ID → Bool)
    (g : ID → List EditTreeNode → List EditTreeNode) (t : EditTreeNode) :
    (setNextBy sel g t).addr = t.addr ∧ (setNextBy sel g t).char = t.char ∧
      (setNextBy sel g t).id = t.id := by
  cases t
  rw [setNextBy_mk]
  split <;> simp [EditTreeNode.addr, EditTreeNode.char, EditTreeNode.id]

/-- Where no node is selected nothing is assigned. -/
theorem setNextBy_of_no_hit (sel : Nat → ID → Bool)
    (g : ID → List EditTreeNode → List EditTreeNode) (t : EditTreeNode)
    (h : ∀ n ∈ subnodes t, sel n.addr n.id = false) : setNextBy sel g t = t := by
  induction t using EditTreeNode.ind with
  | mk a c id next ih =>
    rw [setNextBy_mk]
    have hroot := h _ (self_mem_subnodes _)
    simp only [EditTreeNode.addr, EditTreeNode.id] at hroot
    rw [hroot]
    simp only [Bool.false_eq_true, if_false, EditTreeNode.mk.injEq, true_and]
    conv_rhs => rw [← List.map_id next]
    refine List.map_congr_left (fun ch hch => ?_)
    exact ih ch hch (fun n hn => h n (subnodes_of_child hch hn))

/-- Two assignments that agree on the selected nodes give the same tree. -/
theorem setNextBy_congr (sel : Nat → ID → Bool)
    (g g' : ID → List EditTreeNode → List EditTreeNode) (t : EditTreeNode)
    (h : ∀ n ∈ subnodes t, sel n.addr n.id = true → g n.id n.next = g' n.id n.next) :
    setNextBy sel g t = setNextBy sel g' t := by
  induction t using EditTreeNode.ind with
  | mk a c id next ih =>
    rw [setNextBy_mk, setNextBy_mk]
    split
    · rename_i hs
      have := h _ (self_mem_subnodes _) hs
      simp only [EditTreeNode.id, EditTreeNode.next] at this
      rw [this]
    · congr 1
      refine List.map_congr_left (fun ch hch => ?_)
      exact ih ch hch (fun n hn => h n (subnodes_of_child hch hn))

/-- Erasing the allocation numbers commutes with an assignment, when the
selection and the value assigned do not depend on them. -/
theorem erase_setNextBy (sel sel' : Nat → ID → Bool)
    (g g' : ID → List EditTreeNode → List EditTreeNode) (t : EditTreeNode)
    (hsel : ∀ n ∈ subnodes t, sel n.addr n.id = sel' 0 n.id)
    (hg : ∀ n ∈ subnodes t, sel n.addr n.id = true →
      (g n.id n.next).map EditTreeNode.erase = g' n.id (n.next.map EditTreeNode.erase)) :
    (setNextBy sel g t).erase = setNextBy sel' g' t.erase := by
  induction t using EditTreeNode.ind with
  | mk a c id next ih =>
    have hroot := hsel _ (self_mem_subnodes _)
    simp only [EditTreeNode.addr, EditTreeNode.id] at hroot
    rw [erase_mk, setNextBy_mk, setNextBy_mk, ← hroot]
    split
    · rename_i hs
      have := hg _ (self_mem_subnodes _) hs
      simp only [EditTreeNode.id, EditTreeNode.next] at this
      rw [erase_mk, this]
    · rw [erase_mk, List.map_map, List.map_map]
      congr 1
      refine List.map_congr_left (fun ch hch => ?_)
      exact ih ch hch (fun n hn => hsel n (subnodes_of_child hch hn))
        (fun n hn => hg n (subnodes_of_child hch hn))

theorem erase_fields (t : EditTreeNode) :
    t.erase.char = t.char ∧ t.erase.id = t.id ∧ t.erase.addr = 0 := by
  cases t
  simp [erase_mk, EditTreeNode.char, EditTreeNode.id, EditTreeNode.addr]

theorem idsOf_erase (t : EditTreeNode) : idsOf t.erase = idsOf t := by
  unfold idsOf
  induction t using EditTreeNode.ind with
  | mk a c id next ih =>
    rw [erase_mk, subnodes_mk, subnodes_mk]
    simp only [List.map_cons, EditTreeNode.id, List.map_flatMap, List.flatMap_map,
      List.cons.injEq, true_and]
    exact List.flatMap_congr ih

end UDT

namespace UDT

/-! ## The sibling order is a strict total order -/

theorem strLt_irrefl (a : List Nat) : strLt a a = false := by
  induction a with
  | nil => rfl
  | cons x xs ih => simp [strLt, ih]

theorem strLt_trans : ∀ (a b c : List Nat), strLt a b = true → strLt b c = true →
    strLt a c = true
  | [], [], _, h, _ => by simp [strLt] at h
  | [], _ :: _, [], _, h => by simp [strLt] at h
  | [], _ :: _, _ :: _, _, _ => by simp [strLt]
  | _ :: _, [], _, h, _ => by simp [strLt] at h
  | _ :: _, _ :: _, [], _, h => by simp [strLt] at h
  | x :: xs, y :: ys, z :: zs, h1, h2 => by
    simp only [strLt, Bool.or_eq_true, decide_eq_true_eq, Bool.and_eq_true] at h1 h2 ⊢
    rcases h1 with h1 | ⟨h1, h1'⟩
    · rcases h2 with h2 | ⟨h2, _⟩
      · left; omega
      · left; omega
    · rcases h2 with h2 | ⟨h2, h2'⟩
      · left; omega
      · right
        exact ⟨by omega, strLt_trans xs ys zs h1' h2'⟩

theorem strLt_total : ∀ (a b : List Nat), strLt a b = false → strLt b a = false → a = b
  | [], [], _, _ => rfl
  | [], _ :: _, h, _ => by simp [strLt] at h
  | _ :: _, [], _, h => by simp [strLt] at h
  | x :: xs, y :: ys, h1, h2 => by
    simp only [strLt, Bool.or_eq_false_iff, decide_eq_false_iff_not, Bool.and_eq_false_iff]
      at h1 h2
    have hxy : x = y := by omega
    subst hxy
    have h1' : strLt xs ys = false := by
      rcases h1.2 with h | h
      · exact absurd rfl h
      · exact h
    have h2' : strLt ys xs = false := by
      rcases h2.2 with h | h
      · exact absurd rfl h
      · exact h
    rw [strLt_total xs ys h1' h2']

/-- The conditions of the loop of `ApplyAt` are a lexicographic comparison:
tombstones first, then higher version, then the parent's actor, then the
greater actor. -/
theorem staysBefore_iff (pa : List Nat) (cc : Int) (ci : ID) (nc : Int) (ni : ID) :
    staysBefore pa cc ci nc ni = true ↔
      kindOf cc < kindOf nc ∨ (kindOf cc = kindOf nc ∧
        (ni.version < ci.version ∨ (ci.version = ni.version ∧
          (contOf pa ci.actorID < contOf pa ni.actorID ∨
            (contOf pa ci.actorID = contOf pa ni.actorID ∧
              strLt ni.actorID ci.actorID = true))))) := by
  unfold staysBefore kindOf contOf
  by_cases h1 : cc = delete <;> by_cases h2 : nc = delete <;>
    by_cases h3 : ci.version > ni.version <;> by_cases h4 : ci.version < ni.version <;>
    by_cases h5 : ci.actorID = pa <;> by_cases h6 : ni.actorID = pa <;>
    simp [h1, h2, h3, h4, h5, h6] <;> omega

theorem Before_irrefl (pa : List Nat) (x : EditTreeNode) : ¬ Before pa x x := by
  unfold Before
  rw [staysBefore_iff]
  simp [strLt_irrefl]

theorem Before_trans (pa : List Nat) (x y z : EditTreeNode)
    (hxy : Before pa x y) (hyz : Before pa y z) : Before pa x z := by
  unfold Before at *
  rw [staysBefore_iff] at *
  rcases hxy with h | ⟨h1, h | ⟨h2, h | ⟨h3, h⟩⟩⟩ <;>
    rcases hyz with k | ⟨k1, k | ⟨k2, k | ⟨k3, k⟩⟩⟩
  all_goals first
    | (left; omega)
    | (right; refine ⟨by omega, ?_⟩; left; omega)
    | (right; refine ⟨by omega, ?_⟩; right; refine ⟨by omega, ?_⟩; left; omega)
    | (right; refine ⟨by omega, ?_⟩; right; refine ⟨by omega, ?_⟩; right;
        exact ⟨by omega, strLt_trans _ _ _ k h⟩)

/-- Two nodes that the order does not separate have the same kind and the same id. -/
theorem Before_total (pa : List Nat) (x y : EditTreeNode)
    (hxy : ¬ Before pa x y) (hyx : ¬ Before pa y x) :
    kindOf x.char = kindOf y.char ∧ x.id = y.id := by
  unfold Before at *
  rw [staysBefore_iff] at hxy hyx
  have hk : kindOf x.char = kindOf y.char := by
    by_contra hne
    rcases Nat.lt_or_gt_of_ne hne with h | h
    · exact hxy (Or.inl h)
    · exact hyx (Or.inl h)
  have hv : x.id.version = y.id.version := by
    by_contra hne
    rcases Nat.lt_or_gt_of_ne hne with h | h
    · exact hyx (Or.inr ⟨hk.symm, Or.inl h⟩)
    · exact hxy (Or.inr ⟨hk, Or.inl h⟩)
  have hc : contOf pa x.id.actorID = contOf pa y.id.actorID := by
    by_contra hne
    rcases Nat.lt_or_gt_of_ne hne with h | h
    · exact hxy (Or.inr ⟨hk, Or.inr ⟨hv, Or.inl h⟩⟩)
    · exact hyx (Or.inr ⟨hk.symm, Or.inr ⟨hv.symm, Or.inl h⟩⟩)
  have h1 : strLt y.id.actorID x.id.actorID = false := by
    by_contra hne
    exact hxy (Or.inr ⟨hk, Or.inr ⟨hv, Or.inr ⟨hc, by simpa using hne⟩⟩⟩)
  have h2 : strLt x.id.actorID y.id.actorID = false := by
    by_contra hne
    exact hyx (Or.inr ⟨hk.symm, Or.inr ⟨hv.symm, Or.inr ⟨hc.symm, by simpa using hne⟩⟩⟩)
  refine ⟨hk, ?_⟩
  have ha := strLt_total _ _ h2 h1
  cases hx : x.id
  cases hy : y.id
  simp_all

/-- The sibling order is antisymmetric, there being no two nodes each before the
other. -/
theorem Before_antisymm (pa : List Nat) : IsAntisymm EditTreeNode (Before pa) :=
  ⟨fun x y hxy hyx => absurd (Before_trans pa x y x hxy hyx) (Before_irrefl pa x)⟩

end UDT

namespace UDT

/-! ## Inserting a node among sorted siblings -/

theorem slicesInsert_zero (l : List EditTreeNode) (x : EditTreeNode) :
    slicesInsert l 0 x = x :: l := by
  simp [slicesInsert]

theorem slicesInsert_succ (c : EditTreeNode) (cs : List EditTreeNode) (k : Nat)
    (x : EditTreeNode) : slicesInsert (c :: cs) (k + 1) x = c :: slicesInsert cs k x := by
  simp [slicesInsert]

theorem slicesInsert_perm (l : List EditTreeNode) (k : Nat) (x : EditTreeNode) :
    (slicesInsert l k x).Perm (x :: l) := by
  unfold slicesInsert
  refine List.perm_middle.trans ?_
  rw [List.take_append_drop]

theorem map_slicesInsert (f : EditTreeNode → EditTreeNode) (l : List EditTreeNode) (k : Nat)
    (x : EditTreeNode) : (slicesInsert l k x).map f = slicesInsert (l.map f) k (f x) := by
  simp [slicesInsert, List.map_take, List.map_drop]

theorem findIdx_map (pa : List Nat) (e : Edit) (f : EditTreeNode → EditTreeNode)
    (l : List EditTreeNode) (hf : ∀ n ∈ l, (f n).char = n.char ∧ (f n).id = n.id) :
    findIdx pa e (l.map f) = findIdx pa e l := by
  induction l with
  | nil => rfl
  | cons c cs ih =>
    have hc := hf c (by simp)
    simp only [List.map_cons, findIdx, hc.1, hc.2]
    rw [ih (fun n hn => hf n (by simp [hn]))]

theorem Before_map (pa : List Nat) (f : EditTreeNode → EditTreeNode) (x y : EditTreeNode)
    (hx : (f x).char = x.char ∧ (f x).id = x.id) (hy : (f y).char = y.char ∧ (f y).id = y.id) :
    Before pa (f x) (f y) ↔ Before pa x y := by
  unfold Before
  rw [hx.1, hx.2, hy.1, hy.2]

/-- The loop of `ApplyAt` stops at the first sibling that does not stay before
the edit. -/
theorem applyAtLoop_findIdx (prev : EditTreeNode) (e : Edit) (l : List EditTreeNode) :
    ∀ (i idx : Nat), applyAtLoop prev e l i = .ok idx →
      idx = i + findIdx prev.id.actorID e l := by
  induction l with
  | nil =>
    intro i idx h
    simp only [applyAtLoop, Except.ok.injEq] at h
    simp [findIdx, h]
  | cons c cs ih =>
    intro i idx h
    unfold applyAtLoop at h
    unfold findIdx staysBefore
    by_cases h1 : c.char = delete ∧ e.char ≠ delete
    · rw [if_pos h1] at h
      rw [if_pos h1]
      have := ih _ _ h
      simp only [if_true]
      omega
    · rw [if_neg h1] at h
      rw [if_neg h1]
      by_cases h2 : e.char = delete ∧ c.char ≠ delete
      · rw [if_pos h2] at h
        rw [if_pos h2]
        simp only [Except.ok.injEq] at h
        simp [h]
      · rw [if_neg h2] at h
        rw [if_neg h2]
        by_cases h3 : c.id.version > e.id.version
        · rw [if_pos h3] at h
          rw [if_pos h3]
          have := ih _ _ h
          simp only [if_true]
          omega
        · rw [if_neg h3] at h
          rw [if_neg h3]
          by_cases h4 : c.id.version < e.id.version
          · rw [if_pos h4] at h
            rw [if_pos h4]
            simp only [Except.ok.injEq] at h
            simp [h]
          · rw [if_neg h4] at h
            rw [if_neg h4]
            by_cases h5 : c.id.actorID = prev.id.actorID ∧ e.id.actorID ≠ prev.id.actorID
            · rw [if_pos h5] at h
              rw [if_pos h5]
              have := ih _ _ h
              simp only [if_true]
              omega
            · rw [if_neg h5] at h
              rw [if_neg h5]
              by_cases h6 : c.id.actorID ≠ prev.id.actorID ∧ e.id.actorID = prev.id.actorID
              · rw [if_pos h6] at h
                rw [if_pos h6]
                simp only [Except.ok.injEq] at h
                simp [h]
              · rw [if_neg h6] at h
                rw [if_neg h6]
                by_cases h7 : strLt e.id.actorID c.id.actorID = true
                · rw [if_pos h7] at h
                  rw [h7]
                  have := ih _ _ h
                  simp only [if_true]
                  omega
                · rw [if_neg h7] at h
                  have h7' : strLt e.id.actorID c.id.actorID = false := by simpa using h7
                  rw [h7']
                  split at h
                  · simp only [Except.ok.injEq] at h
                    simp [h]
                  · cases h

/-- Inserting at the place the loop finds keeps the siblings sorted. -/
theorem pairwise_slicesInsert (pa : List Nat) (e : Edit) (new : EditTreeNode)
    (hc : new.char = e.char) (hi : new.id = e.id) (l : List EditTreeNode)
    (hs : l.Pairwise (Before pa)) (hne : ∀ c ∈ l, c.id ≠ e.id) :
    (slicesInsert l (findIdx pa e l) new).Pairwise (Before pa) := by
  induction l with
  | nil => simp [findIdx, slicesInsert]
  | cons c cs ih =>
    rw [List.pairwise_cons] at hs
    unfold findIdx
    by_cases hb : staysBefore pa c.char c.id e.char e.id = true
    · rw [if_pos hb, slicesInsert_succ, List.pairwise_cons]
      refine ⟨?_, ih hs.2 (fun d hd => hne d (by simp [hd]))⟩
      intro d hd
      rcases List.mem_cons.1 ((List.Perm.mem_iff (slicesInsert_perm cs _ new)).1 hd)
        with hd | hd
      · rw [hd]
        unfold Before
        rw [hc, hi]
        exact hb
      · exact hs.1 d hd
    · rw [if_neg hb, slicesInsert_zero, List.pairwise_cons]
      have hnc : Before pa new c := by
        by_contra hcon
        have hcn : ¬ Before pa c new := by
          unfold Before
          rw [hc, hi]
          exact hb
        have := (Before_total pa c new hcn hcon).2
        exact hne c (by simp) (this.trans hi)
      refine ⟨?_, List.pairwise_cons.2 hs⟩
      intro d hd
      rcases List.mem_cons.1 hd with hd | hd
      · rw [hd]; exact hnc
      · exact Before_trans pa new c d hnc (hs.1 d hd)

/-- Two insertions among sorted siblings give the same list in either order. -/
theorem slicesInsert_comm (pa : List Nat) (x y : Edit) (l : List EditTreeNode)
    (hs : l.Pairwise (Before pa)) (hx : ∀ c ∈ l, c.id ≠ x.id) (hy : ∀ c ∈ l, c.id ≠ y.id)
    (hxy : x.id ≠ y.id) :
    slicesInsert (slicesInsert l (findIdx pa x l) (.mk 0 x.char x.id []))
        (findIdx pa y (slicesInsert l (findIdx pa x l) (.mk 0 x.char x.id [])))
        (.mk 0 y.char y.id [])
      = slicesInsert (slicesInsert l (findIdx pa y l) (.mk 0 y.char y.id []))
          (findIdx pa x (slicesInsert l (findIdx pa y l) (.mk 0 y.char y.id [])))
          (.mk 0 x.char x.id []) := by
  have sx := pairwise_slicesInsert pa x (.mk 0 x.char x.id []) rfl rfl l hs hx
  have sy := pairwise_slicesInsert pa y (.mk 0 y.char y.id []) rfl rfl l hs hy
  have hx' : ∀ c ∈ slicesInsert l (findIdx pa y l) (.mk 0 y.char y.id []), c.id ≠ x.id := by
    intro c hc
    rcases List.mem_cons.1 ((List.Perm.mem_iff (slicesInsert_perm _ _ _)).1 hc) with h | h
    · rw [h]; exact fun h' => hxy h'.symm
    · exact hx c h
  have hy' : ∀ c ∈ slicesInsert l (findIdx pa x l) (.mk 0 x.char x.id []), c.id ≠ y.id := by
    intro c hc
    rcases List.mem_cons.1 ((List.Perm.mem_iff (slicesInsert_perm _ _ _)).1 hc) with h | h
    · rw [h]; exact hxy
    · exact hy c h
  have sxy := pairwise_slicesInsert pa y (.mk 0 y.char y.id []) rfl rfl _ sx hy'
  have syx := pairwise_slicesInsert pa x (.mk 0 x.char x.id []) rfl rfl _ sy hx'
  haveI := Before_antisymm pa
  refine List.eq_of_perm_of_sorted ?_ sxy syx
  refine (slicesInsert_perm _ _ _).trans ?_
  refine ((slicesInsert_perm _ _ _).cons _).trans ?_
  refine (List.Perm.swap _ _ _).trans ?_
  refine List.Perm.symm ?_
  refine (slicesInsert_perm _ _ _).trans ?_
  exact (slicesInsert_perm _ _ _).cons _

end UDT

namespace UDT

/-! ## What an assignment does to the nodes of the tree -/

/-- With pairwise distinct keys and one node selected by its key, an assignment
that inserts a leaf adds the leaf to the nodes and changes no other allocation
number or id. -/
theorem labels_setNextBy {κ β : Type} [DecidableEq κ] (key : Nat → ID → κ) (target : κ)
    (k : ID → List EditTreeNode → Nat) (na : Nat) (nc : Int) (nid : ID) (lab : Nat → ID → β)
    (t : EditTreeNode)
    (hnd : ((subnodes t).map (fun n => key n.addr n.id)).Nodup)
    (hmem : target ∈ (subnodes t).map (fun n => key n.addr n.id)) :
    ((subnodes (setNextBy (fun a id => decide (key a id = target))
        (fun id next => slicesInsert next (k id next) (.mk na nc nid [])) t)).map
        (fun n => lab n.addr n.id)).Perm
      (lab na nid :: (subnodes t).map (fun n => lab n.addr n.id)) := by
  induction t using EditTreeNode.ind with
  | mk a c id next ih =>
    rw [setNextBy_mk]
    by_cases hroot : key a id = target
    · simp only [hroot, decide_True, if_true, subnodes_mk, List.map_cons, EditTreeNode.addr,
        EditTreeNode.id]
      refine (List.Perm.cons _ ?_).trans (List.Perm.swap _ _ _)
      have hp := ((slicesInsert_perm next (k id next) (.mk na nc nid [])).flatMap_right
        subnodes).map (fun n => lab n.addr n.id)
      refine hp.trans ?_
      simp [subnodes_mk, EditTreeNode.addr, EditTreeNode.id]
    · simp only [hroot, decide_False, Bool.false_eq_true, if_false, subnodes_mk, List.map_cons,
        EditTreeNode.addr, EditTreeNode.id]
      refine (List.Perm.cons _ ?_).trans (List.Perm.swap _ _ _)
      rw [subnodes_mk, List.map_cons, List.nodup_cons] at hnd
      rw [subnodes_mk, List.map_cons, List.mem_cons] at hmem
      have hmem' : target ∈ (next.flatMap subnodes).map (fun n => key n.addr n.id) := by
        rcases hmem with h | h
        · exact absurd h.symm hroot
        · exact h
      have hnd' := hnd.2
      clear hnd hmem hroot
      induction next with
      | nil => simp at hmem'
      | cons ch cs ihl =>
        simp only [List.flatMap_cons, List.map_append, List.map_cons] at hmem' hnd' ⊢
        have hdis := List.nodup_append.1 hnd'
        by_cases hin : target ∈ (subnodes ch).map (fun n => key n.addr n.id)
        · have hcs : cs.map (setNextBy (fun a id => decide (key a id = target))
              (fun id next => slicesInsert next (k id next) (.mk na nc nid []))) = cs := by
            conv_rhs => rw [← List.map_id cs]
            refine List.map_congr_left (fun x hx => ?_)
            refine setNextBy_of_no_hit _ _ x (fun n hn => ?_)
            simp only [decide_eq_false_iff_not]
            intro hk
            refine hdis.2.2 hin ?_
            rw [← hk]
            exact List.mem_map.2 ⟨n, List.mem_flatMap.2 ⟨x, hx, hn⟩, rfl⟩
          rw [hcs]
          exact (ih ch (by simp) hdis.1 hin).append_right _
        · have hin' : target ∈ (cs.flatMap subnodes).map (fun n => key n.addr n.id) := by
            rcases List.mem_append.1 hmem' with h | h
            · exact absurd h hin
            · exact h
          have hch : setNextBy (fun a id => decide (key a id = target))
              (fun id next => slicesInsert next (k id next) (.mk na nc nid [])) ch = ch := by
            refine setNextBy_of_no_hit _ _ ch (fun n hn => ?_)
            simp only [decide_eq_false_iff_not]
            intro hk
            exact hin (by rw [← hk]; exact List.mem_map.2 ⟨n, hn, rfl⟩)
          rw [hch]
          refine (List.Perm.append_left _
            (ihl (fun n hn => ih n (by simp [hn])) hin' hdis.2.1)).trans ?_
          exact List.perm_middle

/-- An assignment that inserts a leaf at the place the loop finds keeps every
node's children sorted. -/
theorem sortedTree_setNextBy (sel : Nat → ID → Bool) (e : Edit) (na : Nat)
    (t : EditTreeNode) (hs : SortedTree t) (hne : ∀ n ∈ subnodes t, n.id ≠ e.id) :
    SortedTree (setNextBy sel
      (fun id next => slicesInsert next (findIdx id.actorID e next) (.mk na e.char e.id [])) t) := by
  induction t using EditTreeNode.ind with
  | mk a c id next ih =>
    rw [sortedTree_mk] at hs
    have hchild : ∀ ch ∈ next, ch.id ≠ e.id :=
      fun ch hch => hne ch (subnodes_of_child hch (self_mem_subnodes ch))
    rw [setNextBy_mk]
    split
    · rw [sortedTree_mk]
      refine ⟨pairwise_slicesInsert _ e (.mk na e.char e.id []) rfl rfl next hs.1 hchild, ?_⟩
      intro n hn
      rcases List.mem_cons.1 ((List.Perm.mem_iff (slicesInsert_perm _ _ _)).1 hn) with h | h
      · rw [h, sortedTree_mk]
        simp
      · exact hs.2 n h
    · rw [sortedTree_mk]
      constructor
      · rw [List.pairwise_map]
        refine hs.1.imp_of_mem ?_
        intro x y _ _ hxy
        exact (Before_map _ _ x y
          ⟨(setNextBy_addr _ _ x).2.1, (setNextBy_addr _ _ x).2.2⟩
          ⟨(setNextBy_addr _ _ y).2.1, (setNextBy_addr _ _ y).2.2⟩).2 hxy
      · intro n hn
        obtain ⟨ch, hch, rfl⟩ := List.mem_map.1 hn
        exact ih ch hch (hs.2 ch hch) (fun m hm => hne m (subnodes_of_child hch hm))

mutual
theorem findNode_mem : ∀ (a : Nat) (t n : EditTreeNode), findNode a t = some n →
    n ∈ subnodes t ∧ n.addr = a
  | a, .mk addr c id next, n, h => by
    simp only [findNode] at h
    split at h
    · rename_i haddr
      simp only [Option.some.injEq] at h
      rw [← h]
      exact ⟨self_mem_subnodes _, haddr⟩
    · have := findNodeList_mem a next n h
      rw [subnodes]
      exact ⟨List.mem_cons_of_mem _ this.1, this.2⟩
theorem findNodeList_mem : ∀ (a : Nat) (l : List EditTreeNode) (n : EditTreeNode),
    findNodeList a l = some n → n ∈ subnodesList l ∧ n.addr = a
  | _, [], _, h => by simp [findNodeList] at h
  | a, c :: cs, n, h => by
    simp only [findNodeList] at h
    rw [subnodesList]
    split at h
    · rename_i r hr
      simp only [Option.some.injEq] at h
      rw [← h]
      have := findNode_mem a c r hr
      exact ⟨List.mem_append_left _ this.1, this.2⟩
    · have := findNodeList_mem a cs n h
      exact ⟨List.mem_append_right _ this.1, this.2⟩
end

/-- With pairwise distinct allocation numbers, a node is determined by its own. -/
theorem eq_of_addr_eq {t n1 n2 : EditTreeNode} (hnd : (addrsOf t).Nodup)
    (h1 : n1 ∈ subnodes t) (h2 : n2 ∈ subnodes t) (h : n1.addr = n2.addr) : n1 = n2 :=
  List.inj_on_of_nodup_map hnd h1 h2 h

/-- With pairwise distinct ids, a node is determined by its id. -/
theorem eq_of_id_eq {t n1 n2 : EditTreeNode} (hnd : (idsOf t).Nodup)
    (h1 : n1 ∈ subnodes t) (h2 : n2 ∈ subnodes t) (h : n1.id = n2.id) : n1 = n2 :=
  List.inj_on_of_nodup_map hnd h1 h2 h

end UDT

namespace UDT

/-! ## `ApplyAt` on a well-formed document -/

theorem lookupEdits_cons (k : ID) (v : Nat) (m : List (ID × Nat)) (id : ID) :
    lookupEdits ((k, v) :: m) id = if k = id then some v else lookupEdits m id := rfl

/-- `ApplyAt` of an edit with a fresh id on a well-formed document: the document
stays well formed, the edit's predecessor was in the tree, the tree gains one
node with the edit's id, and without allocation numbers the new tree is
`insertPure` of the old one. -/
theorem ApplyAt_WF {d d' : Document} {e : Edit} {i : Nat} {m : List (ID × Nat)}
    {head : EditTreeNode} (hE : d.Edits = some m) (hH : d.head = some head)
    (hwf : WFTree head m d.nextAddr) (hfresh : e.id ∉ idsOf head)
    (h : d.ApplyAt e i = .ok d') :
    ∃ head', d'.head = some head' ∧ d'.Edits = some ((e.id, d.nextAddr) :: m) ∧
      WFTree head' ((e.id, d.nextAddr) :: m) d'.nextAddr ∧
      head'.erase = insertPure e head.erase ∧ e.prev ∈ idsOf head ∧
      (idsOf head').Perm (e.id :: idsOf head) := by
  obtain ⟨m', head0, prevAddr, prev, idx, hE', hH', hlook, hfind, hloop, hhead', hEdits',
    hnext', -, -, -⟩ := ApplyAt_ok h
  rw [hE] at hE'
  rw [hH] at hH'
  simp only [Option.some.injEq] at hE' hH'
  subst hE' hH'
  obtain ⟨hna, hni, hbound, hmap, hsorted⟩ := hwf
  have hpm := findNode_mem _ _ _ hfind
  obtain ⟨n0, hn0, hn0eq⟩ := List.mem_map.1 ((hmap e.prev prevAddr).1 hlook)
  simp only [Prod.mk.injEq] at hn0eq
  have hn0p : n0 = prev := eq_of_addr_eq hna hn0 hpm.1 (by rw [hn0eq.1, hpm.2])
  have hpid : prev.id = e.prev := by rw [← hn0p]; exact hn0eq.2
  have hidx := applyAtLoop_findIdx prev e prev.next 0 idx hloop
  have hform : setNext prevAddr (slicesInsert · idx (.mk d.nextAddr e.char e.id [])) head
      = setNextBy (fun a _ => decide ((fun (a : Nat) (_ : ID) => a) a rootID = prevAddr))
          (fun id next => slicesInsert next (findIdx id.actorID e next)
            (.mk d.nextAddr e.char e.id [])) head := by
    rw [setNext_eq_setNextBy]
    refine setNextBy_congr _ _ _ head (fun n hn hsel => ?_)
    have hnp : n = prev :=
      eq_of_addr_eq hna hn hpm.1 (by rw [hpm.2]; simpa using hsel)
    rw [hnp, hidx, Nat.zero_add]
  rw [hform] at hhead'
  have hprev_in : e.prev ∈ idsOf head := by
    rw [← hpid]
    exact List.mem_map.2 ⟨prev, hpm.1, rfl⟩
  have hmem : prevAddr ∈ (subnodes head).map
      (fun n => (fun (a : Nat) (_ : ID) => a) n.addr n.id) :=
    List.mem_map.2 ⟨prev, hpm.1, hpm.2⟩
  have haddrs := labels_setNextBy (fun (a : Nat) (_ : ID) => a) prevAddr
    (fun id next => findIdx id.actorID e next) d.nextAddr e.char e.id
    (fun (a : Nat) (_ : ID) => a) head hna hmem
  have hids := labels_setNextBy (fun (a : Nat) (_ : ID) => a) prevAddr
    (fun id next => findIdx id.actorID e next) d.nextAddr e.char e.id
    (fun (_ : Nat) (id : ID) => id) head hna hmem
  have hpairs := labels_setNextBy (fun (a : Nat) (_ : ID) => a) prevAddr
    (fun id next => findIdx id.actorID e next) d.nextAddr e.char e.id
    (fun (a : Nat) (id : ID) => (a, id)) head hna hmem
  beta_reduce at haddrs hids hpairs
  have hnew_addr : d.nextAddr ∉ addrsOf head := fun hin => Nat.lt_irrefl _ (hbound _ hin)
  refine ⟨_, hhead', hEdits', ⟨?_, ?_, ?_, ?_, ?_⟩, ?_, hprev_in, hids⟩
  · exact (List.Perm.nodup_iff haddrs).2 (List.nodup_cons.2 ⟨hnew_addr, hna⟩)
  · exact (List.Perm.nodup_iff hids).2 (List.nodup_cons.2 ⟨hfresh, hni⟩)
  · intro a ha
    rw [hnext']
    rcases List.mem_cons.1 ((List.Perm.mem_iff haddrs).1 ha) with h | h
    · omega
    · have := hbound a h
      omega
  · intro id a
    rw [lookupEdits_cons, List.Perm.mem_iff hpairs, List.mem_cons]
    by_cases hid : e.id = id
    · rw [if_pos hid]
      constructor
      · intro ha
        simp only [Option.some.injEq] at ha
        left
        rw [← ha, hid]
      · rintro (ha | ha)
        · simp only [Prod.mk.injEq] at ha
          rw [ha.1]
        · exfalso
          apply hfresh
          rw [hid]
          obtain ⟨n, hn, hneq⟩ := List.mem_map.1 ha
          simp only [Prod.mk.injEq] at hneq
          exact List.mem_map.2 ⟨n, hn, hneq.2⟩
    · rw [if_neg hid, hmap]
      constructor
      · exact fun ha => Or.inr ha
      · rintro (ha | ha)
        · simp only [Prod.mk.injEq] at ha
          exact absurd ha.2.symm hid
        · exact ha
  · refine sortedTree_setNextBy _ e d.nextAddr head hsorted (fun n hn hne => ?_)
    exact hfresh (by rw [← hne]; exact List.mem_map.2 ⟨n, hn, rfl⟩)
  · unfold insertPure
    refine erase_setNextBy _ _ _ _ head (fun n hn => ?_) (fun n hn _ => ?_)
    · show decide (n.addr = prevAddr) = decide (n.id = e.prev)
      refine decide_eq_decide.2 ⟨fun ha => ?_, fun hid => ?_⟩
      · rw [eq_of_addr_eq hna hn hpm.1 (by rw [ha, hpm.2]), hpid]
      · rw [eq_of_id_eq hni hn hpm.1 (by rw [hid, hpid]), hpm.2]
    · rw [map_slicesInsert, findIdx_map _ _ _ _
        (fun x _ => ⟨(erase_fields x).1, (erase_fields x).2.1⟩), erase_mk]
      rfl

end UDT

namespace UDT

/-! ## Convergence on trees without allocation numbers -/

theorem idsOf_insertPure (e : Edit) (t : EditTreeNode) (hnd : (idsOf t).Nodup)
    (hprev : e.prev ∈ idsOf t) : (idsOf (insertPure e t)).Perm (e.id :: idsOf t) := by
  have := labels_setNextBy (fun (_ : Nat) (id : ID) => id) e.prev
    (fun id next => findIdx id.actorID e next) 0 e.char e.id
    (fun (_ : Nat) (id : ID) => id) t hnd hprev
  exact this

theorem sortedTree_insertPure (e : Edit) (t : EditTreeNode) (hs : SortedTree t)
    (hfresh : e.id ∉ idsOf t) : SortedTree (insertPure e t) :=
  sortedTree_setNextBy _ e 0 t hs
    (fun n hn hne => hfresh (by rw [← hne]; exact List.mem_map.2 ⟨n, hn, rfl⟩))

/-- Two edits with different ids, neither the predecessor of the other and
neither in the tree, can be applied in either order. -/
theorem insertPure_comm (x y : Edit) (t : EditTreeNode) (hs : SortedTree t)
    (hxy : x.id ≠ y.id) (hxp : x.id ≠ y.prev) (hyp : y.id ≠ x.prev)
    (hx : ∀ n ∈ subnodes t, n.id ≠ x.id) (hy : ∀ n ∈ subnodes t, n.id ≠ y.id) :
    insertPure y (insertPure x t) = insertPure x (insertPure y t) := by
  unfold insertPure
  induction t using EditTreeNode.ind with
  | mk a c id next ih =>
    rw [sortedTree_mk] at hs
    have hcx : ∀ ch ∈ next, ch.id ≠ x.id :=
      fun ch hch => hx ch (subnodes_of_child hch (self_mem_subnodes ch))
    have hcy : ∀ ch ∈ next, ch.id ≠ y.id :=
      fun ch hch => hy ch (subnodes_of_child hch (self_mem_subnodes ch))
    have hfix : ∀ (p q : Edit), p.id ≠ q.prev →
        setNextBy (fun _ id => decide (id = q.prev))
          (fun id next => slicesInsert next (findIdx id.actorID q next) (.mk 0 q.char q.id []))
          (.mk 0 p.char p.id []) = .mk 0 p.char p.id [] := by
      intro p q hpq
      rw [setNextBy_mk]
      simp [hpq]
    have hidx : ∀ (p q : Edit),
        findIdx id.actorID p (next.map (setNextBy (fun _ id => decide (id = q.prev))
          (fun id next => slicesInsert next (findIdx id.actorID q next)
            (.mk 0 q.char q.id [])))) = findIdx id.actorID p next :=
      fun p q => findIdx_map _ _ _ _
        (fun n _ => ⟨(setNextBy_addr _ _ n).2.1, (setNextBy_addr _ _ n).2.2⟩)
    by_cases h1 : id = x.prev <;> by_cases h2 : id = y.prev
    · have hd1 : decide (id = x.prev) = true := by simp [h1]
      have hd2 : decide (id = y.prev) = true := by simp [h2]
      simp only [setNextBy_mk, hd1, hd2, if_true]
      rw [slicesInsert_comm id.actorID x y next hs.1 hcx hcy hxy]
    · have hd1 : decide (id = x.prev) = true := by simp [h1]
      have hd2 : decide (id = y.prev) = false := by simp [h2]
      simp only [setNextBy_mk, hd1, hd2, if_true, Bool.false_eq_true, if_false]
      rw [map_slicesInsert, hfix x y hxp, hidx x y]
    · have hd1 : decide (id = x.prev) = false := by simp [h1]
      have hd2 : decide (id = y.prev) = true := by simp [h2]
      simp only [setNextBy_mk, hd1, hd2, if_true, Bool.false_eq_true, if_false]
      rw [map_slicesInsert, hfix y x hyp, hidx y x]
    · have hd1 : decide (id = x.prev) = false := by simp [h1]
      have hd2 : decide (id = y.prev) = false := by simp [h2]
      simp only [setNextBy_mk, hd1, hd2, Bool.false_eq_true, if_false,
        List.map_map, EditTreeNode.mk.injEq, true_and]
      refine List.map_congr_left (fun ch hch => ?_)
      exact ih ch hch (hs.2 ch hch) (fun n hn => hx n (subnodes_of_child hch hn))
        (fun n hn => hy n (subnodes_of_child hch hn))

theorem insertAll_append (t : EditTreeNode) (l1 l2 : List Edit) :
    insertAll t (l1 ++ l2) = insertAll (insertAll t l1) l2 := by
  induction l1 generalizing t with
  | nil => rfl
  | cons e l ih => simp [insertAll, ih]

/-- An edit whose predecessor is in the tree can be moved to the front of a
sequence of edits with pairwise distinct fresh ids. -/
theorem move_front (x : Edit) (post : List Edit) : ∀ (pre : List Edit) (t : EditTreeNode),
    SortedTree t → (idsOf t).Nodup → x.prev ∈ idsOf t →
    ((pre ++ x :: post).map Edit.id).Nodup →
    (∀ e ∈ pre ++ x :: post, e.id ∉ idsOf t) →
    Causal t (pre ++ x :: post) →
    insertAll t (pre ++ x :: post) = insertAll t (x :: (pre ++ post)) ∧
      Causal t (x :: (pre ++ post)) := by
  intro pre
  induction pre with
  | nil => intro t _ _ _ _ _ hc; exact ⟨rfl, hc⟩
  | cons y pre ih =>
    intro t hs hnd hxprev hnodup hfresh hc
    simp only [List.cons_append, Causal, List.append_eq] at hc
    simp only [List.cons_append, List.map_cons, List.nodup_cons] at hnodup
    have hyfresh : y.id ∉ idsOf t := hfresh y (by simp)
    have hxfresh : x.id ∉ idsOf t := hfresh x (by simp)
    have hxy : x.id ≠ y.id := by
      intro h
      exact hnodup.1 (List.mem_map.2 ⟨x, by simp, h⟩)
    have hidsy := idsOf_insertPure y t hnd hc.1
    have hidsx := idsOf_insertPure x t hnd hxprev
    have hs1 := sortedTree_insertPure y t hs hyfresh
    have hnd1 : (idsOf (insertPure y t)).Nodup :=
      (List.Perm.nodup_iff hidsy).2 (List.nodup_cons.2 ⟨hyfresh, hnd⟩)
    have hxprev1 : x.prev ∈ idsOf (insertPure y t) :=
      (List.Perm.mem_iff hidsy).2 (List.mem_cons_of_mem _ hxprev)
    have hfresh1 : ∀ e ∈ pre ++ x :: post, e.id ∉ idsOf (insertPure y t) := by
      intro e he hin
      rcases List.mem_cons.1 ((List.Perm.mem_iff hidsy).1 hin) with h | h
      · exact hnodup.1 (List.mem_map.2 ⟨e, he, h⟩)
      · exact hfresh e (by simp only [List.cons_append]; exact List.mem_cons_of_mem _ he) h
    obtain ⟨heq, hcaus⟩ := ih (insertPure y t) hs1 hnd1 hxprev1 hnodup.2 hfresh1 hc.2
    have hcomm : insertPure x (insertPure y t) = insertPure y (insertPure x t) := by
      refine (insertPure_comm x y t hs hxy ?_ ?_ ?_ ?_).symm
      · intro h; exact hxfresh (h ▸ hc.1)
      · intro h; exact hyfresh (h ▸ hxprev)
      · intro n hn hne
        exact hxfresh (by rw [← hne]; exact List.mem_map.2 ⟨n, hn, rfl⟩)
      · intro n hn hne
        exact hyfresh (by rw [← hne]; exact List.mem_map.2 ⟨n, hn, rfl⟩)
    simp only [Causal] at hcaus
    constructor
    · simp only [List.cons_append, insertAll, List.append_eq]
      rw [heq]
      simp only [insertAll]
      rw [hcomm]
    · simp only [List.cons_append, Causal, List.append_eq]
      refine ⟨hxprev, (List.Perm.mem_iff hidsx).2 (List.mem_cons_of_mem _ hc.1), ?_⟩
      rw [← hcomm]
      exact hcaus.2

/-- Convergence without allocation numbers: two causal orderings of the same
edits, with pairwise distinct ids that are not in the tree, give the same tree. -/
theorem insertAll_perm : ∀ (l1 l2 : List Edit) (t : EditTreeNode),
    SortedTree t → (idsOf t).Nodup → l1.Perm l2 → (l1.map Edit.id).Nodup →
    (∀ e ∈ l1, e.id ∉ idsOf t) → Causal t l1 → Causal t l2 →
    insertAll t l1 = insertAll t l2 := by
  intro l1
  induction l1 with
  | nil =>
    intro l2 t _ _ hp _ _ _ _
    rw [List.Perm.nil_eq hp]
  | cons x l1 ih =>
    intro l2 t hs hnd hp hnodup hfresh hc1 hc2
    have hx2 : x ∈ l2 := (List.Perm.mem_iff hp).1 (by simp)
    obtain ⟨pre, post, rfl⟩ := List.append_of_mem hx2
    simp only [Causal] at hc1
    have hnodup2 : ((pre ++ x :: post).map Edit.id).Nodup :=
      (List.Perm.nodup_iff (hp.map Edit.id)).1 hnodup
    have hfresh2 : ∀ e ∈ pre ++ x :: post, e.id ∉ idsOf t :=
      fun e he => hfresh e ((List.Perm.mem_iff hp).2 he)
    obtain ⟨heq, hcaus⟩ := move_front x post pre t hs hnd hc1.1 hnodup2 hfresh2 hc2
    rw [heq]
    simp only [insertAll, Causal] at hcaus ⊢
    have hxfresh : x.id ∉ idsOf t := hfresh x (by simp)
    have hidsx := idsOf_insertPure x t hnd hc1.1
    simp only [List.map_cons, List.nodup_cons] at hnodup
    refine ih (pre ++ post) (insertPure x t) (sortedTree_insertPure x t hs hxfresh)
      ((List.Perm.nodup_iff hidsx).2 (List.nodup_cons.2 ⟨hxfresh, hnd⟩))
      ((List.perm_cons x).1 (hp.trans List.perm_middle)) hnodup.2 ?_ hc1.2 hcaus.2
    intro e he hin
    rcases List.mem_cons.1 ((List.Perm.mem_iff hidsx).1 hin) with h | h
    · exact hnodup.1 (List.mem_map.2 ⟨e, he, h⟩)
    · exact hfresh e (List.mem_cons_of_mem _ he) h

end UDT

namespace UDT

/-! ## Convergence of documents -/

theorem deleteCount_eraseList (l : List EditTreeNode) :
    deleteCount (eraseList l) = deleteCount l := by
  induction l with
  | nil => rfl
  | cons c cs ih => simp [eraseList, deleteCount, (erase_fields c).1, ih]

mutual
/-- The text does not depend on the allocation numbers. -/
theorem charsInOrder_erase : ∀ (t : EditTreeNode) (s : List Nat),
    t.erase.charsInOrder stringVisit s = t.charsInOrder stringVisit s
  | .mk a c id next, s => by
    simp only [EditTreeNode.erase, EditTreeNode.charsInOrder, deleteCount_eraseList,
      stringVisit, EditTreeNode.char]
    split
    · simp only [Bool.not_true, Bool.false_eq_true, if_false]
      exact charsInOrderFrom_erase _ next _
    · exact charsInOrderFrom_erase _ next _
/-- The same for the loop over the children. -/
theorem charsInOrderFrom_erase : ∀ (i : Nat) (l : List EditTreeNode) (s : List Nat),
    charsInOrderFrom stringVisit i (eraseList l) s = charsInOrderFrom stringVisit i l s
  | _, [], s => by simp [eraseList, charsInOrderFrom]
  | i + 1, _ :: cs, s => by
    simp only [eraseList, charsInOrderFrom]
    exact charsInOrderFrom_erase i cs s
  | 0, c :: cs, s => by
    simp only [eraseList, charsInOrderFrom, charsInOrder_erase c s]
    split
    · rfl
    · exact charsInOrderFrom_erase 0 cs _
end

/-- Two documents with the same tree up to allocation numbers have the same text. -/
theorem String_of_erase_eq {d1 d2 : Document} {m1 m2 : List (ID × Nat)}
    {h1 h2 : EditTreeNode} (hE1 : d1.Edits = some m1) (hE2 : d2.Edits = some m2)
    (hH1 : d1.head = some h1) (hH2 : d2.head = some h2) (h : h1.erase = h2.erase) :
    d1.String = d2.String := by
  simp only [Document.String, hE1, hE2, hH1, hH2]
  rw [← charsInOrder_erase h1, ← charsInOrder_erase h2, h]

/-- Replaying edits with pairwise distinct fresh ids on a well-formed document
is, without allocation numbers, `insertAll`, and the sequence is causal. -/
theorem applyAll_pure : ∀ (l : List (Edit × Nat)) (d d' : Document) (m : List (ID × Nat))
    (head : EditTreeNode), d.Edits = some m → d.head = some head →
    WFTree head m d.nextAddr → ((l.map Prod.fst).map Edit.id).Nodup →
    (∀ ei ∈ l, ei.1.id ∉ idsOf head) → d.applyAll l = .ok d' →
    ∃ m' head', d'.Edits = some m' ∧ d'.head = some head' ∧ WFTree head' m' d'.nextAddr ∧
      head'.erase = insertAll head.erase (l.map Prod.fst) ∧
      Causal head.erase (l.map Prod.fst) := by
  intro l
  induction l with
  | nil =>
    intro d d' m head hE hH hwf _ _ h
    simp only [Document.applyAll, Except.ok.injEq] at h
    subst h
    exact ⟨m, head, hE, hH, hwf, rfl, trivial⟩
  | cons ei l ih =>
    intro d d' m head hE hH hwf hnodup hfresh h
    simp only [Document.applyAll] at h
    split at h
    · cases h
    · rename_i d1 happ
      simp only [List.map_cons, List.nodup_cons] at hnodup
      obtain ⟨head1, hH1, hE1, hwf1, herase, hprev, hids⟩ :=
        ApplyAt_WF hE hH hwf (hfresh ei (by simp)) happ
      have hfresh1 : ∀ ej ∈ l, ej.1.id ∉ idsOf head1 := by
        intro ej hej hin
        rcases List.mem_cons.1 ((List.Perm.mem_iff hids).1 hin) with hh | hh
        · exact hnodup.1 (List.mem_map.2 ⟨ej.1, List.mem_map.2 ⟨ej, hej, rfl⟩, hh⟩)
        · exact hfresh ej (List.mem_cons_of_mem _ hej) hh
      obtain ⟨m', head', hE', hH', hwf', herase', hcausal⟩ :=
        ih d1 d' _ head1 hE1 hH1 hwf1 hnodup.2 hfresh1 h
      refine ⟨m', head', hE', hH', hwf', ?_, ?_⟩
      · simp only [List.map_cons, insertAll]
        rw [← herase]
        exact herase'
      · simp only [List.map_cons, Causal]
        rw [idsOf_erase, ← herase]
        exact ⟨hprev, hcausal⟩

theorem New_WF : WFTree (.mk 0 0 rootID []) [(rootID, 0)] New.nextAddr := by
  refine ⟨by simp [addrsOf, subnodes_mk], by simp [idsOf, subnodes_mk], ?_, ?_, ?_⟩
  · intro a ha
    simp [addrsOf, subnodes_mk, EditTreeNode.addr] at ha
    simp [ha, New]
  · intro id a
    simp only [lookupEdits_cons, lookupEdits, subnodes_mk, List.flatMap_nil, List.map_cons,
      List.map_nil, List.mem_singleton, Prod.mk.injEq, EditTreeNode.addr, EditTreeNode.id]
    by_cases h : rootID = id
    · simp [h]
      exact eq_comm
    · simp [h]
      exact fun _ h' => h h'.symm
  · rw [sortedTree_mk]
    simp

/-- C3, amended: for every finite set of edits with pairwise distinct ids, none
of them the id `("", 0)` of the root, and every two orderings `l1`, `l2` of that
set (each edit with the index handed to `ApplyAt`) such that applying each
ordering with `ApplyAt` to `New()` never fails, the two resulting edit trees are
identical up to allocation numbers (same children sequence at every node, same
char and id at every node), and the two documents have the same `String()`. -/
theorem C3_convergence (l1 l2 : List (Edit × Nat)) (d1 d2 : Document)
    (hperm : (l1.map Prod.fst).Perm (l2.map Prod.fst))
    (hnodup : ((l1.map Prod.fst).map Edit.id).Nodup)
    (hroot : ∀ ei ∈ l1, ei.1.id ≠ rootID)
    (h1 : New.applyAll l1 = .ok d1) (h2 : New.applyAll l2 = .ok d2) :
    d1.head.map EditTreeNode.erase = d2.head.map EditTreeNode.erase ∧
      d1.String = d2.String := by
  have hids : idsOf (.mk 0 0 rootID []) = [rootID] := by simp [idsOf, subnodes_mk, EditTreeNode.id]
  have hfresh1 : ∀ ei ∈ l1, ei.1.id ∉ idsOf (.mk 0 0 rootID []) := by
    intro ei hei
    rw [hids, List.mem_singleton]
    exact hroot ei hei
  have hnodup2 : ((l2.map Prod.fst).map Edit.id).Nodup :=
    (List.Perm.nodup_iff (hperm.map Edit.id)).1 hnodup
  have hfresh2 : ∀ ei ∈ l2, ei.1.id ∉ idsOf (.mk 0 0 rootID []) := by
    intro ei hei
    rw [hids, List.mem_singleton]
    obtain ⟨ej, hej, hje⟩ := List.mem_map.1
      ((List.Perm.mem_iff hperm).2 (List.mem_map.2 ⟨ei, hei, rfl⟩))
    rw [← hje]
    exact hroot ej hej
  obtain ⟨m1, t1, hE1, hH1, _, he1, hc1⟩ :=
    applyAll_pure l1 New d1 _ _ rfl rfl New_WF hnodup hfresh1 h1
  obtain ⟨m2, t2, hE2, hH2, _, he2, hc2⟩ :=
    applyAll_pure l2 New d2 _ _ rfl rfl New_WF hnodup2 hfresh2 h2
  have hroot_sorted : SortedTree (EditTreeNode.mk 0 0 rootID []).erase := by
    rw [erase_mk, sortedTree_mk]
    simp
  have hroot_nodup : (idsOf (EditTreeNode.mk 0 0 rootID []).erase).Nodup := by
    rw [idsOf_erase, hids]
    simp
  have hfreshP : ∀ e ∈ l1.map Prod.fst, e.id ∉ idsOf (EditTreeNode.mk 0 0 rootID []).erase := by
    intro e he
    obtain ⟨ei, hei, rfl⟩ := List.mem_map.1 he
    rw [idsOf_erase]
    exact hfresh1 ei hei
  have heq : t1.erase = t2.erase := by
    rw [he1, he2]
    exact insertAll_perm _ _ _ hroot_sorted hroot_nodup hperm hnodup hfreshP hc1 hc2
  refine ⟨?_, String_of_erase_eq hE1 hE2 hH1 hH2 heq⟩
  rw [hH1, hH2]
  simp [heq]

theorem replay_ABC : New.applyAll orderABC = .ok (replayed orderABC) := by
  have h : replayFailure orderABC = none := by decide!
  unfold replayFailure at h
  unfold replayed
  cases hc : New.applyAll orderABC with
  | error p => rw [hc] at h; cases h
  | ok d => rfl

theorem replay_BAC : New.applyAll orderBAC = .ok (replayed orderBAC) := by
  have h : replayFailure orderBAC = none := by decide!
  unfold replayFailure at h
  unfold replayed
  cases hc : New.applyAll orderBAC with
  | error p => rw [hc] at h; cases h
  | ok d => rfl

theorem orderABC_perm : (orderABC.map Prod.fst).Perm (orderBAC.map Prod.fst) :=
  List.Perm.swap editB editA [editC]

/-- The convergence of C3 for three edits replayed in the orders A, B, C and
B, A, C. -/
theorem C3_convergence_witness :
    (orderABC.map Prod.fst).Perm (orderBAC.map Prod.fst) ∧
      ((orderABC.map Prod.fst).map Edit.id).Nodup ∧
      (∀ ei ∈ orderABC, ei.1.id ≠ rootID) ∧
      New.applyAll orderABC = .ok (replayed orderABC) ∧
      New.applyAll orderBAC = .ok (replayed orderBAC) ∧
      ((replayed orderABC).head.map EditTreeNode.erase
          = (replayed orderBAC).head.map EditTreeNode.erase ∧
        (replayed orderABC).String = (replayed orderBAC).String) :=
  ⟨orderABC_perm, by decide, by decide, replay_ABC, replay_BAC,
    C3_convergence orderABC orderBAC (replayed orderABC) (replayed orderBAC) orderABC_perm
      (by decide) (by decide) replay_ABC replay_BAC⟩

/-- C3 as stated fails: the two edits `rootTombstone` (whose id is the id
`("", 0)` of the root) and `afterRoot` have distinct ids, both orderings replay
on `New()` without failure, and the texts are "" in one order and "y" in the
other, so the trees differ. -/
theorem C3_root_id_diverges :
    ([(rootTombstone, 0), (afterRoot, 0)].map Prod.fst).Perm
        ([(afterRoot, 0), (rootTombstone, 0)].map Prod.fst) ∧
      (([(rootTombstone, 0), (afterRoot, 0)].map Prod.fst).map Edit.id).Nodup ∧
      replayFailure [(rootTombstone, 0), (afterRoot, 0)] = none ∧
      replayFailure [(afterRoot, 0), (rootTombstone, 0)] = none ∧
      (replayed [(rootTombstone, 0), (afterRoot, 0)]).String = .ok [] ∧
      (replayed [(afterRoot, 0), (rootTombstone, 0)]).String = .ok [121] ∧
      (replayed [(rootTombstone, 0), (afterRoot, 0)]).head.map EditTreeNode.erase
        ≠ (replayed [(afterRoot, 0), (rootTombstone, 0)]).head.map EditTreeNode.erase := by
  have hs1 : (replayed [(rootTombstone, 0), (afterRoot, 0)]).String = .ok [] := by decide!
  have hs2 : (replayed [(afterRoot, 0), (rootTombstone, 0)]).String = .ok [121] := by decide!
  refine ⟨List.Perm.swap _ _ _, by decide, by decide!, by decide!, hs1, hs2, ?_⟩
  intro h
  have e1 : (replayed [(rootTombstone, 0), (afterRoot, 0)]).Edits.isSome = true := by decide!
  have e2 : (replayed [(afterRoot, 0), (rootTombstone, 0)]).Edits.isSome = true := by decide!
  have t1 : (replayed [(rootTombstone, 0), (afterRoot, 0)]).head.isSome = true := by decide!
  have t2 : (replayed [(afterRoot, 0), (rootTombstone, 0)]).head.isSome = true := by decide!
  obtain ⟨m1, hm1⟩ := Option.isSome_iff_exists.1 e1
  obtain ⟨m2, hm2⟩ := Option.isSome_iff_exists.1 e2
  obtain ⟨r1, hr1⟩ := Option.isSome_iff_exists.1 t1
  obtain ⟨r2, hr2⟩ := Option.isSome_iff_exists.1 t2
  rw [hr1, hr2] at h
  simp only [Option.map_some', Option.some.injEq] at h
  have := String_of_erase_eq hm1 hm2 hr1 hr2 h
  rw [hs1, hs2] at this
  cases this

end UDT

namespace UDT

/-! ## The loop of `ApplyAt` and the sibling order, for arbitrary edits -/

/-- One step of the loop of `ApplyAt`: the conflict stays before the edit, or
the edit goes before the conflict, or the two tie and the loop panics. -/
theorem applyAtLoop_cons (prev : EditTreeNode) (e : Edit) (c : EditTreeNode)
    (cs : List EditTreeNode) (i : Nat) :
    applyAtLoop prev e (c :: cs) i =
      if staysBefore prev.id.actorID c.char c.id e.char e.id = true then
        applyAtLoop prev e cs (i + 1)
      else if staysBefore prev.id.actorID e.char e.id c.char c.id = true then .ok i
      else .error .duplicate := by
  rw [applyAtLoop]
  unfold staysBefore
  by_cases h1 : c.char = delete <;> by_cases h2 : e.char = delete <;>
    by_cases h3 : c.id.version > e.id.version <;>
    by_cases h4 : c.id.version < e.id.version <;>
    by_cases h5 : c.id.actorID = prev.id.actorID <;>
    by_cases h6 : e.id.actorID = prev.id.actorID <;>
    by_cases h7 : strLt e.id.actorID c.id.actorID = true <;>
    by_cases h8 : strLt c.id.actorID e.id.actorID = true <;>
    simp [h1, h2, h3, h4, h5, h6, h7, h8]

/-- The sibling order looks at the `char` of a node only to see whether it is a
tombstone. -/
theorem staysBefore_congr (pa : List Nat) (cc cc' : Int) (ci : ID) (nc nc' : Int) (ni : ID)
    (hc : kindOf cc = kindOf cc') (hn : kindOf nc = kindOf nc') :
    staysBefore pa cc ci nc ni = staysBefore pa cc' ci nc' ni := by
  rw [Bool.eq_iff_iff, staysBefore_iff, staysBefore_iff, hc, hn]

theorem staysBefore_self (pa : List Nat) (c : Int) (i : ID) :
    staysBefore pa c i c i = false := by
  have := Before_irrefl pa (.mk 0 c i [])
  simpa [Before, EditTreeNode.char, EditTreeNode.id] using this

/-- A conflict of the same kind and the same id as the edit makes the loop panic. -/
theorem applyAtLoop_tie (prev : EditTreeNode) (e : Edit) (c : EditTreeNode)
    (cs : List EditTreeNode) (i : Nat) (hk : kindOf c.char = kindOf e.char)
    (hid : c.id = e.id) : applyAtLoop prev e (c :: cs) i = .error .duplicate := by
  rw [applyAtLoop_cons, hid, staysBefore_congr _ c.char e.char e.id e.char e.char e.id hk rfl,
    staysBefore_congr _ e.char e.char e.id c.char e.char e.id rfl hk, staysBefore_self]
  simp

/-- Among sorted siblings the loop reaches a sibling of the same kind and id as
the edit, and panics. -/
theorem applyAtLoop_duplicate (prev : EditTreeNode) (e : Edit) (c : EditTreeNode) :
    ∀ (l : List EditTreeNode) (i : Nat), l.Pairwise (Before prev.id.actorID) → c ∈ l →
      kindOf c.char = kindOf e.char → c.id = e.id →
      applyAtLoop prev e l i = .error .duplicate := by
  intro l
  induction l with
  | nil => intro i _ hc; cases hc
  | cons x xs ih =>
    intro i hs hc hk hid
    rw [List.pairwise_cons] at hs
    rcases List.mem_cons.1 hc with h | h
    · rw [← h]
      exact applyAtLoop_tie prev e c xs i hk hid
    · have hb : staysBefore prev.id.actorID x.char x.id e.char e.id = true := by
        rw [← hid, ← staysBefore_congr _ x.char x.char x.id c.char e.char c.id rfl hk]
        exact hs.1 c h
      rw [applyAtLoop_cons, if_pos hb]
      exact ih (i + 1) hs.2 h hk hid

/-- Whenever the loop of `ApplyAt` returns, inserting at the index it returns
keeps the siblings sorted. -/
theorem pairwise_of_applyAtLoop (prev : EditTreeNode) (e : Edit) (new : EditTreeNode)
    (hc : new.char = e.char) (hi : new.id = e.id) :
    ∀ (l : List EditTreeNode) (i idx : Nat), applyAtLoop prev e l i = .ok idx →
      l.Pairwise (Before prev.id.actorID) →
      (slicesInsert l (idx - i) new).Pairwise (Before prev.id.actorID) := by
  intro l
  induction l with
  | nil =>
    intro i idx h _
    simp [slicesInsert]
  | cons c cs ih =>
    intro i idx h hs
    rw [List.pairwise_cons] at hs
    rw [applyAtLoop_cons] at h
    by_cases hb : staysBefore prev.id.actorID c.char c.id e.char e.id = true
    · rw [if_pos hb] at h
      have hidx := applyAtLoop_findIdx prev e cs (i + 1) idx h
      have hsub : idx - i = (idx - (i + 1)) + 1 := by omega
      rw [hsub, slicesInsert_succ, List.pairwise_cons]
      refine ⟨?_, ih (i + 1) idx h hs.2⟩
      intro d hd
      rcases List.mem_cons.1 ((List.Perm.mem_iff (slicesInsert_perm cs _ new)).1 hd)
        with hd | hd
      · rw [hd]
        unfold Before
        rw [hc, hi]
        exact hb
      · exact hs.1 d hd
    · rw [if_neg hb] at h
      split at h
      · rename_i hnb
        simp only [Except.ok.injEq] at h
        rw [← h, Nat.sub_self, slicesInsert_zero, List.pairwise_cons]
        have hnc : Before prev.id.actorID new c := by
          unfold Before
          rw [hc, hi]
          exact hnb
        refine ⟨?_, List.pairwise_cons.2 hs⟩
        intro d hd
        rcases List.mem_cons.1 hd with hd | hd
        · rw [hd]; exact hnc
        · exact Before_trans _ new c d hnc (hs.1 d hd)
      · cases h

/-- Every node of a sorted tree has sorted children. -/
theorem sortedTree_iff (t : EditTreeNode) :
    SortedTree t ↔ ∀ p ∈ subnodes t, p.next.Pairwise (Before p.id.actorID) := by
  induction t using EditTreeNode.ind with
  | mk a c id next ih =>
    rw [sortedTree_mk, subnodes_mk]
    constructor
    · rintro ⟨h1, h2⟩ p hp
      rcases List.mem_cons.1 hp with hp | hp
      · rw [hp]; exact h1
      · obtain ⟨ch, hch, hpc⟩ := List.mem_flatMap.1 hp
        exact (ih ch hch).1 (h2 ch hch) p hpc
    · intro h
      refine ⟨h (.mk a c id next) (List.mem_cons_self _ _),
        fun ch hch => (ih ch hch).2 (fun p hp => ?_)⟩
      exact h p (List.mem_cons_of_mem _ (List.mem_flatMap.2 ⟨ch, hch, hp⟩))

/-- Every subtree of a sorted tree is sorted. -/
theorem sortedTree_of_mem (t : EditTreeNode) :
    SortedTree t → ∀ n ∈ subnodes t, SortedTree n := by
  induction t using EditTreeNode.ind with
  | mk a c id next ih =>
    intro hs n hn
    rw [subnodes_mk] at hn
    rcases List.mem_cons.1 hn with hn | hn
    · rw [hn]; exact hs
    · obtain ⟨ch, hch, hnc⟩ := List.mem_flatMap.1 hn
      exact ih ch hch (((sortedTree_mk a c id next).1 hs).2 ch hch) n hnc

/-- An assignment keeps the tree sorted when the lists it assigns are sorted
lists of sorted trees. -/
theorem sortedTree_setNextBy_of (sel : Nat → ID → Bool)
    (g : ID → List EditTreeNode → List EditTreeNode) (t : EditTreeNode) (hs : SortedTree t)
    (hg : ∀ n ∈ subnodes t, sel n.addr n.id = true →
      (g n.id n.next).Pairwise (Before n.id.actorID) ∧ ∀ c ∈ g n.id n.next, SortedTree c) :
    SortedTree (setNextBy sel g t) := by
  induction t using EditTreeNode.ind with
  | mk a c id next ih =>
    rw [sortedTree_mk] at hs
    rw [setNextBy_mk]
    split
    · rename_i hsel
      rw [sortedTree_mk]
      exact hg _ (self_mem_subnodes _) hsel
    · rw [sortedTree_mk]
      constructor
      · rw [List.pairwise_map]
        refine hs.1.imp_of_mem ?_
        intro x y _ _ hxy
        exact (Before_map _ _ x y
          ⟨(setNextBy_addr _ _ x).2.1, (setNextBy_addr _ _ x).2.2⟩
          ⟨(setNextBy_addr _ _ y).2.1, (setNextBy_addr _ _ y).2.2⟩).2 hxy
      · intro n hn
        obtain ⟨ch, hch, rfl⟩ := List.mem_map.1 hn
        exact ih ch hch (hs.2 ch hch) (fun m hm => hg m (subnodes_of_child hch hm))

/-- `ApplyAt`, whatever the edit, keeps the allocation numbers distinct and the
siblings of every node sorted. -/
theorem ApplyAt_sorted {d d' : Document} {e : Edit} {i : Nat} {head : EditTreeNode}
    (hH : d.head = some head) (hna : (addrsOf head).Nodup)
    (hb : ∀ a ∈ addrsOf head, a < d.nextAddr) (hs : SortedTree head)
    (h : d.ApplyAt e i = .ok d') :
    ∃ head', d'.head = some head' ∧ (addrsOf head').Nodup ∧
      (∀ a ∈ addrsOf head', a < d'.nextAddr) ∧ SortedTree head' := by
  obtain ⟨m', head0, prevAddr, prev, idx, -, hH', -, hfind, hloop, hhead', -, hnext', -, -, -⟩ :=
    ApplyAt_ok h
  rw [hH] at hH'
  simp only [Option.some.injEq] at hH'
  subst hH'
  have hpm := findNode_mem _ _ _ hfind
  have hform : setNext prevAddr (slicesInsert · idx (.mk d.nextAddr e.char e.id [])) head
      = setNextBy (fun a _ => decide ((fun (a : Nat) (_ : ID) => a) a rootID = prevAddr))
          (fun _ next => slicesInsert next ((fun (_ : ID) (_ : List EditTreeNode) => idx)
            rootID next) (.mk d.nextAddr e.char e.id [])) head := by
    rw [setNext_eq_setNextBy]
  rw [hform] at hhead'
  have hmem : prevAddr ∈ (subnodes head).map
      (fun n => (fun (a : Nat) (_ : ID) => a) n.addr n.id) :=
    List.mem_map.2 ⟨prev, hpm.1, hpm.2⟩
  have haddrs := labels_setNextBy (fun (a : Nat) (_ : ID) => a) prevAddr
    (fun (_ : ID) (_ : List EditTreeNode) => idx) d.nextAddr e.char e.id
    (fun (a : Nat) (_ : ID) => a) head hna hmem
  beta_reduce at haddrs hhead'
  have hnew_addr : d.nextAddr ∉ addrsOf head := fun hin => Nat.lt_irrefl _ (hb _ hin)
  refine ⟨_, hhead', ?_, ?_, ?_⟩
  · exact (List.Perm.nodup_iff haddrs).2 (List.nodup_cons.2 ⟨hnew_addr, hna⟩)
  · intro a ha
    rw [hnext']
    rcases List.mem_cons.1 ((List.Perm.mem_iff haddrs).1 ha) with h | h
    · omega
    · have := hb a h
      omega
  · refine sortedTree_setNextBy_of _ _ head hs (fun n hn hsel => ?_)
    have hnp : n = prev :=
      eq_of_addr_eq hna hn hpm.1 (by rw [hpm.2]; simpa using hsel)
    subst hnp
    have hsorted := (sortedTree_iff head).1 hs n hn
    have := pairwise_of_applyAtLoop n e (.mk d.nextAddr e.char e.id []) rfl rfl n.next 0 idx
      hloop hsorted
    rw [Nat.sub_zero] at this
    refine ⟨this, fun c hc => ?_⟩
    rcases List.mem_cons.1 ((List.Perm.mem_iff (slicesInsert_perm _ _ _)).1 hc) with h | h
    · rw [h, sortedTree_mk]
      simp
    · have hsn := sortedTree_of_mem head hs n hn
      cases n with
      | mk na nc nid nnext => exact ((sortedTree_mk na nc nid nnext).1 hsn).2 c h

/-- `ApplyAt` leaves the map `actorIDs` allocated. -/
theorem ApplyAt_actorIDs {d d' : Document} {e : Edit} {index : Nat}
    (hA : d.actorIDs.isSome = true) (h : d.ApplyAt e index = .ok d') :
    d'.actorIDs.isSome = true := by
  unfold Document.ApplyAt at h
  simp only at h
  split at h
  · cases h
  · rename_i d1 hd1
    have hd1' : d1.actorIDs.isSome = true := by
      split at hd1
      · split at hd1
        · cases hd1
        · simp only [Except.ok.injEq] at hd1
          subst hd1
          rfl
      · simp only [Except.ok.injEq] at hd1
        subst hd1
        split <;> exact hA
    split at h
    · cases h
    · cases h
    · split at h
      · cases h
      · split at h
        · cases h
        · split at h
          · cases h
          · rename_i d2 hupd
            obtain ⟨sl, rfl⟩ := updateSkipList_ok hupd
            simp only [Except.ok.injEq] at h
            subst h
            exact hd1'

/-- A panic of the loop is the result of `ApplyAt`. -/
theorem ApplyAt_loop_error {d : Document} {e : Edit} {index : Nat} {m : List (ID × Nat)}
    {head prev : EditTreeNode} {prevAddr : Nat} {p : Failure}
    (hA : d.actorIDs.isSome = true) (hE : d.Edits = some m) (hH : d.head = some head)
    (hl : lookupEdits m e.prev = some prevAddr) (hf : findNode prevAddr head = some prev)
    (hloop : applyAtLoop prev e prev.next 0 = .error p) :
    d.ApplyAt e index = .error p := by
  obtain ⟨a, ha⟩ := Option.isSome_iff_exists.1 hA
  unfold Document.ApplyAt
  by_cases h1 : e.id.version > d.maxVersion <;> by_cases h2 : e.id.version > 0 <;>
    simp [h1, h2, ha, hE, hH, hl, hf, hloop]

/-- The tree of every document replayed from a document with sorted siblings has
sorted siblings. -/
theorem applyAll_sorted : ∀ (l : List (Edit × Nat)) (d d' : Document) (head : EditTreeNode),
    d.actorIDs.isSome = true → d.head = some head → (addrsOf head).Nodup →
    (∀ a ∈ addrsOf head, a < d.nextAddr) → SortedTree head → d.applyAll l = .ok d' →
    d'.actorIDs.isSome = true ∧ ∃ head', d'.head = some head' ∧ (addrsOf head').Nodup ∧
      (∀ a ∈ addrsOf head', a < d'.nextAddr) ∧ SortedTree head' := by
  intro l
  induction l with
  | nil =>
    intro d d' head hA hH hna hb hs h
    simp only [Document.applyAll, Except.ok.injEq] at h
    subst h
    exact ⟨hA, head, hH, hna, hb, hs⟩
  | cons ei l ih =>
    intro d d' head hA hH hna hb hs h
    rw [Document.applyAll] at h
    split at h
    · cases h
    · rename_i d1 h1
      obtain ⟨head1, hH1, hna1, hb1, hs1⟩ := ApplyAt_sorted hH hna hb hs h1
      exact ih d1 d' head1 (ApplyAt_actorIDs hA h1) hH1 hna1 hb1 hs1 h

/-- The documents replayed from `New()` have sorted siblings. -/
theorem replay_sorted {l : List (Edit × Nat)} {d : Document} (h : New.applyAll l = .ok d) :
    d.actorIDs.isSome = true ∧ ∃ head, d.head = some head ∧ (addrsOf head).Nodup ∧
      (∀ a ∈ addrsOf head, a < d.nextAddr) ∧ SortedTree head := by
  refine applyAll_sorted l New d (.mk 0 0 ⟨[], 0⟩ []) rfl rfl ?_ ?_ ?_ h
  · simp [addrsOf, subnodes_mk, EditTreeNode.addr]
  · intro a ha
    simp [addrsOf, subnodes_mk, EditTreeNode.addr] at ha
    subst ha
    decide
  · rw [sortedTree_mk]
    simp

/-- The order of the loop, in the words of the tie-break rule. -/
theorem Before_iff_SiblingRule (pa : List Nat) (x y : EditTreeNode) :
    Before pa x y ↔ SiblingRule pa x y := by
  unfold Before SiblingRule
  rw [staysBefore_iff]
  unfold kindOf contOf
  by_cases h1 : x.char = delete <;> by_cases h2 : y.char = delete <;>
    by_cases h5 : x.id.actorID = pa <;> by_cases h6 : y.id.actorID = pa <;>
    simp [h1, h2, h5, h6]

theorem sorted_siblings {d : Document} {head : EditTreeNode} (hH : d.head = some head)
    (hs : SortedTree head) : d.SiblingsSorted := by
  refine ⟨head, hH, fun p hp => ?_⟩
  refine ((sortedTree_iff head).1 hs p hp).imp ?_
  intro x y hxy
  exact (Before_iff_SiblingRule _ x y).1 hxy

theorem replay_nodeOf {d : Document} {id : ID} {n : EditTreeNode}
    (h : d.nodeOf id = some n) :
    ∃ m a head, d.Edits = some m ∧ lookupEdits m id = some a ∧ d.head = some head ∧
      findNode a head = some n := by
  unfold Document.nodeOf at h
  cases hE : d.Edits with
  | none => rw [hE] at h; cases h
  | some m =>
    rw [hE] at h
    change (lookupEdits m id).bind _ = some n at h
    cases hl : lookupEdits m id with
    | none => rw [hl] at h; cases h
    | some a =>
      rw [hl] at h
      change d.head.bind (findNode a) = some n at h
      cases hH : d.head with
      | none => rw [hH] at h; cases h
      | some head =>
        rw [hH] at h
        exact ⟨m, a, head, rfl, hl, rfl, h⟩

theorem replay_A : New.applyAll [(editA, 0)] = .ok (replayed [(editA, 0)]) := by
  have h : replayFailure [(editA, 0)] = none := by decide!
  unfold replayFailure at h
  unfold replayed
  cases hc : New.applyAll [(editA, 0)] with
  | error p => rw [hc] at h; cases h
  | ok d => rfl

/-- C11 as stated fails, for the document reached from `New()` by `ApplyAt(editA)`
and the edit `editATomb`, a tombstone below the root that carries the id
`("x", 1)` of `editA`: the root is in `Edits`, its only child has the id of the
edit, and yet `ApplyAt(editATomb, 0)` returns without a failure and leaves two
children with the id `("x", 1)` under the root. -/
theorem C11_second_node_inserted :
    replayFailure [(editA, 0)] = none ∧
      (replayed [(editA, 0)]).childrenOf editATomb.prev = some [(editATomb.id, false)] ∧
      replayFailure [(editA, 0), (editATomb, 0)] = none ∧
      (replayed [(editA, 0), (editATomb, 0)]).childrenOf editATomb.prev
        = some [(editATomb.id, true), (editATomb.id, false)] := by
  decide!

/-- C11, amended: for every document reachable from `New()` by non-failing
`ApplyAt` calls and every edit `e` whose predecessor `e.prev` is in `Edits`: if
some existing child of the predecessor node has an id identical to `e.id` and is
a tombstone exactly when `e` is one, then `ApplyAt(e, index)` fails with
DUPLICATE, so that it returns no document with a second such node. -/
theorem C11_duplicate (l : List (Edit × Nat)) (d : Document) (e : Edit) (index : Nat)
    (prev c : EditTreeNode) (hr : New.applyAll l = .ok d)
    (hp : d.nodeOf e.prev = some prev) (hc : c ∈ prev.next) (hid : c.id = e.id)
    (hk : c.char = delete ↔ e.char = delete) :
    d.ApplyAt e index = .error .duplicate := by
  obtain ⟨hA, head, hH, hna, -, hs⟩ := replay_sorted hr
  obtain ⟨m, a, head0, hE, hl, hH0, hf⟩ := replay_nodeOf hp
  rw [hH] at hH0
  simp only [Option.some.injEq] at hH0
  subst hH0
  have hsorted := (sortedTree_iff head).1 hs prev (findNode_mem _ _ _ hf).1
  have hkind : kindOf c.char = kindOf e.char := by
    unfold kindOf
    by_cases h1 : c.char = delete
    · rw [if_pos h1, if_pos (hk.1 h1)]
    · rw [if_neg h1, if_neg (fun h => h1 (hk.2 h))]
  exact ApplyAt_loop_error hA hE hH hl hf
    (applyAtLoop_duplicate prev e c prev.next 0 hsorted hc hkind hid)

/-- The failure of C11 when `editA` is applied a second time. -/
theorem C11_duplicate_witness :
    New.applyAll [(editA, 0)] = .ok (replayed [(editA, 0)]) ∧
      (replayed [(editA, 0)]).nodeOf editA.prev
        = some (.mk 0 0 ⟨[], 0⟩ [.mk 1 97 ⟨[120], 1⟩ []]) ∧
      (replayed [(editA, 0)]).ApplyAt editA 0 = .error .duplicate :=
  ⟨replay_A, rfl,
    C11_duplicate [(editA, 0)] (replayed [(editA, 0)]) editA 0
      (.mk 0 0 ⟨[], 0⟩ [.mk 1 97 ⟨[120], 1⟩ []]) (.mk 1 97 ⟨[120], 1⟩ []) replay_A rfl
      (List.mem_singleton.2 rfl) rfl (by decide)⟩

/-- C16: in every document reachable from `New()` by non-failing `ApplyAt` calls,
for every node `p` all tombstone children of `p` precede all live children, and
within the tombstones and within the live children the order is strict by the
tie-break rule (higher version first; for equal versions the actor of `p` before
another actor; otherwise the greater actor first); and a further non-failing
`ApplyAt` gives a document with the same property. -/
theorem C16_sibling_order (l : List (Edit × Nat)) (d : Document)
    (h : New.applyAll l = .ok d) :
    d.SiblingsSorted ∧
      ∀ (e : Edit) (i : Nat) (d' : Document), d.ApplyAt e i = .ok d' → d'.SiblingsSorted := by
  obtain ⟨-, head, hH, hna, hb, hs⟩ := replay_sorted h
  refine ⟨sorted_siblings hH hs, fun e i d' h' => ?_⟩
  obtain ⟨head', hH', -, -, hs'⟩ := ApplyAt_sorted hH hna hb hs h'
  exact sorted_siblings hH' hs'

/-- The sibling order after the three edits A, B, C. -/
theorem C16_sibling_order_witness :
    New.applyAll orderABC = .ok (replayed orderABC) ∧
      ((replayed orderABC).SiblingsSorted ∧
        ∀ (e : Edit) (i : Nat) (d' : Document),
          (replayed orderABC).ApplyAt e i = .ok d' → d'.SiblingsSorted) :=
  ⟨replay_ABC, C16_sibling_order orderABC (replayed orderABC) replay_ABC⟩

end UDT
namespace UDT

/-! ## Runs of the RLE encoder -/

/-- Appending the token of a repeat run once more only counts. -/
theorem rle_repeat (t : List Nat) (r : List (List Nat)) (lc : Nat) (lr : List Nat)
    (ip : Bool) : ∀ (j c : Nat), 0 < c → c + j < 4294967296 →
    (List.replicate j t).foldl RLEEncoder.Append (RLEEncoder.mk r t c lc lr ip)
      = RLEEncoder.mk r t (c + j) lc lr ip := by
  intro j
  induction j with
  | zero =>
    intro c _ _
    rfl
  | succ j ih =>
    intro c hpos hlt
    rw [List.replicate_succ, List.foldl_cons]
    have hstep : (RLEEncoder.mk r t c lc lr ip).Append t = RLEEncoder.mk r t (c + 1) lc lr ip := by
      unfold RLEEncoder.Append
      have hm : (c + 1) % 4294967296 = c + 1 := Nat.mod_eq_of_lt (by omega)
      simp [hpos, hm]
    rw [hstep, ih (c + 1) (by omega) (by omega)]
    have : c + 1 + j = c + (j + 1) := by omega
    rw [this]

/-- The state after `n ≥ 3` appends of one non-empty token to a fresh encoder. -/
theorem rle_repeat_state (t : List Nat) (ht : t ≠ []) (j : Nat) (hj : 3 + j < 4294967296) :
    (List.replicate (3 + j) t).foldl RLEEncoder.Append NewRLEEncoder =
      RLEEncoder.mk [] t (3 + j) 0 [] false := by
  have h3 : 3 + j = j + 1 + 1 + 1 := by omega
  have hne : ¬ ([] = t) := fun h => ht h.symm
  rw [h3, List.replicate_succ, List.replicate_succ, List.replicate_succ, List.foldl_cons,
    List.foldl_cons, List.foldl_cons]
  have h1 : NewRLEEncoder.Append t = RLEEncoder.mk [] t 0 0 [] false := by
    simp [RLEEncoder.Append, NewRLEEncoder, hne]
  have h2 : (RLEEncoder.mk [] t 0 0 [] false).Append t = RLEEncoder.mk [] t 0 0 [] true := by
    simp [RLEEncoder.Append]
  have h3 : (RLEEncoder.mk [] t 0 0 [] true).Append t = RLEEncoder.mk [] t 3 0 [] false := by
    simp [RLEEncoder.Append]
  rw [h1, h2, h3, rle_repeat t [] 0 [] false j 3 (by decide) hj]
  have : 3 + j = j + 1 + 1 + 1 := by omega
  rw [this]

/-- The tag of a repeat run of `n` tokens, `3 ≤ n ≤ 2^31`, in `uint32` arithmetic. -/
theorem repeat_tag (n : Nat) (h3 : 3 ≤ n) (hn : n ≤ 2147483648) :
    subU32 (n * 2 % 4294967296) 5 = 2 * n - 5 := by
  unfold subU32
  omega

/-- What `WriteTo` writes after `n` appends of one non-empty token, `3 ≤ n ≤ 2^31`:
the length prefix is the `uint32` conversion of the length of the run. -/
theorem rle_repeat_bytes (t : List Nat) (ht : t ≠ []) (n : Nat) (h3 : 3 ≤ n)
    (hn : n ≤ 2147483648) :
    rleEncode (List.replicate n t) =
      uleb (((uleb (2 * n - 5)).length + t.length) % 4294967296) ++ uleb (2 * n - 5) ++ t := by
  obtain ⟨j, rfl⟩ : ∃ j, n = 3 + j := ⟨n - 3, by omega⟩
  unfold rleEncode
  rw [RLEEncoder.WriteTo_eq, rle_repeat_state t ht j (by omega)]
  have hf : (RLEEncoder.mk [] t (3 + j) 0 [] false).flush.runs
      = [uleb (2 * (3 + j) - 5) ++ t] := by
    unfold RLEEncoder.flush
    have hpos : 3 + j > 0 := by omega
    simp only [hpos, if_true, List.nil_append]
    rw [repeat_tag (3 + j) h3 hn]
  rw [hf]
  simp [writeLenPrefixed, List.append_assoc]

/-- C12: for every non-empty token `t` and every `n` with `3 ≤ n ≤ 2^31`,
appending `t` exactly `n` times to a fresh `RLEEncoder` and calling `WriteTo`
writes exactly `uleb(L) ++ uleb(2n-5) ++ t`, where
`L = len(uleb(2n-5)) + len(t)` is passed to `uleb` as `WriteTo` passes it, after
the conversion `uint32(L)`; the tag `2n-5` is odd and `(tag + 5) / 2 = n`. -/
theorem C12_repeat_run (t : List Nat) (n : Nat) (ht : t ≠ []) (h3 : 3 ≤ n)
    (hn : n ≤ 2147483648) :
    rleEncode (List.replicate n t) =
        uleb (((uleb (2 * n - 5)).length + t.length) % 4294967296)
          ++ uleb (2 * n - 5) ++ t ∧
      (2 * n - 5) % 2 = 1 ∧ (2 * n - 5 + 5) / 2 = n := by
  refine ⟨?_, by omega, by omega⟩
  rw [rle_repeat_bytes t ht n h3 hn]

/-- The encoding `02 03 'a'` of four times the token `'a'`. -/
theorem C12_repeat_run_witness :
    rleEncode (List.replicate 4 [97]) =
        uleb (((uleb (2 * 4 - 5)).length + [97].length) % 4294967296)
          ++ uleb (2 * 4 - 5) ++ [97] ∧
      (2 * 4 - 5) % 2 = 1 ∧ (2 * 4 - 5 + 5) / 2 = 4 :=
  C12_repeat_run [97] 4 (by decide) (by decide) (by decide)

/-! ## Literal runs -/

theorem NoTriple.tail {a : List Nat} {l : List (List Nat)} (h : NoTriple (a :: l)) :
    NoTriple l := by
  match l, h with
  | [], _ => simp [NoTriple]
  | [_], _ => simp [NoTriple]
  | _ :: _ :: _, h => exact h.2

/-- While no three consecutive tokens are equal the encoder stays in its literal
states: `runs` is empty, `repeatCount` is zero, and `litRun` with the pending
token or pair holds every token so far. -/
theorem rle_literal : ∀ (l : List (List Nat)) (x : List Nat) (lc : Nat) (lr : List Nat)
    (ip : Bool), x ≠ [] → (∀ t ∈ l, t ≠ []) →
    NoTriple ((if ip = true then [x, x] else [x]) ++ l) →
    lc + (if ip = true then 2 else 1) + l.length < 4294967296 →
    ∃ (x2 : List Nat) (lc2 : Nat) (lr2 : List Nat) (ip2 : Bool), x2 ≠ [] ∧
      l.foldl RLEEncoder.Append (RLEEncoder.mk [] x 0 lc lr ip)
        = RLEEncoder.mk [] x2 0 lc2 lr2 ip2 ∧
      lr2 ++ (if ip2 = true then x2 ++ x2 else x2)
        = lr ++ (if ip = true then x ++ x else x) ++ l.flatten ∧
      lc2 + (if ip2 = true then 2 else 1) = lc + (if ip = true then 2 else 1) + l.length := by
  intro l
  induction l with
  | nil =>
    intro x lc lr ip hx _ _ _
    exact ⟨x, lc, lr, ip, hx, rfl, by simp, by simp⟩
  | cons b l ih =>
    intro x lc lr ip hx hne h3 hk
    have hb : b ≠ [] := hne b (List.mem_cons_self _ _)
    have hne2 : ∀ t ∈ l, t ≠ [] := fun t ht => hne t (List.mem_cons_of_mem _ ht)
    have hxlen : x.length > 0 := List.length_pos.2 hx
    rw [List.foldl_cons]
    cases ip with
    | true =>
      simp only [if_true, List.cons_append, List.nil_append, List.length_cons] at h3 hk
      have hxb : ¬ x = b := fun h => h3.1 ⟨rfl, h⟩
      have hstep : (RLEEncoder.mk [] x 0 lc lr true).Append b
          = RLEEncoder.mk [] b 0 (lc + 2) (lr ++ x ++ x) false := by
        have hm : (lc + 2) % 4294967296 = lc + 2 := Nat.mod_eq_of_lt (by omega)
        simp [RLEEncoder.Append, hxb, hm]
      obtain ⟨x2, lc2, lr2, ip2, hx2, hfold, hrun, hcount⟩ :=
        ih b (lc + 2) (lr ++ x ++ x) false hb hne2
          (by simpa using h3.2.tail) (by simp only [Bool.false_eq_true, if_false]; omega)
      refine ⟨x2, lc2, lr2, ip2, hx2, by rw [hstep, hfold], ?_, ?_⟩
      · rw [hrun]
        simp [List.append_assoc]
      · rw [hcount]
        simp only [Bool.false_eq_true, if_false, if_true, List.length_cons]
        omega
    | false =>
      simp only [Bool.false_eq_true, if_false, List.cons_append, List.nil_append,
        List.length_cons] at h3 hk
      by_cases hxb : x = b
      · subst hxb
        have hstep : (RLEEncoder.mk [] x 0 lc lr false).Append x
            = RLEEncoder.mk [] x 0 lc lr true := by
          simp [RLEEncoder.Append]
        obtain ⟨x2, lc2, lr2, ip2, hx2, hfold, hrun, hcount⟩ :=
          ih x lc lr true hx hne2 (by simpa using h3) (by simp only [if_true]; omega)
        refine ⟨x2, lc2, lr2, ip2, hx2, by rw [hstep, hfold], ?_, ?_⟩
        · rw [hrun]
          simp [List.append_assoc]
        · rw [hcount]
          simp only [Bool.false_eq_true, if_false, if_true, List.length_cons]
          omega
      · have hstep : (RLEEncoder.mk [] x 0 lc lr false).Append b
            = RLEEncoder.mk [] b 0 (lc + 1) (lr ++ x) false := by
          have hm : (lc + 1) % 4294967296 = lc + 1 := Nat.mod_eq_of_lt (by omega)
          simp [RLEEncoder.Append, hxb, hm, hxlen]
        obtain ⟨x2, lc2, lr2, ip2, hx2, hfold, hrun, hcount⟩ :=
          ih b (lc + 1) (lr ++ x) false hb hne2
            (by simpa using h3.tail) (by simp only [Bool.false_eq_true, if_false]; omega)
        refine ⟨x2, lc2, lr2, ip2, hx2, by rw [hstep, hfold], ?_, ?_⟩
        · rw [hrun]
          simp [List.append_assoc]
        · rw [hcount]
          simp only [Bool.false_eq_true, if_false, List.length_cons]
          omega

/-- The tag of a literal run of `k` tokens, `1 ≤ k < 2^31`, in `uint32` arithmetic. -/
theorem literal_tag (k : Nat) (h1 : 1 ≤ k) (hk : k < 2147483648) :
    subU32 (k * 2 % 4294967296) 2 = 2 * k - 2 := by
  unfold subU32
  omega

/-- What `WriteTo` writes after a sequence of `1 ≤ k < 2^31` non-empty tokens
without three equal in a row: the length prefix is the `uint32` conversion of
the length of the run. -/
theorem rle_literal_bytes (x : List Nat) (l : List (List Nat))
    (hne : ∀ t ∈ x :: l, t ≠ []) (h3 : NoTriple (x :: l))
    (hk : (x :: l).length < 2147483648) :
    rleEncode (x :: l) =
      uleb (((uleb (2 * (x :: l).length - 2)).length + (x :: l).flatten.length)
          % 4294967296) ++ uleb (2 * (x :: l).length - 2) ++ (x :: l).flatten := by
  have hx : x ≠ [] := hne x (List.mem_cons_self _ _)
  have hx0 : ¬ ([] = x) := fun h => hx h.symm
  unfold rleEncode
  rw [RLEEncoder.WriteTo_eq, List.foldl_cons]
  have h1 : NewRLEEncoder.Append x = RLEEncoder.mk [] x 0 0 [] false := by
    simp [RLEEncoder.Append, NewRLEEncoder, hx0]
  simp only [List.length_cons] at hk
  obtain ⟨x2, lc2, lr2, ip2, hx2, hfold, hrun, hcount⟩ :=
    rle_literal l x 0 [] false hx (fun t ht => hne t (List.mem_cons_of_mem _ ht))
      (by simpa using h3) (by simp only [Bool.false_eq_true, if_false]; omega)
  rw [h1, hfold]
  simp only [Bool.false_eq_true, if_false, List.nil_append, Nat.zero_add] at hrun hcount
  have hx2len : x2.length > 0 := List.length_pos.2 hx2
  have hf : (RLEEncoder.mk [] x2 0 lc2 lr2 ip2).flush.runs
      = [uleb (2 * (x :: l).length - 2), x ++ l.flatten] := by
    unfold RLEEncoder.flush
    simp only [List.length_cons]
    cases ip2 with
    | true =>
      simp only [if_true] at hrun hcount
      have hm : (lc2 + 2) % 4294967296 = lc2 + 2 := Nat.mod_eq_of_lt (by omega)
      have hpos : lc2 + 2 > 0 := by omega
      simp only [gt_iff_lt, Nat.lt_irrefl, if_false, if_true, hm, hpos, List.nil_append,
        List.cons_append]
      rw [literal_tag (lc2 + 2) (by omega) (by omega), List.append_assoc, hrun, hcount]
      have : 1 + l.length = l.length + 1 := by omega
      rw [this]
    | false =>
      simp only [Bool.false_eq_true, if_false] at hrun hcount
      have hm : (lc2 + 1) % 4294967296 = lc2 + 1 := Nat.mod_eq_of_lt (by omega)
      have hpos : lc2 + 1 > 0 := by omega
      simp only [gt_iff_lt, Nat.lt_irrefl, Bool.false_eq_true, if_false, if_true, hm, hpos,
        hx2len, List.nil_append, List.cons_append]
      rw [literal_tag (lc2 + 1) (by omega) (by omega), hrun, hcount]
      have : 1 + l.length = l.length + 1 := by omega
      rw [this]
  rw [hf]
  simp [writeLenPrefixed, List.append_assoc]

/-- C13: for every sequence of `k ≥ 0` non-empty tokens (`k < 2^31`) in which no
three consecutive tokens are equal, appending them in order to a fresh
`RLEEncoder` and calling `WriteTo` writes, for `k = 0`, exactly the single byte
`0x00`, and for `k ≥ 1` exactly `uleb(L) ++ uleb(2k-2) ++ (the k tokens in
order)`, where `L`, the length of everything after the length prefix, is passed
to `uleb` as `WriteTo` passes it, after the conversion `uint32(L)`: one literal
run whose even tag satisfies `(tag + 2) / 2 = k`. -/
theorem C13_literal_run (seq : List (List Nat)) (hne : ∀ t ∈ seq, t ≠ [])
    (h3 : NoTriple seq) (hk : seq.length < 2147483648) :
    (seq = [] → rleEncode seq = [0]) ∧
      (seq ≠ [] →
        rleEncode seq =
            uleb (((uleb (2 * seq.length - 2)).length + seq.flatten.length) % 4294967296)
              ++ uleb (2 * seq.length - 2) ++ seq.flatten ∧
          (2 * seq.length - 2) % 2 = 0 ∧ (2 * seq.length - 2 + 2) / 2 = seq.length) := by
  constructor
  · intro h
    rw [h]
    decide
  · intro h
    cases seq with
    | nil => exact absurd rfl h
    | cons x l =>
      refine ⟨?_, by omega, ?_⟩
      · rw [rle_literal_bytes x l hne h3 hk]
      · simp only [List.length_cons]
        omega

/-- The encoding `04 04 'a' 'a' 'b'` of the tokens `'a'`, `'a'`, `'b'`. -/
theorem C13_literal_run_witness :
    ([[97], [97], [98]] = [] → rleEncode [[97], [97], [98]] = [0]) ∧
      ([[97], [97], [98]] ≠ [] →
        rleEncode [[97], [97], [98]] =
            uleb (((uleb (2 * [[97], [97], [98]].length - 2)).length
                + [[97], [97], [98]].flatten.length) % 4294967296)
              ++ uleb (2 * [[97], [97], [98]].length - 2) ++ [[97], [97], [98]].flatten ∧
          (2 * [[97], [97], [98]].length - 2) % 2 = 0 ∧
          (2 * [[97], [97], [98]].length - 2 + 2) / 2 = [[97], [97], [98]].length) :=
  C13_literal_run [[97], [97], [98]] (by decide) (by simp [NoTriple]) (by decide)

end UDT
namespace UDT

/-! ## The backing column and the delta codec -/

theorem appendTimes_eq (tok : List Nat) : ∀ (k : Nat) (rle : RLEEncoder),
    appendTimes rle tok k = (List.replicate k tok).foldl RLEEncoder.Append rle := by
  intro k
  induction k with
  | zero => intro rle; rfl
  | succ k ih =>
    intro rle
    rw [appendTimes, ih, List.replicate_succ, List.foldl_cons]

/-- What `BackingEncoder.Append(et)` appends to its RLE encoder. -/
theorem backing_append (e : BackingEncoder) (et : EditTreeNode) :
    (e.Append et).rle = (backingTokens et).foldl RLEEncoder.Append e.rle := by
  unfold BackingEncoder.Append backingTokens
  by_cases hk : 0 < deleteCount et.next
  · simp only [gt_iff_lt, hk, if_true]
    rw [appendTimes_eq, List.take_left']
    rfl
  · by_cases hc : et.char = delete
    · simp [hk, hc]
    · simp [hk, hc]

/-- A live character with one tombstone child, followed by that tombstone, adds
the UTF-8 bytes of the character to the column, once. -/
theorem backing_pairs : ∀ (l : List (EditTreeNode × EditTreeNode)) (e : BackingEncoder),
    (∀ pt ∈ l, pt.1.char ≠ delete ∧ pt.1.next = [pt.2] ∧ pt.2.char = delete ∧
      deleteCount pt.2.next = 0) →
    ((l.flatMap fun pt => [pt.1, pt.2]).foldl BackingEncoder.Append e).rle
      = (l.map fun pt => encodeRune pt.1.char).foldl RLEEncoder.Append e.rle := by
  intro l
  induction l with
  | nil => intro e _; rfl
  | cons pt l ih =>
    intro e h
    obtain ⟨h1, h2, h3, h4⟩ := h pt (List.mem_cons_self _ _)
    rw [List.flatMap_cons, List.foldl_append, List.foldl_cons, List.foldl_cons, List.foldl_nil,
      ih _ (fun q hq => h q (List.mem_cons_of_mem _ hq)), List.map_cons, List.foldl_cons,
      backing_append, backing_append]
    have ht1 : backingTokens pt.1 = [encodeRune pt.1.char] := by
      unfold backingTokens
      rw [h2]
      simp [deleteCount, h3]
    have ht2 : backingTokens pt.2 = [] := by
      unfold backingTokens
      simp [h4, h3]
    rw [ht1, ht2]
    rfl

/-- C14 as stated fails for a tombstone with one tombstone child:
`BackingEncoder.Append` appends the token `EF BF BD` (what `utf8.EncodeRune`
writes for the rune `delete`), not nothing. -/
theorem C14_tombstone_emits :
    (EditTreeNode.mk 1 delete ⟨[97], 1⟩ [.mk 2 delete ⟨[97], 2⟩ []]).char = delete ∧
      (NewBackingEncoder.Append
          (.mk 1 delete ⟨[97], 1⟩ [.mk 2 delete ⟨[97], 2⟩ []])).rle
        = NewBackingEncoder.rle.Append [0xEF, 0xBF, 0xBD] ∧
      (NewBackingEncoder.Append
          (.mk 1 delete ⟨[97], 1⟩ [.mk 2 delete ⟨[97], 2⟩ []])).rle
        ≠ NewBackingEncoder.rle := by
  decide

/-- C14, amended: for every edit tree node `et`, `BackingEncoder.Append(et)`
appends to the underlying RLE encoder: the bytes that `utf8.EncodeRune` gives for
`et.char` exactly `k` times if `et` has `k ≥ 1` leading tombstone children
(for a tombstone these are the bytes `EF BF BD`); otherwise the single token
`0xFF` if `et` is a character and nothing if `et` is a tombstone. Hence feeding
`n` pairs (a live character `c_i` with one tombstone child, then that tombstone,
which has no leading tombstone child) to a fresh encoder produces the RLE
encoding of the token sequence `utf8(c_1), ..., utf8(c_n)`. -/
theorem C14_backing_append (e : BackingEncoder) (et : EditTreeNode)
    (l : List (EditTreeNode × EditTreeNode))
    (hl : ∀ pt ∈ l, pt.1.char ≠ delete ∧ pt.1.next = [pt.2] ∧ pt.2.char = delete ∧
      deleteCount pt.2.next = 0) :
    (e.Append et).rle = (backingTokens et).foldl RLEEncoder.Append e.rle ∧
      ((l.flatMap fun pt => [pt.1, pt.2]).foldl BackingEncoder.Append
          NewBackingEncoder).WriteTo.1 = rleEncode (l.map fun pt => encodeRune pt.1.char) := by
  refine ⟨backing_append e et, ?_⟩
  unfold rleEncode BackingEncoder.WriteTo
  simp only
  rw [backing_pairs l NewBackingEncoder hl]
  rfl

/-- The six nodes of `TestBackingEncoding`, in pairs. -/
theorem C14_backing_append_witness :
    (NewBackingEncoder.Append (.mk 1 97 ⟨[], 0⟩ [.mk 0 delete ⟨[], 0⟩ []])).rle
        = (backingTokens (.mk 1 97 ⟨[], 0⟩ [.mk 0 delete ⟨[], 0⟩ []])).foldl
            RLEEncoder.Append NewBackingEncoder.rle ∧
      ((testPairs.flatMap fun pt => [pt.1, pt.2]).foldl BackingEncoder.Append
          NewBackingEncoder).WriteTo.1
        = rleEncode (testPairs.map fun pt => encodeRune pt.1.char) :=
  C14_backing_append NewBackingEncoder (.mk 1 97 ⟨[], 0⟩ [.mk 0 delete ⟨[], 0⟩ []]) testPairs
    (by
      intro pt hpt
      simp only [testPairs, List.mem_cons, List.mem_singleton, List.not_mem_nil,
        or_false] at hpt
      rcases hpt with h | h | h <;> subst h <;>
        exact ⟨by decide, rfl, rfl, rfl⟩)

/-- C15 as stated fails when the difference is `2^31`: with previous value 0,
`Append(2^31)` returns 0 (`uint32(2^31) * 2` wraps), which is not `2 * 2^31`,
and `Append(0)` returns 0 as well, so distinct values give the same result. -/
theorem C15_delta_wraps :
    (DeltaEncoder.Append ⟨0⟩ 2147483648).1 = 0 ∧
      (DeltaEncoder.Append ⟨0⟩ 2147483648).1 ≠ 2 * (2147483648 - 0) ∧
      (DeltaEncoder.Append ⟨0⟩ 0).1 = (DeltaEncoder.Append ⟨0⟩ 2147483648).1 := by
  decide

/-- C15, amended: for every `DeltaEncoder` with previous value `c` and every
unsigned 32-bit `v`, `Append(v)` returns the zigzag code of the signed difference
`v-c` in 32-bit arithmetic, `2*(v-c) mod 2^32` when `v ≥ c` and
`(2*(c-v)+1) mod 2^32` when `v < c`, and afterwards the encoder's previous value
is `v`; when the distance of `v` from `c` is below `2^31` the value returned is
exactly `2*(v-c)` or `2*(c-v)+1`, and distinct such `v` give distinct results
for a fixed `c`. -/
theorem C15_delta_append (c v : Nat) (_ : c < 4294967296) (hv : v < 4294967296) :
    (DeltaEncoder.Append ⟨c⟩ v).1
        = (if c ≤ v then 2 * (v - c) % 4294967296 else (2 * (c - v) + 1) % 4294967296) ∧
      (DeltaEncoder.Append ⟨c⟩ v).2.current = v ∧
      (v < c + 2147483648 ∧ c < v + 2147483648 →
        (DeltaEncoder.Append ⟨c⟩ v).1 = (if c ≤ v then 2 * (v - c) else 2 * (c - v) + 1) ∧
        ∀ w, w < 4294967296 → w < c + 2147483648 → c < w + 2147483648 →
          (DeltaEncoder.Append ⟨c⟩ w).1 = (DeltaEncoder.Append ⟨c⟩ v).1 → w = v) := by
  have key : ∀ u, u < 4294967296 →
      (DeltaEncoder.Append ⟨c⟩ u).1
        = (if c ≤ u then 2 * (u - c) % 4294967296 else (2 * (c - u) + 1) % 4294967296) := by
    intro u hu
    unfold DeltaEncoder.Append
    simp only
    by_cases hlt : (u : Int) - (c : Int) < 0
    · rw [if_pos hlt, if_neg (by omega)]
      simp only
      omega
    · rw [if_neg hlt, if_pos (by omega)]
      simp only
      omega
  refine ⟨key v hv, ?_, ?_⟩
  · unfold DeltaEncoder.Append
    simp only
    split <;> rfl
  · intro hd
    constructor
    · rw [key v hv]
      split <;> omega
    · intro w hw hw1 hw2 h
      rw [key v hv, key w hw] at h
      split at h <;> split at h <;> omega

/-- The code of the step from version 5 to version 3. -/
theorem C15_delta_append_witness :
    (DeltaEncoder.Append ⟨5⟩ 3).1
        = (if 5 ≤ 3 then 2 * (3 - 5) % 4294967296 else (2 * (5 - 3) + 1) % 4294967296) ∧
      (DeltaEncoder.Append ⟨5⟩ 3).2.current = 3 ∧
      (DeltaEncoder.Append ⟨5⟩ 3).1 = (if 5 ≤ 3 then 2 * (3 - 5) else 2 * (5 - 3) + 1) ∧
      ∀ w, w < 4294967296 → w < 5 + 2147483648 → 5 < w + 2147483648 →
        (DeltaEncoder.Append ⟨5⟩ w).1 = (DeltaEncoder.Append ⟨5⟩ 3).1 → w = 3 :=
  ⟨(C15_delta_append 5 3 (by decide) (by decide)).1,
    (C15_delta_append 5 3 (by decide) (by decide)).2.1,
    (C15_delta_append 5 3 (by decide) (by decide)).2.2 (by decide)⟩

end UDT
namespace UDT

/-! ## The map `Edits` -/

mutual
theorem findNode_isSome : ∀ (t n : EditTreeNode), n ∈ subnodes t →
    (findNode n.addr t).isSome = true
  | .mk addr c id next, n, h => by
    simp only [findNode]
    split
    · rfl
    · rw [subnodes] at h
      rcases List.mem_cons.1 h with h | h
      · rename_i hne
        rw [h] at hne
        exact absurd rfl hne
      · exact findNodeList_isSome next n h
theorem findNodeList_isSome : ∀ (l : List EditTreeNode) (n : EditTreeNode),
    n ∈ subnodesList l → (findNodeList n.addr l).isSome = true
  | [], _, h => by simp [subnodesList] at h
  | c :: cs, n, h => by
    simp only [findNodeList]
    rw [subnodesList] at h
    split
    · rfl
    · rename_i hnone
      rcases List.mem_append.1 h with h | h
      · have := findNode_isSome c n h
        rw [hnone] at this
        cases this
      · exact findNodeList_isSome cs n h
end

/-- With pairwise distinct allocation numbers, dereferencing the allocation
number of a node of the tree gives that node. -/
theorem findNode_of_mem {t n : EditTreeNode} (hnd : (addrsOf t).Nodup)
    (h : n ∈ subnodes t) : findNode n.addr t = some n := by
  obtain ⟨r, hr⟩ := Option.isSome_iff_exists.1 (findNode_isSome t n h)
  have := findNode_mem _ _ _ hr
  rw [hr, eq_of_addr_eq hnd this.1 h this.2]

/-- In a document whose tree and map fit together, `Edits` holds exactly the
nodes of the tree, each under its id. -/
theorem edits_of_WF {d : Document} {m : List (ID × Nat)} {head : EditTreeNode}
    (hE : d.Edits = some m) (hH : d.head = some head) (hwf : WFTree head m d.nextAddr) :
    (∀ n ∈ subnodes head, d.nodeOf n.id = some n) ∧
      ∀ id a, lookupEdits m id = some a →
        ∃ n ∈ subnodes head, n.addr = a ∧ n.id = id ∧ d.nodeOf id = some n := by
  obtain ⟨hna, -, -, hmap, -⟩ := hwf
  have hnode : ∀ n ∈ subnodes head, d.nodeOf n.id = some n := by
    intro n hn
    have hl : lookupEdits m n.id = some n.addr :=
      (hmap n.id n.addr).2 (List.mem_map.2 ⟨n, hn, rfl⟩)
    unfold Document.nodeOf
    rw [hE, hH]
    change (lookupEdits m n.id).bind _ = some n
    rw [hl]
    exact findNode_of_mem hna hn
  refine ⟨hnode, fun id a hl => ?_⟩
  obtain ⟨n, hn, hpair⟩ := List.mem_map.1 ((hmap id a).1 hl)
  simp only [Prod.mk.injEq] at hpair
  refine ⟨n, hn, hpair.1, hpair.2, ?_⟩
  rw [← hpair.2]
  exact hnode n hn

/-- C17 as stated fails for the document reached from `New()` by the one call
`ApplyAt(rootTombstone, 0)`, an edit that carries the id `("", 0)`: the call does
not fail, the root (allocation number 0, id `("", 0)`) is still the root of the
tree, and `Edits[("", 0)]` is the new node (allocation number 1), not the root. -/
theorem C17_root_entry_replaced :
    replayFailure [(rootTombstone, 0)] = none ∧
      (replayed [(rootTombstone, 0)]).head.map (fun h => (h.addr, h.id)) = some (0, rootID) ∧
      ((replayed [(rootTombstone, 0)]).nodeOf rootID).map (fun n => (n.addr, n.char))
        = some (1, delete) := by
  decide!

/-- C17, amended: in every document reachable from `New()` by non-failing
`ApplyAt` calls of edits with pairwise distinct ids, none of them the id
`("", 0)` of the root, `Edits` contains exactly the nodes reachable from the
root: every node `n` reachable from the root satisfies `Edits[n.id] = n`, and
every value stored in `Edits` is a node reachable from the root whose id is its
key. -/
theorem C17_edits_map (l : List (Edit × Nat)) (d : Document)
    (hnodup : ((l.map Prod.fst).map Edit.id).Nodup) (hroot : ∀ ei ∈ l, ei.1.id ≠ rootID)
    (h : New.applyAll l = .ok d) :
    ∃ m head, d.Edits = some m ∧ d.head = some head ∧
      (∀ n ∈ subnodes head, d.nodeOf n.id = some n) ∧
      ∀ id a, lookupEdits m id = some a →
        ∃ n ∈ subnodes head, n.addr = a ∧ n.id = id ∧ d.nodeOf id = some n := by
  have hids : idsOf (.mk 0 0 rootID []) = [rootID] := by
    simp [idsOf, subnodes_mk, EditTreeNode.id]
  have hfresh : ∀ ei ∈ l, ei.1.id ∉ idsOf (.mk 0 0 rootID []) := by
    intro ei hei
    rw [hids, List.mem_singleton]
    exact hroot ei hei
  obtain ⟨m, head, hE, hH, hwf, -, -⟩ :=
    applyAll_pure l New d _ _ rfl rfl New_WF hnodup hfresh h
  exact ⟨m, head, hE, hH, edits_of_WF hE hH hwf⟩

/-- The map `Edits` after the three edits A, B, C. -/
theorem C17_edits_map_witness :
    ∃ m head, (replayed orderABC).Edits = some m ∧ (replayed orderABC).head = some head ∧
      (∀ n ∈ subnodes head, (replayed orderABC).nodeOf n.id = some n) ∧
      ∀ id a, lookupEdits m id = some a →
        ∃ n ∈ subnodes head, n.addr = a ∧ n.id = id ∧
          (replayed orderABC).nodeOf id = some n :=
  C17_edits_map orderABC (replayed orderABC) (by decide) (by decide) replay_ABC

/-! ## The skip list after a rebuild -/

/-- C18: after `Insert(a, 0, 'a')` and `Insert(a, 1, 'b')` on `New()` the text is
"ab" and the skip list kept by the document is `[{0, head}]`; with it
`predForIndex(1)` returns the node of 'a' (allocation number 1), the first
character whose end offset is at least 1. After the list has been discarded,
`ensureSkipList` builds `[{0, head}, {1, b}]` and `predForIndex(1)` returns the
node of 'b' (allocation number 2). -/
theorem C18_rebuild_differs :
    failureAfter [.ins [97] 0 97, .ins [97] 1 98] = none ∧
      textAfter [.ins [97] 0 97, .ins [97] 1 98] = some [97, 98] ∧
      (docAfter [.ins [97] 0 97, .ins [97] 1 98]).anchors = some [(0, 0)] ∧
      (docAfter [.ins [97] 0 97, .ins [97] 1 98]).predAt 1 = some (1, 97) ∧
      (docAfter [.ins [97] 0 97, .ins [97] 1 98]).discardSkipList.ensuredAnchors
        = some [(0, 0), (1, 2)] ∧
      (docAfter [.ins [97] 0 97, .ins [97] 1 98]).discardSkipList.predAt 1 = some (2, 98) := by
  decide!

end UDT
namespace UDT

/-! ## The columns of `WriteTo` -/

theorem rowsLoop_eq (et : EditTreeNode) (l : List EditTreeNode) :
    rowsLoop et l = l.flatMap fun n => (n, et) :: rowsOf n := by
  induction l with
  | nil => rfl
  | cons n ns ih => rw [rowsLoop, ih, List.flatMap_cons, List.cons_append]

theorem rowsOf_mk (a : Nat) (c : Int) (id : ID) (next : List EditTreeNode) :
    rowsOf (.mk a c id next) = next.flatMap fun n => (n, .mk a c id next) :: rowsOf n := by
  rw [rowsOf, rowsLoop_eq]

mutual
/-- With a callback that never stops the traversal, `EditsInOrder` is a fold over
the rows. -/
theorem EditsInOrder_rows {σ : Type} (g : σ → EditTreeNode → EditTreeNode → σ) :
    ∀ (t : EditTreeNode) (s : σ),
      t.EditsInOrder (fun s et p => (g s et p, true)) s
        = ((rowsOf t).foldl (fun s r => g s r.1 r.2) s, true)
  | .mk addr c id next, s => by
    rw [EditTreeNode.EditsInOrder, rowsOf]
    exact EditsInOrderLoop_rows g (.mk addr c id next) next s
theorem EditsInOrderLoop_rows {σ : Type} (g : σ → EditTreeNode → EditTreeNode → σ)
    (et : EditTreeNode) : ∀ (l : List EditTreeNode) (s : σ),
      EditsInOrderLoop (fun s et p => (g s et p, true)) et l s
        = ((rowsLoop et l).foldl (fun s r => g s r.1 r.2) s, true)
  | [], s => by simp [EditsInOrderLoop, rowsLoop]
  | n :: ns, s => by
    rw [EditsInOrderLoop, rowsLoop]
    simp only [Bool.not_true, Bool.false_eq_true, if_false]
    rw [EditsInOrder_rows g n (g s n et)]
    simp only [Bool.not_true, Bool.false_eq_true, if_false]
    rw [EditsInOrderLoop_rows g et ns, List.foldl_cons, List.foldl_append]
end

theorem foldl_snoc {α : Type} (l : List α) : ∀ (acc : List α),
    l.foldl (fun s r => s ++ [r]) acc = acc ++ l := by
  induction l with
  | nil => intro acc; simp
  | cons x xs ih => intro acc; rw [List.foldl_cons, ih]; simp

/-- The rows that the callback of `EditsInOrder` receives are the rows of the
recursion over the tree. -/
theorem editRows_eq (head : EditTreeNode) : editRows head = rowsOf head := by
  unfold editRows
  rw [EditsInOrder_rows (fun (s : List (EditTreeNode × EditTreeNode)) et p => s ++ [(et, p)])]
  simp only
  rw [foldl_snoc]
  rfl

theorem rows_length_aux (et : EditTreeNode) : ∀ (l : List EditTreeNode),
    (∀ n ∈ l, (rowsOf n).length + 1 = (subnodes n).length) →
    (l.flatMap fun n => (n, et) :: rowsOf n).length = (l.flatMap subnodes).length := by
  intro l
  induction l with
  | nil => intro _; rfl
  | cons n ns ihn =>
    intro ih
    rw [List.flatMap_cons, List.flatMap_cons, List.length_append, List.length_append,
      List.length_cons, ih n (List.mem_cons_self _ _),
      ihn (fun m hm => ih m (List.mem_cons_of_mem _ hm))]

/-- One row for every node but the root. -/
theorem rowsOf_length (t : EditTreeNode) : (rowsOf t).length + 1 = (subnodes t).length := by
  induction t using EditTreeNode.ind with
  | mk a c id next ih =>
    rw [rowsOf_mk, subnodes_mk, List.length_cons, rows_length_aux _ next ih]

/-- The backing encoder after a sequence of nodes. -/
theorem backing_foldl : ∀ (l : List EditTreeNode) (e : BackingEncoder),
    (l.foldl BackingEncoder.Append e).rle
      = (l.flatMap backingTokens).foldl RLEEncoder.Append e.rle := by
  intro l
  induction l with
  | nil => intro e; rfl
  | cons x xs ih =>
    intro e
    rw [List.foldl_cons, ih, backing_append, List.flatMap_cons, List.foldl_append]

theorem versionTokens_length : ∀ (rows : List (ID × Int)) (live del : DeltaEncoder),
    (versionTokens live del rows).length = rows.length := by
  intro rows
  induction rows with
  | nil => intro live del; rfl
  | cons r rows ih =>
    intro live del
    obtain ⟨id, c⟩ := r
    rw [versionTokens]
    split <;> simp [ih]

/-- An ID encoder after a sequence of calls `Append(id, char)`. -/
theorem idEncoder_foldl : ∀ (rows : List (ID × Int)) (e : IDEncoder),
    (rows.foldl (fun e r => e.Append r.1 r.2) e).actorOffset
        = (actorTokens e.table rows).foldl RLEEncoder.Append e.actorOffset ∧
      (rows.foldl (fun e r => e.Append r.1 r.2) e).version
        = (versionTokens e.liveDelta e.deleteDelta rows).foldl RLEEncoder.Append e.version := by
  intro rows
  induction rows with
  | nil => intro e; exact ⟨rfl, rfl⟩
  | cons r rows ih =>
    intro e
    obtain ⟨id, c⟩ := r
    rw [List.foldl_cons]
    obtain ⟨h1, h2⟩ := ih (e.Append id c)
    rw [h1, h2]
    unfold IDEncoder.Append
    by_cases hc : c = delete
    · simp [hc, actorTokens, versionTokens]
    · simp [hc, actorTokens, versionTokens]

/-- The three encoders after the traversal of `WriteTo`. -/
theorem writeTo_columns (head : EditTreeNode) (b : BackingEncoder) (p i : IDEncoder) :
    (head.EditsInOrder writeToVisit (b, p, i)).1 =
      (((editRows head).map Prod.fst).foldl BackingEncoder.Append b,
        ((editRows head).map fun r => (r.2.id, lozenge)).foldl (fun e r => e.Append r.1 r.2) p,
        ((editRows head).map fun r => (r.1.id, r.1.char)).foldl
          (fun e r => e.Append r.1 r.2) i) := by
  have hv : writeToVisit = fun s et p =>
      ((fun (s : BackingEncoder × IDEncoder × IDEncoder) (et p : EditTreeNode) =>
        (s.1.Append et, s.2.1.Append p.id lozenge, s.2.2.Append et.id et.char)) s et p,
        true) := rfl
  rw [hv, EditsInOrder_rows, editRows_eq]
  simp only
  generalize rowsOf head = rows
  induction rows generalizing b p i with
  | nil => rfl
  | cons r rows ih =>
    simp only [List.foldl_cons, List.map_cons]
    exact ih _ _ _

/-- The encoders of `WriteTo` for a document with a tree, as fresh encoders to
which lists of tokens have been appended. -/
theorem columns_of_head {d : Document} {head : EditTreeNode} (hH : d.head = some head) :
    ∃ s, d.columns = some s ∧
      s.1.rle = rleAfter (((editRows head).map Prod.fst).flatMap backingTokens) ∧
      s.2.1.actorOffset
        = rleAfter (actorTokens d.lookup ((editRows head).map fun r => (r.2.id, lozenge))) ∧
      s.2.1.version
        = rleAfter (versionTokens ⟨0⟩ ⟨0⟩ ((editRows head).map fun r => (r.2.id, lozenge))) ∧
      s.2.2.actorOffset
        = rleAfter (actorTokens d.lookup ((editRows head).map fun r => (r.1.id, r.1.char))) ∧
      s.2.2.version
        = rleAfter (versionTokens ⟨0⟩ ⟨0⟩
            ((editRows head).map fun r => (r.1.id, r.1.char))) := by
  refine ⟨_, by rw [Document.columns, hH]; rfl, ?_⟩
  simp only
  rw [writeTo_columns]
  refine ⟨backing_foldl _ _, ?_, ?_, ?_, ?_⟩
  · exact (idEncoder_foldl _ _).1
  · exact (idEncoder_foldl _ _).2
  · exact (idEncoder_foldl _ _).1
  · exact (idEncoder_foldl _ _).2

/-- C19 as stated fails for the document left by `Insert(a, 0, 'a')` and
`Remove(a, 0)` on `New()`: `EditsInOrder` gives two rows (the character and its
tombstone), both ID encoders are appended two rows, and the backing column is
appended the single token `'a'`. -/
theorem C19_backing_has_fewer_tokens :
    failureAfter [.ins [97] 0 97, .rem [97] 0] = none ∧
      (docAfter [.ins [97] 0 97, .rem [97] 0]).head.map (fun h => (editRows h).length)
        = some 2 ∧
      (docAfter [.ins [97] 0 97, .rem [97] 0]).head.map
          (fun h => ((editRows h).map Prod.fst).flatMap backingTokens) = some [[97]] ∧
      (docAfter [.ins [97] 0 97, .rem [97] 0]).columns.map (fun s => s.1.rle)
        = some (rleAfter [[97]]) ∧
      (docAfter [.ins [97] 0 97, .rem [97] 0]).columns.map (fun s => s.2.1.actorOffset)
        = some (rleAfter [[0], [1]]) ∧
      (docAfter [.ins [97] 0 97, .rem [97] 0]).columns.map (fun s => s.2.2.actorOffset)
        = some (rleAfter [[1], [1]]) := by
  decide!

theorem failure_insert_remove : failureAfter [.ins [97] 0 97, .rem [97] 0] = none := by
  decide!

/-- A sequence of calls that does not fail leaves the document `docAfter`. -/
theorem calls_docAfter {ops : List Op} (h : failureAfter ops = none) :
    New.calls ops = .ok (docAfter ops) := by
  unfold failureAfter at h
  unfold docAfter
  cases hc : New.calls ops with
  | error p => rw [hc] at h; cases h
  | ok d => rfl

end UDT
namespace UDT

/-! ## Tools for the invariants of local edits -/

theorem subnodes_trans (t : EditTreeNode) : ∀ {n q : EditTreeNode}, n ∈ subnodes t →
    q ∈ subnodes n → q ∈ subnodes t := by
  induction t using EditTreeNode.ind with
  | mk a c id next ih =>
    intro n q hn hq
    rw [subnodes_mk] at hn
    rcases List.mem_cons.1 hn with hn | hn
    · rw [hn] at hq; exact hq
    · obtain ⟨ch, hch, hnc⟩ := List.mem_flatMap.1 hn
      exact subnodes_of_child hch (ih ch hch hnc hq)

theorem child_mem_subnodes {t c : EditTreeNode} (h : c ∈ t.next) : c ∈ subnodes t := by
  cases t with
  | mk a ch id next => exact subnodes_of_child h (self_mem_subnodes c)

/-- Among sorted siblings no tombstone comes after the leading tombstones. -/
theorem live_after_deleteCount (pa : List Nat) : ∀ (l : List EditTreeNode),
    l.Pairwise (Before pa) → ∀ c ∈ l.drop (deleteCount l), c.char ≠ delete := by
  intro l
  induction l with
  | nil => intro _ c hc; simp at hc
  | cons x xs ih =>
    intro hs c hc
    rw [List.pairwise_cons] at hs
    rw [deleteCount] at hc
    by_cases hx : x.char = delete
    · rw [if_pos hx, List.drop_succ_cons] at hc
      exact ih hs.2 c hc
    · rw [if_neg hx, List.drop_zero] at hc
      rcases List.mem_cons.1 hc with h | h
      · rw [h]; exact hx
      · intro hcd
        have hb := hs.1 c h
        unfold Before at hb
        rw [staysBefore_iff] at hb
        unfold kindOf at hb
        rw [if_neg hx, if_pos hcd] at hb
        omega

/-- A node without leading tombstone child among sorted siblings has no
tombstone child. -/
theorem no_tombstone_child {t n : EditTreeNode} (hs : SortedTree t) (hn : n ∈ subnodes t)
    (h0 : deleteCount n.next = 0) : ∀ c ∈ n.next, c.char ≠ delete := by
  have := live_after_deleteCount n.id.actorID n.next ((sortedTree_iff t).1 hs n hn)
  rw [h0, List.drop_zero] at this
  exact this

theorem deleteCount_eq_zero {l : List EditTreeNode} (h : ∀ c ∈ l, c.char ≠ delete) :
    deleteCount l = 0 := by
  cases l with
  | nil => rfl
  | cons c cs => rw [deleteCount, if_neg (h c (List.mem_cons_self _ _))]

mutual
/-- A property of the state that the callback keeps at every node it can be
handed is kept by `charsInOrder`: the callback is handed nodes of the tree that
have no leading tombstone child, a version other than zero, and are no
tombstones when the root of the traversal is none and siblings are sorted. -/
theorem charsInOrder_inv {σ : Type} (f : σ → EditTreeNode → σ × Bool) (P : σ → Prop) :
    ∀ (t : EditTreeNode) (s : σ), SortedTree t → t.char ≠ delete → P s →
      (∀ s n, n ∈ subnodes t → deleteCount n.next = 0 → n.id.version ≠ 0 →
        n.char ≠ delete → P s → P (f s n).1) →
      P (t.charsInOrder f s).1
  | .mk addr c id next, s, hs, hc, hP, hf => by
    have hsorted := (sortedTree_mk addr c id next).1 hs
    have hlive := live_after_deleteCount id.actorID next hsorted.1
    have hrest : ∀ s', P s' → P (charsInOrderFrom f (deleteCount next) next s').1 := by
      intro s' hP'
      refine charsInOrderFrom_inv f P (deleteCount next) next s'
        ((sortedForest_iff next).2 hsorted.2) hlive hP' ?_
      intro s2 n hn h0 hv hcn hP2
      refine hf s2 n ?_ h0 hv hcn hP2
      rw [subnodes]
      exact List.mem_cons_of_mem _ hn
    rw [EditTreeNode.charsInOrder]
    simp only
    split
    · rename_i hcond
      simp only [Bool.and_eq_true, Bool.not_eq_true', decide_eq_false_iff_not, Nat.not_lt,
        Nat.le_zero_eq, bne_iff_ne, ne_eq] at hcond
      have hstep : P (f s (.mk addr c id next)).1 :=
        hf s _ (self_mem_subnodes _) hcond.1 hcond.2 hc hP
      split
      · exact hstep
      · exact hrest _ hstep
    · exact hrest s hP
theorem charsInOrderFrom_inv {σ : Type} (f : σ → EditTreeNode → σ × Bool) (P : σ → Prop) :
    ∀ (i : Nat) (l : List EditTreeNode) (s : σ), SortedForest l →
      (∀ c ∈ l.drop i, c.char ≠ delete) → P s →
      (∀ s n, n ∈ subnodesList l → deleteCount n.next = 0 → n.id.version ≠ 0 →
        n.char ≠ delete → P s → P (f s n).1) →
      P (charsInOrderFrom f i l s).1
  | _, [], s, _, _, hP, _ => by
    rw [charsInOrderFrom]
    exact hP
  | i + 1, c :: cs, s, hs, hl, hP, hf => by
    rw [charsInOrderFrom]
    rw [SortedForest] at hs
    refine charsInOrderFrom_inv f P i cs s hs.2 ?_ hP ?_
    · intro x hx
      exact hl x (by rw [List.drop_succ_cons]; exact hx)
    · intro s2 n hn
      refine hf s2 n ?_
      rw [subnodesList]
      exact List.mem_append_right _ hn
  | 0, c :: cs, s, hs, hl, hP, hf => by
    rw [charsInOrderFrom]
    rw [SortedForest] at hs
    have hc : c.char ≠ delete := hl c (by rw [List.drop_zero]; exact List.mem_cons_self _ _)
    have h1 : P (EditTreeNode.charsInOrder f c s).1 := by
      refine charsInOrder_inv f P c s hs.1 hc hP ?_
      intro s2 n hn
      refine hf s2 n ?_
      rw [subnodesList]
      exact List.mem_append_left _ hn
    split
    · exact h1
    · refine charsInOrderFrom_inv f P 0 cs _ hs.2 ?_ h1 ?_
      · intro x hx
        rw [List.drop_zero] at hx
        exact hl x (by rw [List.drop_zero]; exact List.mem_cons_of_mem _ hx)
      · intro s2 n hn
        refine hf s2 n ?_
        rw [subnodesList]
        exact List.mem_append_right _ hn
end

/-- A property of a node that depends only on its own fields and on the fields
of its children holds at every node after an assignment, when it holds at every
node before and at every node of what is assigned. -/
theorem forall_setNextBy (P : EditTreeNode → Prop)
    (hP : ∀ n n2 : EditTreeNode, n.addr = n2.addr → n.char = n2.char → n.id = n2.id →
      n.next.map (fun c => (c.addr, c.char, c.id)) = n2.next.map (fun c => (c.addr, c.char, c.id)) →
      P n → P n2)
    (sel : Nat → ID → Bool) (g : ID → List EditTreeNode → List EditTreeNode)
    (t : EditTreeNode) (h : ∀ n ∈ subnodes t, P n)
    (hg : ∀ n ∈ subnodes t, sel n.addr n.id = true →
      ∀ q ∈ subnodes (.mk n.addr n.char n.id (g n.id n.next)), P q) :
    ∀ q ∈ subnodes (setNextBy sel g t), P q := by
  induction t using EditTreeNode.ind with
  | mk a c id next ih =>
    rw [setNextBy_mk]
    split
    · rename_i hsel
      exact hg _ (self_mem_subnodes _) hsel
    · intro q hq
      rw [subnodes_mk] at hq
      rcases List.mem_cons.1 hq with hq | hq
      · rw [hq]
        refine hP (.mk a c id next) _ rfl rfl rfl ?_ (h _ (self_mem_subnodes _))
        simp only [EditTreeNode.next, List.map_map]
        refine List.map_congr_left (fun x _ => ?_)
        obtain ⟨h1, h2, h3⟩ := setNextBy_addr sel g x
        simp [h1, h2, h3]
      · obtain ⟨ch2, hch2, hq2⟩ := List.mem_flatMap.1 hq
        obtain ⟨ch, hch, rfl⟩ := List.mem_map.1 hch2
        exact ih ch hch (fun n hn => h n (subnodes_of_child hch hn))
          (fun n hn => hg n (subnodes_of_child hch hn)) q hq2

/-- The node that an assignment selects is, with what is assigned, a node of the
tree afterwards, when the assignment selects one node only. -/
theorem mem_setNextBy (sel : Nat → ID → Bool) (g : ID → List EditTreeNode → List EditTreeNode)
    (t n : EditTreeNode) (hn : n ∈ subnodes t) (hsel : sel n.addr n.id = true)
    (huniq : ∀ x ∈ subnodes t, sel x.addr x.id = true → x = n) :
    .mk n.addr n.char n.id (g n.id n.next) ∈ subnodes (setNextBy sel g t) := by
  induction t using EditTreeNode.ind with
  | mk a c id next ih =>
    rw [setNextBy_mk]
    split
    · rename_i hs
      have := huniq _ (self_mem_subnodes _) hs
      rw [← this]
      exact self_mem_subnodes _
    · rename_i hs
      rw [subnodes_mk] at hn
      rcases List.mem_cons.1 hn with hn | hn
      · rw [hn] at hsel
        exact absurd hsel hs
      · obtain ⟨ch, hch, hnc⟩ := List.mem_flatMap.1 hn
        refine subnodes_of_child (List.mem_map.2 ⟨ch, hch, rfl⟩) ?_
        exact ih ch hch hnc (fun x hx => huniq x (subnodes_of_child hch hx))

end UDT
namespace UDT

/-! ## The anchors of the skip list are live nodes -/

/-- The allocation number of a node of the tree that is no tombstone can be an
anchor. -/
theorem anchor_of_live {head n : EditTreeNode} {nextAddr : Nat} (hna : (addrsOf head).Nodup)
    (hb : ∀ a ∈ addrsOf head, a < nextAddr) (hn : n ∈ subnodes head) (hc : n.char ≠ delete) :
    n.addr < nextAddr ∧ ∀ x ∈ subnodes head, x.addr = n.addr → x.char ≠ delete := by
  refine ⟨hb _ (List.mem_map.2 ⟨n, hn, rfl⟩), fun x hx hxa => ?_⟩
  rw [eq_of_addr_eq hna hx hn hxa]
  exact hc

/-- The list that `ensureSkipList` returns has live anchors. -/
theorem ensureSkipList_live {d d1 : Document} {sl : List SkipListNode} {head : EditTreeNode}
    (hH : d.head = some head) (hna : (addrsOf head).Nodup)
    (hb : ∀ a ∈ addrsOf head, a < d.nextAddr) (hs : SortedTree head)
    (hc : head.char ≠ delete) (hA : AnchorsLive head d.nextAddr d.skipList)
    (h : d.ensureSkipList = .ok (sl, d1)) : AnchorsLive head d.nextAddr (some sl) := by
  unfold Document.ensureSkipList at h
  split at h
  · rename_i sl0 hsl
    simp only [Except.ok.injEq, Prod.mk.injEq] at h
    rw [← h.1, ← hsl]
    exact hA
  · rw [hH] at h
    simp only [Except.ok.injEq, Prod.mk.injEq] at h
    have hinv := charsInOrder_inv ensureSkipListStep
      (fun (s : List SkipListNode × Nat × Option EditTreeNode) =>
        (∀ a ∈ s.1, a.node < d.nextAddr ∧
          ∀ x ∈ subnodes head, x.addr = a.node → x.char ≠ delete) ∧
        ∀ l, s.2.2 = some l → l.addr < d.nextAddr ∧
          ∀ x ∈ subnodes head, x.addr = l.addr → x.char ≠ delete)
      head ([{ countBefore := 0, node := head.addr }], 0, none) hs hc
      (by
        refine ⟨fun a ha => ?_, fun l hl => by cases hl⟩
        rw [List.mem_singleton] at ha
        rw [ha]
        exact anchor_of_live hna hb (self_mem_subnodes head) hc)
      (by
        intro s n hn _ _ hcn hP
        unfold ensureSkipListStep
        split
        · exact hP
        · simp only
          split
          · refine ⟨fun a ha => ?_, fun l hl => by cases hl⟩
            rcases List.mem_append.1 ha with ha | ha
            · exact hP.1 a ha
            · rw [List.mem_singleton] at ha
              rw [ha]
              exact anchor_of_live hna hb hn hcn
          · refine ⟨hP.1, fun l hl => ?_⟩
            simp only [Option.some.injEq] at hl
            rw [← hl]
            exact anchor_of_live hna hb hn hcn)
    beta_reduce at hinv
    intro l hl a ha
    simp only [Option.some.injEq] at hl
    rw [← hl, ← h.1] at ha
    split at ha
    · rename_i last hlast
      rcases List.mem_append.1 ha with ha | ha
      · exact hinv.1 a ha
      · rw [List.mem_singleton] at ha
        rw [ha]
        exact hinv.2 last hlast
    · exact hinv.1 a ha

/-- The list that `updateSkipList` leaves has live anchors. -/
theorem updateSkipList_live {d d2 : Document} {pos : Nat} {delta : Int} {head : EditTreeNode}
    (hH : d.head = some head) (hna : (addrsOf head).Nodup)
    (hb : ∀ a ∈ addrsOf head, a < d.nextAddr) (hs : SortedTree head)
    (hc : head.char ≠ delete) (hA : AnchorsLive head d.nextAddr d.skipList)
    (h : d.updateSkipList pos delta = .ok d2) : AnchorsLive head d.nextAddr d2.skipList := by
  unfold Document.updateSkipList at h
  split at h
  · cases h
  · rename_i sl d1 hens
    have h1 := ensureSkipList_ok hens
    have hl := ensureSkipList_live hH hna hb hs hc hA hens
    have hnone : AnchorsLive head d.nextAddr none := fun l hl => by cases hl
    subst h1
    simp only at h
    split at h <;> simp only [Except.ok.injEq] at h <;> subst h
    · exact hnone
    · split
      · exact hnone
      · exact hl

theorem predForIndexStep_fold (index : Nat) (Q : Nat → Prop) : ∀ (sl : List SkipListNode)
    (s : Nat × Nat), Q s.1 → (∀ a ∈ sl, Q a.node) →
    Q (sl.foldl (predForIndexStep index) s).1 := by
  intro sl
  induction sl with
  | nil => intro s hs _; exact hs
  | cons a sl ih =>
    intro s hs hq
    rw [List.foldl_cons]
    refine ih _ ?_ (fun b hb => hq b (List.mem_cons_of_mem _ hb))
    unfold predForIndexStep
    split
    · exact hq a (List.mem_cons_self _ _)
    · exact hs

/-- The node that `predForIndex` returns is a node of the tree and no tombstone;
for an index other than zero it has no leading tombstone child and a version
other than zero, for the index zero it is the root. -/
theorem predForIndex_live {d d1 : Document} {i : Nat} {pred head : EditTreeNode}
    (hH : d.head = some head) (hna : (addrsOf head).Nodup)
    (hb : ∀ a ∈ addrsOf head, a < d.nextAddr) (hs : SortedTree head)
    (hc : head.char ≠ delete) (hA : AnchorsLive head d.nextAddr d.skipList)
    (h : d.predForIndex i = .ok (pred, d1)) :
    pred ∈ subnodes head ∧ pred.char ≠ delete ∧
      (i = 0 → pred = head) ∧
      (i ≠ 0 → deleteCount pred.next = 0 ∧ pred.id.version ≠ 0) ∧
      d1 = { d with skipList := d1.skipList } ∧
      AnchorsLive head d.nextAddr d1.skipList := by
  unfold Document.predForIndex at h
  split at h
  · rename_i hi
    rw [hH] at h
    simp only [Except.ok.injEq, Prod.mk.injEq] at h
    rw [← h.1, ← h.2]
    exact ⟨self_mem_subnodes head, hc, fun _ => rfl, fun h0 => absurd hi h0, rfl, hA⟩
  · rename_i hi
    split at h
    · cases h
    · rename_i sl d0 hens
      have h0 := ensureSkipList_ok hens
      have hl := ensureSkipList_live hH hna hb hs hc hA hens
      subst h0
      simp only at h
      rw [hH] at h
      simp only at h
      split at h
      · cases h
      · rename_i start hstart
        split at h
        · cases h
        · rename_i found hfound
          simp only [Except.ok.injEq, Prod.mk.injEq] at h
          obtain ⟨hf, hd⟩ := h
          subst hf
          subst hd
          have hsm := findNode_mem _ _ _ hstart
          have hstartc : start.char ≠ delete := by
            have hQ := predForIndexStep_fold i
              (fun a => ∀ x ∈ subnodes head, x.addr = a → x.char ≠ delete) sl (head.addr, 0)
              (anchor_of_live hna hb (self_mem_subnodes head) hc).2
              (fun a ha => (hl sl rfl a ha).2)
            exact hQ start hsm.1 hsm.2
          have hinv := charsInOrder_inv (predForIndexVisit i)
            (fun (s : Nat × Option EditTreeNode) => ∀ n, s.2 = some n →
              n ∈ subnodes start ∧ deleteCount n.next = 0 ∧ n.id.version ≠ 0 ∧
                n.char ≠ delete)
            start ((sl.foldl (predForIndexStep i) (head.addr, 0)).2, none)
            (sortedTree_of_mem head hs start hsm.1) hstartc (fun n hn => by cases hn)
            (by
              intro s n hn h0 hv hcn hP
              unfold predForIndexVisit
              simp only
              split
              · intro q hq
                simp only [Option.some.injEq] at hq
                rw [← hq]
                exact ⟨hn, h0, hv, hcn⟩
              · exact hP)
          beta_reduce at hinv
          obtain ⟨h1, h2, h3, h4⟩ := hinv found hfound
          exact ⟨subnodes_trans head hsm.1 h1, h4, fun h0 => absurd h0 hi, fun _ => ⟨h2, h3⟩,
            by simp only [hH], hl⟩

end UDT
namespace UDT

/-! ## One local edit -/

/-- An edit whose version is above the versions of all children goes to the
front when the first child is no tombstone. -/
theorem applyAtLoop_zero (prev : EditTreeNode) (e : Edit) (l : List EditTreeNode)
    (hv : ∀ c ∈ l, c.id.version < e.id.version) (hd : deleteCount l = 0) :
    applyAtLoop prev e l 0 = .ok 0 := by
  cases l with
  | nil => rfl
  | cons c cs =>
    have hc : c.char ≠ delete := by
      intro h
      rw [deleteCount, if_pos h] at hd
      omega
    have hlt := hv c (List.mem_cons_self _ _)
    rw [applyAtLoop]
    by_cases he : e.char = delete
    · simp [hc, he]
    · have h3 : ¬ c.id.version > e.id.version := by omega
      simp [hc, he, h3, hlt]

theorem ensureSkipList_ne_error {d : Document} (h : d.head.isSome = true) :
    ∃ r, d.ensureSkipList = .ok r := by
  obtain ⟨head, hH⟩ := Option.isSome_iff_exists.1 h
  unfold Document.ensureSkipList
  split
  · exact ⟨_, rfl⟩
  · rw [hH]
    exact ⟨_, rfl⟩

theorem updateSkipList_ne_error {d : Document} {pos : Nat} {delta : Int} {p : Failure}
    (h : d.head.isSome = true) : d.updateSkipList pos delta ≠ .error p := by
  obtain ⟨d2, h2⟩ := updateSkipList_isOk pos delta h
  rw [h2]
  intro hc
  cases hc

/-- `ApplyAt` returns when the predecessor is found and the loop returns. -/
theorem ApplyAt_isOk (index : Nat) {d : Document} {e : Edit} {idx : Nat}
    {m : List (ID × Nat)} {head prev : EditTreeNode} {prevAddr : Nat}
    (hA : d.actorIDs.isSome = true) (hE : d.Edits = some m) (hH : d.head = some head)
    (hl : lookupEdits m e.prev = some prevAddr) (hf : findNode prevAddr head = some prev)
    (hloop : applyAtLoop prev e prev.next 0 = .ok idx) :
    ∃ d2, d.ApplyAt e index = .ok d2 := by
  obtain ⟨a, ha⟩ := Option.isSome_iff_exists.1 hA
  unfold Document.ApplyAt
  by_cases h1 : e.id.version > d.maxVersion <;> by_cases h2 : e.id.version > 0 <;>
    simp only [h1, h2, ha, hE, hH, hl, hf, hloop, if_true, if_false, Option.some_bind] <;>
    split <;>
    first
    | exact ⟨_, rfl⟩
    | (rename_i p hp
       exact absurd hp (updateSkipList_ne_error (by simp [hH])))

/-- The skip list that `ApplyAt` leaves has live anchors in the tree before the
call. -/
theorem ApplyAt_anchors {d d2 : Document} {e : Edit} {index : Nat} {head : EditTreeNode}
    (hH : d.head = some head) (hna : (addrsOf head).Nodup)
    (hb : ∀ a ∈ addrsOf head, a < d.nextAddr) (hs : SortedTree head)
    (hc : head.char ≠ delete) (hA : AnchorsLive head d.nextAddr d.skipList)
    (h : d.ApplyAt e index = .ok d2) : AnchorsLive head d.nextAddr d2.skipList := by
  unfold Document.ApplyAt at h
  simp only at h
  split at h
  · cases h
  · rename_i d1 hd1
    have hd1f : d1.skipList = d.skipList ∧ d1.head = d.head ∧ d1.nextAddr = d.nextAddr := by
      split at hd1
      · split at hd1
        · cases hd1
        · simp only [Except.ok.injEq] at hd1
          subst hd1
          refine ⟨by split <;> rfl, by split <;> rfl, by split <;> rfl⟩
      · simp only [Except.ok.injEq] at hd1
        subst hd1
        refine ⟨by split <;> rfl, by split <;> rfl, by split <;> rfl⟩
    obtain ⟨hS, hH1, hN⟩ := hd1f
    split at h
    · cases h
    · cases h
    · split at h
      · cases h
      · split at h
        · cases h
        · split at h
          · cases h
          · rename_i d3 hupd
            have hH1b : d1.head = some head := by rw [hH1, hH]
            have hlive := updateSkipList_live hH1b
              hna (by rw [hN]; exact hb) hs hc (by rw [hN, hS]; exact hA) hupd
            simp only [Except.ok.injEq] at h
            subst h
            rw [hN] at hlive
            exact hlive

theorem filter_tombstones_of_labels {l1 l2 : List EditTreeNode}
    (h : l1.map (fun c => (c.addr, c.char, c.id)) = l2.map (fun c => (c.addr, c.char, c.id))) :
    (l1.filter (fun c => decide (c.char = delete))).length
      = (l2.filter (fun c => decide (c.char = delete))).length := by
  have h1 : ∀ l : List EditTreeNode, (l.filter (fun c => decide (c.char = delete))).length
      = ((l.map (fun c => (c.addr, c.char, c.id))).filter
          (fun t => decide (t.2.1 = delete))).length := by
    intro l
    rw [List.filter_map, List.length_map]
    rfl
  rw [h1 l1, h1 l2, h]

theorem filter_tombstones_nil {l : List EditTreeNode} (h : ∀ c ∈ l, c.char ≠ delete) :
    l.filter (fun c => decide (c.char = delete)) = [] := by
  rw [List.filter_eq_nil_iff]
  intro c hc
  simpa using h c hc

/-- One `ApplyAt` of a local edit: the edit has the version `n + 1` and its
predecessor is a node that is no tombstone and has no leading tombstone child
(and is not the root when the edit is a tombstone). The document stays one of
local edits, and the new node is the first child of the predecessor. -/
theorem ApplyAt_local {d d2 : Document} {e : Edit} {i n : Nat} {head pred : EditTreeNode}
    (hL : d.Local n) (hH : d.head = some head) (hp : pred ∈ subnodes head)
    (hpc : pred.char ≠ delete) (hp0 : deleteCount pred.next = 0)
    (hpr : e.char = delete → pred.id.version ≠ 0)
    (hev : e.id.version = n + 1) (hprev : e.prev = pred.id)
    (h : d.ApplyAt e i = .ok d2) :
    d2.Local (n + 1) ∧
      d2.nodeOf pred.id = some (.mk pred.addr pred.char pred.id
        (.mk d.nextAddr e.char e.id [] :: pred.next)) := by
  obtain ⟨hA, hM, m, head0, hE, hH0, hwf, hv, hvn, hroot, hleaf, hone, hAL⟩ := hL
  rw [hH] at hH0
  simp only [Option.some.injEq] at hH0
  subst hH0
  have hfresh : e.id ∉ idsOf head := by
    intro hin
    obtain ⟨x, hx, hxe⟩ := List.mem_map.1 hin
    have := hv x hx
    rw [hxe, hev] at this
    omega
  obtain ⟨head2, hH2, hE2, hwf2, -, -, hids⟩ := ApplyAt_WF hE hH hwf hfresh h
  obtain ⟨m0, head0, prevAddr, prev, idx, hE0, hH0, hlook, hfind, hloop, hhead2, -, hnext2,
    hmax2, -, -⟩ := ApplyAt_ok h
  rw [hE] at hE0
  rw [hH] at hH0
  simp only [Option.some.injEq] at hE0 hH0
  subst hE0 hH0
  obtain ⟨hna, hni, hbound, hmap, hsorted⟩ := hwf
  -- the predecessor found through `Edits` is `pred`
  have hpm := findNode_mem _ _ _ hfind
  obtain ⟨n0, hn0, hn0eq⟩ := List.mem_map.1 ((hmap e.prev prevAddr).1 hlook)
  simp only [Prod.mk.injEq] at hn0eq
  have hn0p : n0 = pred := eq_of_id_eq hni hn0 hp (by rw [hn0eq.2, hprev])
  have hpa : prevAddr = pred.addr := by rw [← hn0eq.1, hn0p]
  have hprevp : prev = pred := eq_of_addr_eq hna hpm.1 hp (by rw [hpm.2, hpa])
  subst hprevp
  -- the loop returns zero
  have hvers : ∀ c ∈ prev.next, c.id.version < e.id.version := by
    intro c hc
    have := hv c (subnodes_trans head hp (child_mem_subnodes hc))
    omega
  rw [applyAtLoop_zero prev e prev.next hvers hp0] at hloop
  simp only [Except.ok.injEq] at hloop
  subst hloop
  have hfun : (fun next => slicesInsert next 0 (EditTreeNode.mk d.nextAddr e.char e.id []))
      = fun next => EditTreeNode.mk d.nextAddr e.char e.id [] :: next :=
    funext (fun l => slicesInsert_zero l _)
  rw [hfun, setNext_eq_setNextBy, hH2, hpa] at hhead2
  simp only [Option.some.injEq] at hhead2
  -- the nodes of the new tree
  have hnokids := no_tombstone_child hsorted hp hp0
  have hsel : ∀ x ∈ subnodes head, decide (x.addr = prev.addr) = true → x = prev := by
    intro x hx hxa
    exact eq_of_addr_eq hna hx hp (by simpa using hxa)
  have hnew : ∀ (P : EditTreeNode → Prop),
      (∀ n n2 : EditTreeNode, n.addr = n2.addr → n.char = n2.char → n.id = n2.id →
        n.next.map (fun c => (c.addr, c.char, c.id))
          = n2.next.map (fun c => (c.addr, c.char, c.id)) → P n → P n2) →
      (∀ x ∈ subnodes head, P x) →
      P (.mk prev.addr prev.char prev.id (.mk d.nextAddr e.char e.id [] :: prev.next)) →
      P (.mk d.nextAddr e.char e.id []) → ∀ q ∈ subnodes head2, P q := by
    intro P hP hall hmod hleafP
    rw [hhead2]
    refine forall_setNextBy P hP _ _ head hall (fun x hx hxs q hq => ?_)
    have hxp := hsel x hx hxs
    subst hxp
    rw [subnodes_mk] at hq
    rcases List.mem_cons.1 hq with hq | hq
    · rw [hq]; exact hmod
    · rw [List.flatMap_cons, subnodes_mk] at hq
      simp only [List.flatMap_nil, List.cons_append, List.nil_append] at hq
      rcases List.mem_cons.1 hq with hq | hq
      · rw [hq]; exact hleafP
      · obtain ⟨ch, hch, hqc⟩ := List.mem_flatMap.1 hq
        exact hall q (subnodes_trans head hx (subnodes_trans x (child_mem_subnodes hch) hqc))
  have hversions : ((subnodes head2).map (fun x => x.id.version)).Perm
      (e.id.version :: (subnodes head).map (fun x => x.id.version)) := by
    have := hids.map (fun (id : ID) => id.version)
    simpa [idsOf, List.map_map] using this
  have hmodmem : EditTreeNode.mk prev.addr prev.char prev.id
      (.mk d.nextAddr e.char e.id [] :: prev.next) ∈ subnodes head2 := by
    rw [hhead2]
    exact mem_setNextBy (fun a _ => decide (a = prev.addr))
      (fun _ next => EditTreeNode.mk d.nextAddr e.char e.id [] :: next) head prev hp
      (by simp) hsel
  have hanch := ApplyAt_anchors hH hna hbound hsorted hroot.2.1 hAL h
  refine ⟨⟨ApplyAt_actorIDs hA h, ?_, _, head2, hE2, hH2, hwf2, ?_, ?_, ?_, ?_, ?_, ?_⟩, ?_⟩
  · rw [hmax2, hM, hev]
    omega
  · intro x hx
    have hx2 := (List.Perm.mem_iff hversions).1 (List.mem_map.2 ⟨x, hx, rfl⟩)
    rcases List.mem_cons.1 hx2 with hx2 | hx2
    · omega
    · obtain ⟨y, hy, hye⟩ := List.mem_map.1 hx2
      have := hv y hy
      omega
  · refine (List.Perm.nodup_iff hversions).2 (List.nodup_cons.2 ⟨?_, hvn⟩)
    intro hin
    obtain ⟨y, hy, hye⟩ := List.mem_map.1 hin
    have := hv y hy
    omega
  · obtain ⟨h1, h2, h3⟩ := setNextBy_addr (fun a _ => decide (a = prev.addr))
      (fun _ next => EditTreeNode.mk d.nextAddr e.char e.id [] :: next) head
    rw [hhead2]
    refine ⟨by rw [h3]; exact hroot.1, by rw [h2]; exact hroot.2.1, ?_⟩
    cases head with
    | mk ha hc hid hnext =>
      rw [setNextBy_mk]
      split
      · rename_i hs
        have hhp := hsel _ (self_mem_subnodes _) hs
        intro c hc
        simp only [EditTreeNode.next] at hc
        rcases List.mem_cons.1 hc with hc | hc
        · rw [hc]
          intro hdel
          apply hpr hdel
          rw [← hhp]
          exact hroot.1
        · exact hroot.2.2 c hc
      · intro c hc
        simp only [EditTreeNode.next] at hc
        obtain ⟨c0, hc0, hce⟩ := List.mem_map.1 hc
        rw [← hce, (setNextBy_addr _ _ c0).2.1]
        exact hroot.2.2 c0 hc0
  · refine hnew (fun x => x.char = delete → x.next = []) ?_ hleaf ?_ (fun _ => rfl)
    · intro x x2 _ hc _ hnx hPx hx2
      have := hPx (by rw [hc]; exact hx2)
      rw [this] at hnx
      simpa using hnx.symm
    · intro hdel
      exact absurd hdel hpc
  · refine hnew (fun x => (x.next.filter (fun c => decide (c.char = delete))).length ≤ 1)
      ?_ hone ?_ (by simp [EditTreeNode.next])
    · intro x x2 _ _ _ hnx hPx
      rw [← filter_tombstones_of_labels hnx]
      exact hPx
    · show ((EditTreeNode.mk d.nextAddr e.char e.id [] :: prev.next).filter
          (fun c => decide (c.char = delete))).length ≤ 1
      rw [List.filter_cons, filter_tombstones_nil hnokids]
      split <;> simp
  · intro l hl a ha
    obtain ⟨hlt, hlive⟩ := hanch l hl a ha
    refine ⟨by rw [hnext2]; omega, ?_⟩
    refine hnew (fun x => x.addr = a.node → x.char ≠ delete) ?_ hlive (fun _ => hpc) ?_
    · intro x x2 ha2 hc2 _ _ hPx hx2
      rw [← hc2]
      exact hPx (by rw [ha2]; exact hx2)
    · intro hadd
      simp only [EditTreeNode.addr] at hadd
      omega
  · unfold Document.nodeOf
    rw [hE2, hH2]
    change (lookupEdits ((e.id, d.nextAddr) :: m) prev.id).bind _ = _
    have hne : ¬ e.id = prev.id := by
      intro heq
      exact hfresh (by rw [heq]; exact List.mem_map.2 ⟨prev, hp, rfl⟩)
    have hlk : lookupEdits m prev.id = some prev.addr :=
      (hmap prev.id prev.addr).2 (List.mem_map.2 ⟨prev, hp, rfl⟩)
    rw [lookupEdits_cons, if_neg hne, hlk]
    exact findNode_of_mem hwf2.1 hmodmem

end UDT
namespace UDT

/-! ## Local edits keep ids fresh -/

theorem ensureSkipList_error {d : Document} {p : Failure} (h : d.ensureSkipList = .error p) :
    p = .nilDeref := by
  unfold Document.ensureSkipList at h
  split at h
  · cases h
  · split at h
    · simp only [Except.error.injEq] at h
      exact h.symm
    · cases h

/-- The failures of `predForIndex` are the nil dereference and the index out of
bounds. -/
theorem predForIndex_error {d : Document} {i : Nat} {p : Failure}
    (h : d.predForIndex i = .error p) : p = .nilDeref ∨ p = .outOfBounds := by
  unfold Document.predForIndex at h
  split at h
  · split at h
    · simp only [Except.error.injEq] at h
      exact Or.inl h.symm
    · cases h
  · split at h
    · rename_i q hq
      simp only [Except.error.injEq] at h
      rw [← h]
      exact Or.inl (ensureSkipList_error hq)
    · simp only at h
      split at h
      · simp only [Except.error.injEq] at h
        exact Or.inl h.symm
      · split at h
        · simp only [Except.error.injEq] at h
          exact Or.inl h.symm
        · split at h
          · simp only [Except.error.injEq] at h
            exact Or.inr h.symm
          · cases h

/-- What `predForIndex` gives `Insert` on a document of local edits: the same
document up to the skip list, still one of local edits, and a predecessor that is
no tombstone and has no leading tombstone child. -/
theorem predForIndex_local {d d1 : Document} {i n : Nat} {pred head : EditTreeNode}
    (hL : d.Local n) (hH : d.head = some head) (h : d.predForIndex i = .ok (pred, d1)) :
    d1.Local n ∧ d1.head = some head ∧ d1.nextAddr = d.nextAddr ∧
      d1.maxVersion = d.maxVersion ∧ pred ∈ subnodes head ∧ pred.char ≠ delete ∧
      deleteCount pred.next = 0 ∧ (i ≠ 0 → pred.id.version ≠ 0) := by
  obtain ⟨hA, hM, m, head0, hE, hH0, hwf, hv, hvn, hroot, hleaf, hone, hAL⟩ := hL
  rw [hH] at hH0
  simp only [Option.some.injEq] at hH0
  subst hH0
  obtain ⟨hp, hpc, hi0, hi1, hd1, hAL1⟩ :=
    predForIndex_live hH hwf.1 hwf.2.2.1 hwf.2.2.2.2 hroot.2.1 hAL h
  generalize d1.skipList = sl at hd1 hAL1
  subst hd1
  refine ⟨⟨hA, hM, m, head, hE, hH, hwf, hv, hvn, hroot, hleaf, hone, hAL1⟩, hH, rfl, rfl, hp,
    hpc, ?_, fun hi => (hi1 hi).2⟩
  by_cases hi : i = 0
  · rw [hi0 hi]
    exact deleteCount_eq_zero hroot.2.2
  · exact (hi1 hi).1

/-- One `Insert` on a document of `n` local edits, of a character other than the
tombstone rune or at an index other than zero. -/
theorem Insert_local {d : Document} {a : List Nat} {i n : Nat} {c : Int}
    (hL : d.Local n) (hn : n + 1 < 4294967296) (hci : c = delete → i ≠ 0) :
    d.Insert a i c ≠ .error .duplicate ∧
      ∀ e d2, d.Insert a i c = .ok (e, d2) → d2.Local (n + 1) ∧ d.PlacedFirst d2 := by
  have hL0 := hL
  obtain ⟨hA, hM, m, head, hE, hH, hwf, hv, hvn, hroot, hleaf, hone, hAL⟩ := hL
  have hver : (d.maxVersion + 1) % 4294967296 = n + 1 := by
    rw [hM, Nat.mod_eq_of_lt hn]
  constructor
  · intro hdup
    unfold Document.Insert at hdup
    split at hdup
    · cases hdup
    · split at hdup
      · rename_i p hp
        simp only [Except.error.injEq] at hdup
        rcases predForIndex_error hp with h | h <;> rw [h] at hdup <;> cases hdup
      · rename_i pred d1 hpred
        obtain ⟨hL1, hH1, -, -, hp, hpc, hp0, -⟩ := predForIndex_local hL0 hH hpred
        obtain ⟨hA1, -, m1, head1, hE1, hH1b, hwf1, -⟩ := hL1
        rw [hH1] at hH1b
        simp only [Option.some.injEq] at hH1b
        subst hH1b
        have hlk : lookupEdits m1 pred.id = some pred.addr :=
          (hwf1.2.2.2.1 pred.id pred.addr).2 (List.mem_map.2 ⟨pred, hp, rfl⟩)
        have hloop := applyAtLoop_zero pred
          { char := c, id := { actorID := a, version := (d.maxVersion + 1) % 4294967296 },
            prev := pred.id } pred.next
          (by
            intro ch hch
            have := hv ch (subnodes_trans head hp (child_mem_subnodes hch))
            show ch.id.version < (d.maxVersion + 1) % 4294967296
            rw [hver]
            omega) hp0
        obtain ⟨d2, hd2⟩ := ApplyAt_isOk i hA1 hE1 hH1 hlk
          (findNode_of_mem hwf1.1 hp) hloop
        simp only at hdup
        rw [hd2] at hdup
        cases hdup
  · intro e d2 h
    obtain ⟨pred, d1, -, hpred, he, happ⟩ := Insert_ok h
    obtain ⟨hL1, hH1, hN1, hM1, hp, hpc, hp0, hpv⟩ := predForIndex_local hL0 hH hpred
    have hev : e.id.version = n + 1 := by rw [he]; exact hver
    have hprev : e.prev = pred.id := by rw [he]
    have hech : e.char = c := by rw [he]
    obtain ⟨hL2, hnode⟩ := ApplyAt_local hL1 hH1 hp hpc hp0
      (fun hdel => hpv (hci (by rw [← hech]; exact hdel))) hev hprev happ
    refine ⟨hL2, head, pred, .mk d1.nextAddr e.char e.id [], hH, hp, hpc,
      no_tombstone_child hwf.2.2.2.2 hp hp0, ?_, ?_, rfl, hnode⟩
    · show e.id.version = d.maxVersion + 1
      rw [hev, hM]
    · intro x hx
      show x.id.version < e.id.version
      have := hv x hx
      omega

/-- One plain call on a document of `n` local edits. -/
theorem call_local {d : Document} {o : Op} {n : Nat} (hL : d.Local n)
    (hn : n + 1 < 4294967296) (ho : o.plain) :
    d.call o ≠ .error .duplicate ∧
      ∀ d2, d.call o = .ok d2 → d2.Local (n + 1) ∧ d.PlacedFirst d2 := by
  have hEs : d.Edits.isNone = false := by
    obtain ⟨-, -, m, -, hE, -⟩ := hL
    rw [hE]
    rfl
  cases o with
  | ins a i c =>
    have hI := Insert_local (a := a) (i := i) (c := c) hL hn (fun hc => absurd hc ho)
    constructor
    · intro h
      simp only [Document.call] at h
      split at h
      · rename_i p hp
        simp only [Except.error.injEq] at h
        rw [h] at hp
        exact hI.1 hp
      · cases h
    · intro d2 h
      simp only [Document.call] at h
      split at h
      · cases h
      · rename_i r hr
        simp only [Except.ok.injEq] at h
        subst h
        exact hI.2 r.1 r.2 hr
  | rem a i =>
    have hidx : (i + 1) % 4294967296 ≠ 0 := by
      have hp : i + 1 < 4294967296 := ho
      rw [Nat.mod_eq_of_lt hp]
      omega
    have hI := Insert_local (a := a) (i := (i + 1) % 4294967296) (c := delete) hL hn
      (fun _ => hidx)
    constructor
    · intro h
      simp only [Document.call, Document.Remove, hEs, Bool.false_eq_true, if_false] at h
      split at h
      · rename_i p hp
        simp only [Except.error.injEq] at h
        rw [h] at hp
        exact hI.1 hp
      · cases h
    · intro d2 h
      simp only [Document.call, Document.Remove, hEs, Bool.false_eq_true, if_false] at h
      split at h
      · cases h
      · rename_i r hr
        simp only [Except.ok.injEq] at h
        subst h
        exact hI.2 r.1 r.2 hr

/-- A sequence of plain calls on a document of `n` local edits. -/
theorem calls_local : ∀ (ops : List Op) (d d2 : Document) (n : Nat), d.Local n →
    (∀ o ∈ ops, o.plain) → n + ops.length < 4294967296 → d.calls ops = .ok d2 →
    d2.Local (n + ops.length) := by
  intro ops
  induction ops with
  | nil =>
    intro d d2 n hL _ _ h
    simp only [Document.calls, Except.ok.injEq] at h
    subst h
    exact hL
  | cons o ops ih =>
    intro d d2 n hL hpl hlen h
    simp only [List.length_cons] at hlen
    simp only [Document.calls] at h
    split at h
    · cases h
    · rename_i d1 h1
      have hstep := (call_local hL (by omega) (hpl o (List.mem_cons_self _ _))).2 d1 h1
      have := ih d1 d2 (n + 1) hstep.1 (fun q hq => hpl q (List.mem_cons_of_mem _ hq))
        (by omega) h
      rw [List.length_cons]
      have he : n + (ops.length + 1) = n + 1 + ops.length := by omega
      rw [he]
      exact this

theorem New_local : New.Local 0 := by
  refine ⟨rfl, rfl, _, _, rfl, rfl, New_WF, ?_, ?_, ⟨rfl, by decide, ?_⟩, ?_, ?_, ?_⟩
  · intro x hx
    simp only [subnodes_mk, List.flatMap_nil, List.mem_singleton] at hx
    rw [hx]
    exact Nat.le_refl _
  · simp [subnodes_mk]
  · intro c hc
    cases hc
  · intro x hx _
    simp only [subnodes_mk, List.flatMap_nil, List.mem_singleton] at hx
    rw [hx]
    rfl
  · intro x hx
    simp only [subnodes_mk, List.flatMap_nil, List.mem_singleton] at hx
    rw [hx]
    simp [EditTreeNode.next]
  · intro l hl
    cases hl

theorem freshIds_of_local {d : Document} {n : Nat} (hL : d.Local n) : d.FreshIds := by
  obtain ⟨-, hM, m, head, -, hH, -, hv, hvn, -, hleaf, hone, -⟩ := hL
  refine ⟨head, hH, fun x hx => by rw [hM]; exact hv x hx, ?_, hleaf, hone⟩
  cases head with
  | mk a c id next =>
    rw [subnodes_mk] at hvn ⊢
    rw [List.map_cons, List.nodup_cons] at hvn
    exact hvn.2

theorem testOps_plain : ∀ o ∈ testOps, o.plain := by
  intro o ho
  simp only [testOps, List.mem_cons, List.mem_singleton, List.not_mem_nil, or_false] at ho
  rcases ho with h | h | h | h | h | h <;> subst h <;> simp [Op.plain, delete]

/-- C20 as stated fails for calls of `Insert` with the tombstone rune at index 0
(`Remove(a, 2^32 - 1)` is such a call, its index `index + 1` wraps to 0): none of
the calls fails, each puts a tombstone below the root, after two of them the
root has two tombstone children, and a following `Insert(a, 0, 'x')` places its
node at index 2 of the root's children, behind the tombstones. -/
theorem C20_tombstones_below_root :
    failureAfter [.ins [97] 0 delete, .ins [97] 0 delete, .ins [97] 0 120] = none ∧
      (docAfter [.ins [97] 0 delete, .ins [97] 0 delete]).childrenOf rootID
        = some [(⟨[97], 2⟩, true), (⟨[97], 1⟩, true)] ∧
      (docAfter [.ins [97] 0 delete, .ins [97] 0 delete, .ins [97] 0 120]).childrenOf rootID
        = some [(⟨[97], 2⟩, true), (⟨[97], 1⟩, true), (⟨[97], 3⟩, false)] ∧
      failureAfter [.rem [97] 4294967295] = none ∧
      (docAfter [.rem [97] 4294967295]).childrenOf rootID = some [(⟨[97], 1⟩, true)] := by
  decide!

/-- C20, amended: in every document reachable from `New()` by fewer than
`2^32 - 1` non-failing calls, each an `Insert` of a character other than the
tombstone rune or a `Remove` with an index below `2^32 - 1`, `maxVersion` is at
least the version of every node in the tree, all non-root nodes have pairwise
distinct versions, tombstones are leaves and every node has at most one
tombstone child; and each further such call never fails with DUPLICATE and, when
it does not fail, creates a leaf whose version `maxVersion + 1` is strictly
greater than every existing one and places it at index 0 of the children of its
predecessor, a node that is no tombstone (the root or a character) and has no
tombstone child, which leaves a document with the same properties. -/
theorem C20_fresh_ids (ops : List Op) (d : Document) (hplain : ∀ o ∈ ops, o.plain)
    (hlen : ops.length < 4294967295) (h : New.calls ops = .ok d) :
    d.FreshIds ∧
      ∀ o : Op, o.plain → d.call o ≠ .error .duplicate ∧
        ∀ d2, d.call o = .ok d2 → d.PlacedFirst d2 ∧ d2.FreshIds := by
  have hL := calls_local ops New d 0 New_local hplain (by omega) h
  refine ⟨freshIds_of_local hL, fun o ho => ?_⟩
  obtain ⟨h1, h2⟩ := call_local hL (by omega) ho
  exact ⟨h1, fun d2 hd2 => ⟨(h2 d2 hd2).2, freshIds_of_local (h2 d2 hd2).1⟩⟩

/-- The invariant of C20 for the document that the calls of `TestUDT` leave. -/
theorem C20_fresh_ids_witness :
    testDoc.FreshIds ∧
      ∀ o : Op, o.plain → testDoc.call o ≠ .error .duplicate ∧
        ∀ d2, testDoc.call o = .ok d2 → testDoc.PlacedFirst d2 ∧ d2.FreshIds :=
  C20_fresh_ids testOps testDoc testOps_plain (by decide) testDoc_eq

end UDT
namespace UDT

/-! ## What every call of `Insert` and `Remove` keeps -/

/-- One `ApplyAt` as `Insert` makes it: the predecessor is the root or a node
without leading tombstone child and with a version other than zero, no
tombstone; the id of the edit is not the id of the root, and its version is zero
or above every version in the tree. -/
theorem ApplyAt_grown {d d2 : Document} {e : Edit} {i : Nat} {head pred : EditTreeNode}
    (hG : d.Grown) (hH : d.head = some head) (hp : pred ∈ subnodes head)
    (hpc : pred.char ≠ delete)
    (hpk : pred.addr = head.addr ∨ (deleteCount pred.next = 0 ∧ pred.id.version ≠ 0))
    (hprev : e.prev = pred.id) (hroot : e.id ≠ rootID)
    (hfresh : e.id.version = 0 ∨ ∀ x ∈ subnodes head, x.id.version < e.id.version)
    (hev : e.id.version < 4294967296)
    (h : d.ApplyAt e i = .ok d2) : d2.Grown := by
  obtain ⟨hmv, m, head0, hE, hH0, hna, hb, hs, hrt, hv, hmap, hleaf, hone, hAL⟩ := hG
  rw [hH] at hH0
  simp only [Option.some.injEq] at hH0
  subst hH0
  obtain ⟨m0, head0, prevAddr, prev, idx, hE0, hH0, hlook, hfind, -, hhead2, hE2, hnext2,
    hmax2, -, -⟩ := ApplyAt_ok h
  rw [hE] at hE0
  rw [hH] at hH0
  simp only [Option.some.injEq] at hE0 hH0
  subst hE0 hH0
  obtain ⟨head2, hH2, hna2, hb2, hs2⟩ := ApplyAt_sorted hH hna hb hs h
  -- the predecessor found through `Edits` is `pred`
  have husable : pred.id.version ≠ 0 ∨ pred.addr = head.addr := by
    rcases hpk with h1 | h1
    · exact Or.inr h1
    · exact Or.inl h1.2
  have hlk := hmap pred hp husable
  rw [hprev, hlk] at hlook
  simp only [Option.some.injEq] at hlook
  have hpm := findNode_mem _ _ _ hfind
  have hprevp : prev = pred := eq_of_addr_eq hna hpm.1 hp (by rw [hpm.2, hlook])
  subst hprevp
  rw [setNext_eq_setNextBy, hH2, ← hlook] at hhead2
  simp only [Option.some.injEq] at hhead2
  have hsel : ∀ x ∈ subnodes head, decide (x.addr = prev.addr) = true → x = prev := by
    intro x hx hxa
    exact eq_of_addr_eq hna hx hp (by simpa using hxa)
  have hnew : ∀ (P : EditTreeNode → Prop),
      (∀ n n2 : EditTreeNode, n.addr = n2.addr → n.char = n2.char → n.id = n2.id →
        n.next.map (fun c => (c.addr, c.char, c.id))
          = n2.next.map (fun c => (c.addr, c.char, c.id)) → P n → P n2) →
      (∀ x ∈ subnodes head, P x) →
      P (.mk prev.addr prev.char prev.id
        (slicesInsert prev.next idx (.mk d.nextAddr e.char e.id []))) →
      P (.mk d.nextAddr e.char e.id []) → ∀ q ∈ subnodes head2, P q := by
    intro P hP hall hmod hleafP
    rw [hhead2]
    refine forall_setNextBy P hP _ _ head hall (fun x hx hxs q hq => ?_)
    have hxp := hsel x hx hxs
    subst hxp
    rw [subnodes_mk] at hq
    rcases List.mem_cons.1 hq with hq | hq
    · rw [hq]; exact hmod
    · obtain ⟨ch, hch, hqc⟩ := List.mem_flatMap.1 hq
      rcases List.mem_cons.1 ((List.Perm.mem_iff (slicesInsert_perm _ _ _)).1 hch) with hc | hc
      · rw [hc, subnodes_mk] at hqc
        simp only [List.flatMap_nil, List.mem_singleton] at hqc
        rw [hqc]; exact hleafP
      · exact hall q (subnodes_trans head hx (subnodes_trans x (child_mem_subnodes hc) hqc))
  have hhead_addr : head2.addr = head.addr ∧ head2.char = head.char ∧ head2.id = head.id := by
    rw [hhead2]
    exact setNextBy_addr _ _ head
  have hanch := ApplyAt_anchors hH hna hb hs hrt.2 hAL h
  have hne_old : ∀ x ∈ subnodes head, x.id.version ≠ 0 ∨ x.addr = head.addr →
      ¬ e.id = x.id := by
    intro x hx hu heq
    rcases hu with hu | hu
    · rcases hfresh with hf | hf
      · rw [heq] at hf
        exact hu hf
      · have := hf x hx
        rw [heq] at this
        omega
    · have hxh : x = head := eq_of_addr_eq hna hx (self_mem_subnodes head) hu
      rw [hxh, hrt.1] at heq
      exact hroot heq
  refine ⟨?_, _, head2, hE2, hH2, hna2, hb2, hs2, ⟨by rw [hhead_addr.2.2]; exact hrt.1,
    by rw [hhead_addr.2.1]; exact hrt.2⟩, ?_, ?_, ?_, ?_, ?_⟩
  · rw [hmax2]
    exact max_lt hmv hev
  · refine hnew (fun x => x.id.version ≤ d2.maxVersion) ?_ ?_ ?_ ?_
    · intro x x2 _ _ hid _ hPx
      rw [← hid]
      exact hPx
    · intro x hx
      have := hv x hx
      rw [hmax2]
      exact le_trans this (le_max_left _ _)
    · show prev.id.version ≤ d2.maxVersion
      have := hv prev hp
      rw [hmax2]
      exact le_trans this (le_max_left _ _)
    · show e.id.version ≤ d2.maxVersion
      rw [hmax2]
      exact le_max_right _ _
  · rw [hhead_addr.1]
    refine hnew (fun x => x.id.version ≠ 0 ∨ x.addr = head.addr →
        lookupEdits ((e.id, d.nextAddr) :: m) x.id = some x.addr) ?_ ?_ ?_ ?_
    · intro x x2 ha _ hid _ hPx hu
      rw [← hid, ← ha]
      exact hPx (by rw [hid, ha]; exact hu)
    · intro x hx hu
      rw [lookupEdits_cons, if_neg (hne_old x hx hu)]
      exact hmap x hx hu
    · intro _
      show lookupEdits ((e.id, d.nextAddr) :: m) prev.id = some prev.addr
      rw [lookupEdits_cons, if_neg (hne_old prev hp husable)]
      exact hlk
    · intro _
      show lookupEdits ((e.id, d.nextAddr) :: m) e.id = some d.nextAddr
      rw [lookupEdits_cons, if_pos rfl]
  · refine hnew (fun x => x.char = delete → x.next = []) ?_ hleaf ?_ (fun _ => rfl)
    · intro x x2 _ hc _ hnx hPx hx2
      have := hPx (by rw [hc]; exact hx2)
      rw [this] at hnx
      simpa using hnx.symm
    · intro hdel
      exact absurd hdel hpc
  · rw [hhead_addr.1]
    refine hnew (fun x => x.addr ≠ head.addr →
        (x.next.filter (fun c => decide (c.char = delete))).length ≤ 1) ?_ hone ?_
        (fun _ => by simp [EditTreeNode.next])
    · intro x x2 ha _ _ hnx hPx hx2
      rw [← filter_tombstones_of_labels hnx]
      exact hPx (by rw [ha]; exact hx2)
    · intro hnr
      have hnr2 : prev.addr ≠ head.addr := hnr
      rcases hpk with h1 | h1
      · exact absurd h1 hnr2
      · have hnokids := no_tombstone_child hs hp h1.1
        show ((slicesInsert prev.next idx (EditTreeNode.mk d.nextAddr e.char e.id [])).filter
          (fun c => decide (c.char = delete))).length ≤ 1
        rw [((slicesInsert_perm prev.next idx _).filter _).length_eq, List.filter_cons,
          filter_tombstones_nil hnokids]
        split <;> simp
  · intro l hl a ha
    obtain ⟨hlt, hlive⟩ := hanch l hl a ha
    refine ⟨by rw [hnext2]; omega, ?_⟩
    refine hnew (fun x => x.addr = a.node → x.char ≠ delete) ?_ hlive (fun _ => hpc) ?_
    · intro x x2 ha2 hc2 _ _ hPx hx2
      rw [← hc2]
      exact hPx (by rw [ha2]; exact hx2)
    · intro hadd
      simp only [EditTreeNode.addr] at hadd
      omega

/-- One `Insert`, whatever the index and the character, by an actor with a name
or before the version counter wraps. -/
theorem Insert_grown {d d2 : Document} {a : List Nat} {i : Nat} {c : Int} {e : Edit}
    (hG : d.Grown) (hid : (d.maxVersion + 1) % 4294967296 ≠ 0 ∨ a ≠ [])
    (h : d.Insert a i c = .ok (e, d2)) :
    d2.Grown ∧ d2.maxVersion ≤ d.maxVersion + 1 := by
  obtain ⟨pred, d1, -, hpred, he, happ⟩ := Insert_ok h
  have hG0 := hG
  obtain ⟨hmv, m, head, hE, hH, hna, hb, hs, hrt, hv, hmap, hleaf, hone, hAL⟩ := hG
  obtain ⟨hp, hpc, hi0, hi1, hd1, hAL1⟩ := predForIndex_live hH hna hb hs hrt.2 hAL hpred
  generalize d1.skipList = sl at hd1 hAL1
  subst hd1
  have hG1 : Document.Grown { d with skipList := sl } :=
    ⟨hmv, m, head, hE, hH, hna, hb, hs, hrt, hv, hmap, hleaf, hone, hAL1⟩
  have hver : e.id.version = (d.maxVersion + 1) % 4294967296 := by rw [he]
  have hpk : pred.addr = head.addr ∨ (deleteCount pred.next = 0 ∧ pred.id.version ≠ 0) := by
    by_cases hi : i = 0
    · left
      rw [hi0 hi]
    · exact Or.inr (hi1 hi)
  have hroot : e.id ≠ rootID := by
    intro heq
    rcases hid with h1 | h1
    · apply h1
      rw [← hver, heq]
      rfl
    · apply h1
      have : e.id.actorID = a := by rw [he]
      rw [← this, heq]
      rfl
  have hfresh : e.id.version = 0 ∨ ∀ x ∈ subnodes head, x.id.version < e.id.version := by
    by_cases h0 : e.id.version = 0
    · exact Or.inl h0
    · right
      intro x hx
      have := hv x hx
      rw [hver] at h0 ⊢
      omega
  have hev : e.id.version < 4294967296 := by
    rw [hver]
    exact Nat.mod_lt _ (by decide)
  refine ⟨ApplyAt_grown hG1 hH hp hpc hpk (by rw [he]) hroot hfresh hev happ, ?_⟩
  obtain ⟨-, -, -, -, -, -, -, -, -, -, -, -, -, hmax2, -, -⟩ := ApplyAt_ok happ
  rw [hmax2]
  show max d.maxVersion e.id.version ≤ d.maxVersion + 1
  rw [hver]
  have := Nat.mod_le (d.maxVersion + 1) 4294967296
  exact max_le (by omega) this

theorem call_grown {d d2 : Document} {o : Op} (hG : d.Grown)
    (hid : (d.maxVersion + 1) % 4294967296 ≠ 0 ∨ o.actor ≠ [])
    (h : d.call o = .ok d2) : d2.Grown ∧ d2.maxVersion ≤ d.maxVersion + 1 := by
  cases o with
  | ins a i c =>
    simp only [Document.call] at h
    split at h
    · cases h
    · rename_i r hr
      simp only [Except.ok.injEq] at h
      subst h
      exact Insert_grown (e := r.1) hG hid hr
  | rem a i =>
    simp only [Document.call, Document.Remove] at h
    split at h
    · cases h
    · rename_i r hr
      simp only [Except.ok.injEq] at h
      subst h
      split at hr
      · cases hr
      · exact Insert_grown (e := r.1) hG hid hr

/-- Every sequence of at most `2^32 - 1` calls, and every sequence of calls by
actors with a name, keeps the document grown. -/
theorem calls_grown : ∀ (ops : List Op) (d d2 : Document) (n : Nat), d.Grown →
    d.maxVersion ≤ n → (n + ops.length < 4294967296 ∨ ∀ o ∈ ops, o.actor ≠ []) →
    d.calls ops = .ok d2 → d2.Grown := by
  intro ops
  induction ops with
  | nil =>
    intro d d2 n hG _ _ h
    simp only [Document.calls, Except.ok.injEq] at h
    subst h
    exact hG
  | cons o ops ih =>
    intro d d2 n hG hn hops h
    simp only [Document.calls] at h
    split at h
    · cases h
    · rename_i d1 h1
      have hid : (d.maxVersion + 1) % 4294967296 ≠ 0 ∨ o.actor ≠ [] := by
        rcases hops with hl | hl
        · left
          simp only [List.length_cons] at hl
          rw [Nat.mod_eq_of_lt (by omega)]
          omega
        · exact Or.inr (hl o (List.mem_cons_self _ _))
      obtain ⟨hG1, hm1⟩ := call_grown hG hid h1
      refine ih d1 d2 (n + 1) hG1 (by omega) ?_ h
      rcases hops with hl | hl
      · left
        simp only [List.length_cons] at hl
        omega
      · exact Or.inr (fun q hq => hl q (List.mem_cons_of_mem _ hq))

theorem New_grown : New.Grown := by
  refine ⟨by decide, _, _, rfl, rfl, New_WF.1, New_WF.2.2.1, New_WF.2.2.2.2, ⟨rfl, by decide⟩,
    ?_, ?_, ?_, ?_, ?_⟩
  · intro x hx
    simp only [subnodes_mk, List.flatMap_nil, List.mem_singleton] at hx
    rw [hx]
    exact Nat.le_refl _
  · intro x hx _
    simp only [subnodes_mk, List.flatMap_nil, List.mem_singleton] at hx
    rw [hx]
    rfl
  · intro x hx _
    simp only [subnodes_mk, List.flatMap_nil, List.mem_singleton] at hx
    rw [hx]
    rfl
  · intro x hx _
    simp only [subnodes_mk, List.flatMap_nil, List.mem_singleton] at hx
    rw [hx]
    simp [EditTreeNode.next]
  · intro l hl
    cases hl

end UDT
namespace UDT

/-! ## The number of tokens of the backing column -/

theorem deleteCount_le_filter : ∀ (l : List EditTreeNode),
    deleteCount l ≤ (l.filter (fun c => decide (c.char = delete))).length := by
  intro l
  induction l with
  | nil => exact Nat.le_refl _
  | cons c cs ih =>
    rw [deleteCount]
    by_cases hc : c.char = delete
    · rw [if_pos hc, List.filter_cons_of_pos (by simpa using hc), List.length_cons]
      omega
    · rw [if_neg hc]
      exact Nat.zero_le _

theorem rows_mem_aux (et : EditTreeNode) : ∀ (l : List EditTreeNode),
    (∀ n ∈ l, ∀ r ∈ rowsOf n, r.1 ∈ (subnodes n).tail) →
    ∀ r ∈ l.flatMap (fun n => (n, et) :: rowsOf n), r.1 ∈ l.flatMap subnodes := by
  intro l ih r hr
  obtain ⟨n, hn, hrn⟩ := List.mem_flatMap.1 hr
  refine List.mem_flatMap.2 ⟨n, hn, ?_⟩
  rcases List.mem_cons.1 hrn with h | h
  · rw [h]
    exact self_mem_subnodes n
  · exact List.mem_of_mem_tail (ih n hn r h)

/-- The node of a row is a node of the tree other than the root. -/
theorem rowsOf_mem (t : EditTreeNode) : ∀ r ∈ rowsOf t, r.1 ∈ (subnodes t).tail := by
  induction t using EditTreeNode.ind with
  | mk a c id next ih =>
    intro r hr
    rw [rowsOf_mk] at hr
    rw [subnodes_mk, List.tail_cons]
    exact rows_mem_aux _ next ih r hr

/-- A tombstone without children appends nothing to the backing column, a
character with at most one tombstone child one token. -/
theorem backingTokens_length {et : EditTreeNode} (hleaf : et.char = delete → et.next = [])
    (hone : (et.next.filter (fun c => decide (c.char = delete))).length ≤ 1) :
    (backingTokens et).length = if et.char = delete then 0 else 1 := by
  unfold backingTokens
  by_cases hc : et.char = delete
  · rw [hleaf hc]
    simp [deleteCount, hc]
  · have := deleteCount_le_filter et.next
    simp only [hc, if_false]
    split
    · rw [List.length_replicate]
      omega
    · rfl

theorem flatMap_backing_count : ∀ (l : List EditTreeNode),
    (∀ et ∈ l, (backingTokens et).length = if et.char = delete then 0 else 1) →
    (l.flatMap backingTokens).length
      = (l.filter (fun et => decide (et.char ≠ delete))).length := by
  intro l
  induction l with
  | nil => intro _; rfl
  | cons x xs ih =>
    intro h
    rw [List.flatMap_cons, List.length_append, h x (List.mem_cons_self _ _),
      ih (fun et het => h et (List.mem_cons_of_mem _ het)), List.filter_cons]
    by_cases hc : x.char = delete
    · simp [hc]
    · simp [hc]
      omega

/-- In a grown document the backing column gets one token for every row whose
node is a character, and none for the other rows. -/
theorem grown_backing_count {d : Document} {head : EditTreeNode} (hG : d.Grown)
    (hH : d.head = some head) :
    (((editRows head).map Prod.fst).flatMap backingTokens).length
      = (((editRows head).map Prod.fst).filter
          (fun et => decide (et.char ≠ delete))).length := by
  obtain ⟨-, m, head0, -, hH0, hna, -, -, -, -, -, hleaf, hone, -⟩ := hG
  rw [hH] at hH0
  simp only [Option.some.injEq] at hH0
  subst hH0
  refine flatMap_backing_count _ (fun et het => ?_)
  obtain ⟨r, hr, hre⟩ := List.mem_map.1 het
  rw [editRows_eq] at hr
  have htail := rowsOf_mem head r hr
  rw [hre] at htail
  have hmem : et ∈ subnodes head := List.mem_of_mem_tail htail
  have haddr : et.addr ≠ head.addr := by
    intro heq
    cases head with
    | mk a c id next =>
      rw [addrsOf, subnodes_mk, List.map_cons, List.nodup_cons] at hna
      rw [subnodes_mk, List.tail_cons] at htail
      exact hna.1 (List.mem_map.2 ⟨et, htail, heq⟩)
  exact backingTokens_length (hleaf et hmem) (hone et hmem haddr)

/-- C19, amended: for every document reachable from `New()` by non-failing
`Insert` and `Remove` calls, at most `2^32 - 1` of them or all of them by actors
with a non-empty id, `EditsInOrder` gives one row per non-root node, and during
`WriteTo` the two columns of the predecessor-ID encoder and the two columns of
the self-ID encoder are appended exactly one token per row, while the number of
tokens appended to the backing column equals the number of rows whose node is a
character: the encoder is appended, row by row, the tokens of
`BackingEncoder.Append`, which are none for a tombstone and one for a
character. -/
theorem C19_columns (ops : List Op) (d : Document)
    (hops : ops.length < 4294967296 ∨ ∀ o ∈ ops, o.actor ≠ [])
    (h : New.calls ops = .ok d) :
    ∃ head s, d.head = some head ∧ d.columns = some s ∧
      (editRows head).length + 1 = (subnodes head).length ∧
      s.1.rle = rleAfter (((editRows head).map Prod.fst).flatMap backingTokens) ∧
      (((editRows head).map Prod.fst).flatMap backingTokens).length
        = (((editRows head).map Prod.fst).filter
            (fun et => decide (et.char ≠ delete))).length ∧
      s.2.1.actorOffset
        = rleAfter (actorTokens d.lookup ((editRows head).map fun r => (r.2.id, lozenge))) ∧
      s.2.1.version
        = rleAfter (versionTokens ⟨0⟩ ⟨0⟩ ((editRows head).map fun r => (r.2.id, lozenge))) ∧
      s.2.2.actorOffset
        = rleAfter (actorTokens d.lookup ((editRows head).map fun r => (r.1.id, r.1.char))) ∧
      s.2.2.version
        = rleAfter (versionTokens ⟨0⟩ ⟨0⟩
            ((editRows head).map fun r => (r.1.id, r.1.char))) ∧
      (actorTokens d.lookup ((editRows head).map fun r => (r.2.id, lozenge))).length
        = (editRows head).length ∧
      (versionTokens ⟨0⟩ ⟨0⟩ ((editRows head).map fun r => (r.2.id, lozenge))).length
        = (editRows head).length ∧
      (actorTokens d.lookup ((editRows head).map fun r => (r.1.id, r.1.char))).length
        = (editRows head).length ∧
      (versionTokens ⟨0⟩ ⟨0⟩ ((editRows head).map fun r => (r.1.id, r.1.char))).length
        = (editRows head).length := by
  have hG : d.Grown := calls_grown ops New d 0 New_grown (Nat.le_refl _)
    (by rw [Nat.zero_add]; exact hops) h
  obtain ⟨head, hH⟩ := Option.isSome_iff_exists.1 (calls_tree ops h ⟨rfl, rfl⟩).2
  obtain ⟨s, hs, h1, h2, h3, h4, h5⟩ := columns_of_head hH
  refine ⟨head, s, hH, hs, ?_, h1, grown_backing_count hG hH, h2, h3, h4, h5, ?_, ?_, ?_, ?_⟩
  · rw [editRows_eq]
    exact rowsOf_length head
  · simp [actorTokens]
  · rw [versionTokens_length, List.length_map]
  · simp [actorTokens]
  · rw [versionTokens_length, List.length_map]

/-- The columns of the document left by `Insert(a, 0, 'a')` and `Remove(a, 0)`. -/
theorem C19_columns_witness :
    ∃ head s, (docAfter [.ins [97] 0 97, .rem [97] 0]).head = some head ∧
      (docAfter [.ins [97] 0 97, .rem [97] 0]).columns = some s ∧
      (editRows head).length + 1 = (subnodes head).length ∧
      s.1.rle = rleAfter (((editRows head).map Prod.fst).flatMap backingTokens) ∧
      (((editRows head).map Prod.fst).flatMap backingTokens).length
        = (((editRows head).map Prod.fst).filter
            (fun et => decide (et.char ≠ delete))).length ∧
      s.2.1.actorOffset
        = rleAfter (actorTokens (docAfter [.ins [97] 0 97, .rem [97] 0]).lookup
            ((editRows head).map fun r => (r.2.id, lozenge))) ∧
      s.2.1.version
        = rleAfter (versionTokens ⟨0⟩ ⟨0⟩ ((editRows head).map fun r => (r.2.id, lozenge))) ∧
      s.2.2.actorOffset
        = rleAfter (actorTokens (docAfter [.ins [97] 0 97, .rem [97] 0]).lookup
            ((editRows head).map fun r => (r.1.id, r.1.char))) ∧
      s.2.2.version
        = rleAfter (versionTokens ⟨0⟩ ⟨0⟩
            ((editRows head).map fun r => (r.1.id, r.1.char))) ∧
      (actorTokens (docAfter [.ins [97] 0 97, .rem [97] 0]).lookup
          ((editRows head).map fun r => (r.2.id, lozenge))).length = (editRows head).length ∧
      (versionTokens ⟨0⟩ ⟨0⟩ ((editRows head).map fun r => (r.2.id, lozenge))).length
        = (editRows head).length ∧
      (actorTokens (docAfter [.ins [97] 0 97, .rem [97] 0]).lookup
          ((editRows head).map fun r => (r.1.id, r.1.char))).length = (editRows head).length ∧
      (versionTokens ⟨0⟩ ⟨0⟩ ((editRows head).map fun r => (r.1.id, r.1.char))).length
        = (editRows head).length :=
  C19_columns [.ins [97] 0 97, .rem [97] 0] (docAfter [.ins [97] 0 97, .rem [97] 0])
    (Or.inl (by decide)) (calls_docAfter failure_insert_remove)

end UDT
namespace UDT

/-! ## After the version counter has wrapped -/

theorem calls_append : ∀ (l1 l2 : List Op) (d d1 : Document), d.calls l1 = .ok d1 →
    d.calls (l1 ++ l2) = d1.calls l2 := by
  intro l1
  induction l1 with
  | nil =>
    intro l2 d d1 h
    simp only [Document.calls, Except.ok.injEq] at h
    rw [h]
    rfl
  | cons o l1 ih =>
    intro l2 d d1 h
    rw [List.cons_append]
    rw [Document.calls] at h ⊢
    cases h0 : d.call o with
    | error p => rw [h0] at h; cases h
    | ok d0 =>
      rw [h0] at h
      exact ih l2 d0 d1 h

/-- A call `Insert(a, 0, c)` on a document whose map `Edits` leads from the id of
the root to the node `prev`: the new node goes below `prev`. -/
theorem Insert_at_zero {d : Document} (a : List Nat) (c : Int) {m : List (ID × Nat)}
    {head prev : EditTreeNode} {prevAddr idx : Nat}
    (hA : d.actorIDs.isSome = true) (hE : d.Edits = some m) (hH : d.head = some head)
    (hl : lookupEdits m head.id = some prevAddr) (hf : findNode prevAddr head = some prev)
    (hloop : applyAtLoop prev
      { char := c, id := ⟨a, (d.maxVersion + 1) % 4294967296⟩, prev := head.id }
      prev.next 0 = .ok idx) :
    ∃ d2, d.call (.ins a 0 c) = .ok d2 ∧ d2.actorIDs.isSome = true ∧
      d2.Edits = some ((⟨a, (d.maxVersion + 1) % 4294967296⟩, d.nextAddr) :: m) ∧
      d2.head = some (setNext prevAddr
        (slicesInsert · idx (.mk d.nextAddr c ⟨a, (d.maxVersion + 1) % 4294967296⟩ []))
        head) ∧
      d2.nextAddr = d.nextAddr + 1 ∧
      d2.maxVersion = max d.maxVersion ((d.maxVersion + 1) % 4294967296) := by
  obtain ⟨d2, h2⟩ := ApplyAt_isOk 0 hA hE hH hl hf hloop
  obtain ⟨m0, head0, prevAddr0, prev0, idx0, hE0, hH0, hlook, hfind, hloop0, hhead2, hE2,
    hnext2, hmax2, -, -⟩ := ApplyAt_ok h2
  rw [hE] at hE0
  rw [hH] at hH0
  simp only [Option.some.injEq] at hE0 hH0
  subst hE0 hH0
  change lookupEdits m head.id = some prevAddr0 at hlook
  rw [hl] at hlook
  simp only [Option.some.injEq] at hlook
  subst hlook
  rw [hf] at hfind
  simp only [Option.some.injEq] at hfind
  subst hfind
  rw [hloop] at hloop0
  simp only [Except.ok.injEq] at hloop0
  subst hloop0
  refine ⟨d2, ?_, ApplyAt_actorIDs hA h2, hE2, hhead2, hnext2, hmax2⟩
  simp only [Document.call, Document.Insert, hE, Option.isNone_some, Bool.false_eq_true,
    if_false, Document.predForIndex, if_true, hH, h2]

theorem setNextList_frontNodes (a : Nat) (g : List EditTreeNode → List EditTreeNode) :
    ∀ k, k < a → setNextList a g (frontNodes k) = frontNodes k := by
  intro k
  induction k with
  | zero => intro _; rfl
  | succ k ih =>
    intro hk
    have hne : ¬ k + 1 = a := by omega
    simp only [frontNodes, setNextList, setNext, hne, if_false]
    rw [ih (by omega)]

theorem rowsLoop_frontNodes (et : EditTreeNode) : ∀ k,
    (rowsLoop et (frontNodes k)).map Prod.fst = frontNodes k := by
  intro k
  induction k with
  | zero => rfl
  | succ k ih =>
    simp only [frontNodes, rowsLoop, rowsOf, List.nil_append, List.map_cons]
    rw [ih]

theorem backing_frontNodes : ∀ k, ((frontNodes k).flatMap backingTokens).length = k := by
  intro k
  induction k with
  | zero => rfl
  | succ k ih =>
    have h1 : backingTokens (.mk (k + 1) 65536 ⟨[97], k + 1⟩ []) = [[insertOp]] := by
      simp [backingTokens, deleteCount, EditTreeNode.next, EditTreeNode.char, delete]
    rw [frontNodes, List.flatMap_cons, h1, List.length_append, ih]
    simp only [List.length_singleton]
    omega

theorem live_frontNodes : ∀ k,
    ((frontNodes k).filter (fun et => decide (et.char ≠ delete))).length = k := by
  intro k
  induction k with
  | zero => rfl
  | succ k ih =>
    rw [frontNodes, List.filter_cons_of_pos (by simp [EditTreeNode.char, delete]),
      List.length_cons, ih]

/-- The rows of a tree whose root has a tombstone with one tombstone child and
`j` characters: the backing column gets `j + 1` tokens for `j` rows of
characters. -/
theorem wrap_tree_count (j a b : Nat) :
    (((editRows (.mk 0 0 ⟨[], 0⟩
        (.mk a delete ⟨[], 0⟩ [.mk b delete ⟨[98], 0⟩ []] :: frontNodes j))).map
        Prod.fst).flatMap backingTokens).length = j + 1 ∧
      (((editRows (.mk 0 0 ⟨[], 0⟩
        (.mk a delete ⟨[], 0⟩ [.mk b delete ⟨[98], 0⟩ []] :: frontNodes j))).map
        Prod.fst).filter (fun et => decide (et.char ≠ delete))).length = j := by
  have hrows : (editRows (.mk 0 0 ⟨[], 0⟩
      (.mk a delete ⟨[], 0⟩ [.mk b delete ⟨[98], 0⟩ []] :: frontNodes j))).map Prod.fst
      = .mk a delete ⟨[], 0⟩ [.mk b delete ⟨[98], 0⟩ []] :: .mk b delete ⟨[98], 0⟩ []
          :: frontNodes j := by
    rw [editRows_eq, rowsOf, rowsLoop, rowsOf, rowsLoop, rowsOf, rowsLoop, rowsLoop]
    simp only [List.nil_append, List.cons_append, List.map_cons, List.append_nil]
    rw [rowsLoop_frontNodes]
  have h1 : backingTokens (.mk a delete ⟨[], 0⟩ [.mk b delete ⟨[98], 0⟩ []])
      = [encodeRune delete] := by
    simp [backingTokens, deleteCount, EditTreeNode.next, EditTreeNode.char]
  have h2 : backingTokens (.mk b delete ⟨[98], 0⟩ []) = [] := by
    simp [backingTokens, deleteCount, EditTreeNode.next, EditTreeNode.char]
  rw [hrows]
  constructor
  · rw [List.flatMap_cons, List.flatMap_cons, h1, h2, List.length_append, List.length_append,
      backing_frontNodes]
    simp only [List.length_singleton, List.length_nil]
    omega
  · rw [List.filter_cons_of_neg (by simp [EditTreeNode.char]),
      List.filter_cons_of_neg (by simp [EditTreeNode.char]), live_frontNodes]

/-- After `k + 1` calls `Insert("a", 0, U+10000)` with `k + 2 = 0` in `uint32`,
the calls `Insert("", 0, delete)` and `Insert("b", 0, delete)` do not fail: the
first makes a tombstone with the id `("", 0)` of the root, which replaces the root
in `Edits`, and the second hangs its tombstone below that tombstone. The backing
column then gets one token more than there are rows of characters. -/
theorem wrap_backing_count (k : Nat) (hk : (k + 1 + 1) % 4294967296 = 0) :
    ∃ d head, (frontDoc (k + 1)).calls [.ins [] 0 delete, .ins [98] 0 delete] = .ok d ∧
      d.head = some head ∧
      (((editRows head).map Prod.fst).flatMap backingTokens).length = k + 2 ∧
      (((editRows head).map Prod.fst).filter
        (fun et => decide (et.char ≠ delete))).length = k + 1 := by
  have hloopA : applyAtLoop (.mk 0 0 ⟨[], 0⟩ (frontNodes (k + 1)))
      { char := delete, id := ⟨[], ((frontDoc (k + 1)).maxVersion + 1) % 4294967296⟩,
        prev := (EditTreeNode.mk 0 0 ⟨[], 0⟩ (frontNodes (k + 1))).id }
      (EditTreeNode.mk 0 0 ⟨[], 0⟩ (frontNodes (k + 1))).next 0 = .ok 0 := by
    simp [frontNodes, applyAtLoop, EditTreeNode.next, EditTreeNode.char, delete]
  obtain ⟨dA, hcA, hAA, hEA, hHA, hNA, hMA⟩ :=
    Insert_at_zero (d := frontDoc (k + 1)) [] delete rfl rfl rfl
      (lookupEdits_frontEdits (k + 1)) (by simp [findNode]) hloopA
  have hmA : dA.maxVersion = k + 1 := by
    rw [hMA]
    show max (k + 1) ((k + 1 + 1) % 4294967296) = k + 1
    rw [hk]
    exact max_eq_left (Nat.zero_le _)
  have hverA : ((frontDoc (k + 1)).maxVersion + 1) % 4294967296 = 0 := hk
  rw [hverA] at hEA hHA
  have hheadA : dA.head = some (.mk 0 0 ⟨[], 0⟩
      (.mk (k + 1 + 1) delete ⟨[], 0⟩ [] :: frontNodes (k + 1))) := by
    rw [hHA]
    simp [setNext, slicesInsert, frontDoc]
  have hnA : dA.nextAddr = k + 1 + 1 + 1 := by
    rw [hNA]
    rfl
  have hEA2 : dA.Edits = some ((⟨[], 0⟩, k + 1 + 1) :: frontEdits (k + 1)) := by
    rw [hEA]
    rfl
  have hverB : (dA.maxVersion + 1) % 4294967296 = 0 := by
    rw [hmA]
    exact hk
  have hfindB : findNode (k + 1 + 1) (.mk 0 0 ⟨[], 0⟩
      (.mk (k + 1 + 1) delete ⟨[], 0⟩ [] :: frontNodes (k + 1)))
      = some (.mk (k + 1 + 1) delete ⟨[], 0⟩ []) := by
    simp [findNode, findNodeList]
  obtain ⟨dB, hcB, -, -, hHB, -, -⟩ :=
    Insert_at_zero (d := dA) [98] delete hAA hEA2 hheadA
      (by simp [lookupEdits, EditTreeNode.id]) hfindB (by rfl)
  rw [hverB, hnA] at hHB
  have hheadB : dB.head = some (.mk 0 0 ⟨[], 0⟩
      (.mk (k + 1 + 1) delete ⟨[], 0⟩ [.mk (k + 1 + 1 + 1) delete ⟨[98], 0⟩ []]
        :: frontNodes (k + 1))) := by
    rw [hHB]
    have hne : ¬ (0 : Nat) = k + 1 + 1 := by omega
    rw [setNext, if_neg hne, setNextList, setNext, if_pos rfl,
      setNextList_frontNodes _ _ (k + 1) (by omega)]
    rfl
  have hcount := wrap_tree_count (k + 1) (k + 1 + 1) (k + 1 + 1 + 1)
  refine ⟨dB, _, ?_, hheadB, hcount.1, hcount.2⟩
  simp only [Document.calls, hcA, hcB]

/-- The count of C19 fails after `2^32 - 1` calls followed by a call of the actor
`""`: none of the `2^32 + 1` calls fails, and the backing column gets `2^32`
tokens for `2^32 - 1` rows of characters. -/
theorem backing_count_after_wrap :
    ∃ d head,
      New.calls (List.replicate (4294967294 + 1) (Op.ins [97] 0 65536)
        ++ [.ins [] 0 delete, .ins [98] 0 delete]) = .ok d ∧
      d.head = some head ∧
      (((editRows head).map Prod.fst).flatMap backingTokens).length = 4294967294 + 2 ∧
      (((editRows head).map Prod.fst).filter
        (fun et => decide (et.char ≠ delete))).length = 4294967294 + 1 := by
  obtain ⟨d, head, hc, hH, h1, h2⟩ := wrap_backing_count 4294967294 (by decide)
  refine ⟨d, head, ?_, hH, h1, h2⟩
  rw [calls_append _ _ _ _ (calls_front_New 4294967294 (by decide))]
  exact hc

end UDT
